import Mathlib

/-!
Verification of the `bowl` repository (an unrolled/zip skip list optimized for
batched sorted operations) against its natural-language specification.

The embedding follows `src/bowl.go` (the generic list, package `bowl`) and the
node module `src/node/node.go` (whose logic the generic `Node[k, v]` used by
`bowl.go` mirrors; the generic node file itself is absent from the sources, but
its behaviour is pinned down by `src/node_test.go` and by the untyped
`src/node/node.go`).  Keys and values are specialized to `Int` with the
integer comparator `cmpTest` used throughout the repository's tests; the
comparator instance carried by each node is modelled as an opaque tag `cmp`.

A Go node's backing array of capacity `NODE_SIZE` together with `dataCount` is
modelled by the list of live items `data` (the code never reads slots at or
beyond `dataCount`).  Pointers are modelled by node ids into a store; `nil`
is `none`.  Go `for {}` loops take explicit fuel; a function returns `none`
when fuel runs out or when the Go code would panic (index out of range,
nil dereference, or an explicit `panic` call).
-/

def NODE_SIZE : Nat := 32

def MAX_HEIGHT : Nat := 64

/-- The integer comparator `cmpTest` of the repository's tests:
-1 / 0 / 1 for less / equal / greater. -/
def cmpInt (a b : Int) : Int :=
  if a < b then -1 else if a = b then 0 else 1

/-- A key/value pair (`Item[k, v]` / `ItemHandle`). -/
structure Item where
  key : Int
  value : Int
deriving DecidableEq, Repr

/-- The default item used by `getD` reads (never actually read in range). -/
def dfltItem : Item := ⟨0, 0⟩

/-- Per-node error taxonomy from `src/node/node.go`. -/
inductive Err where
  | KeyAlreadyExist
  | NodeIsFull
  | NodeIsEmpty
  | DataNotFound
  | HeightOutsideRange
deriving DecidableEq, Repr

/-- A node: state flag, comparator tag, live sorted data, height and
forward pointers (`nextNodes[i]` is the successor id at level `i`). -/
structure Node where
  marked : Bool
  cmp : Nat
  data : List Item
  height : Nat
  nextNodes : List (Option Nat)
deriving DecidableEq, Repr

/-- `NewEmptyNode(h, cmp)`. -/
def NewEmptyNode (h : Nat) (cmp : Nat) : Node :=
  { marked := false, cmp := cmp, data := [], height := h,
    nextNodes := List.replicate h none }

/-- `NewNodeWithOrderedSlice(h, data, size, cmp)`: copies `data[:size]`. -/
def NewNodeWithOrderedSlice (h : Nat) (data : List Item) (size : Nat)
    (cmp : Nat) : Node :=
  { marked := false, cmp := cmp, data := data.take size, height := h,
    nextNodes := List.replicate h none }

def Node.GetHeight (n : Node) : Nat := n.height

def Node.MarkRemoval (n : Node) : Node := { n with marked := true }

def Node.MarkedRemoval (n : Node) : Bool := n.marked

def Node.GetCount (n : Node) : Nat := n.data.length

/-- Loop body of `GetPositionLessThanEqual`: first index `i` (as a Go `int`)
with `cmp(key, data[i].Key) <= 0`, else `-1`. -/
def posLEAux (key : Int) : List Item → Int → Int
  | [], _ => -1
  | it :: rest, i => if cmpInt key it.key ≤ 0 then i else posLEAux key rest (i + 1)

def Node.GetPositionLessThanEqual (n : Node) (key : Int) : Int :=
  posLEAux key n.data 0

/-- Loop body of `GetPositionGreaterThanEqual`: first index `i` with
`cmp(data[i].Key, key) >= 0`, else `-1`. -/
def posGEAux (key : Int) : List Item → Int → Int
  | [], _ => -1
  | it :: rest, i => if 0 ≤ cmpInt it.key key then i else posGEAux key rest (i + 1)

def Node.GetPositionGreaterThanEqual (n : Node) (key : Int) : Int :=
  posGEAux key n.data 0

/-- The binary-search loop of `GetPositionExact`.  The loop is bounded by
explicit fuel; each iteration strictly shrinks `high - low`, so fuel
`data.length + 1` (as supplied by `GetPositionExact`) never runs out. -/
def binSearch (data : List Item) (key : Int) : Nat → Int → Int → Int
  | 0, _, _ => -1
  | fuel + 1, low, high =>
    if low ≤ high then
      let mid := low + (high - low) / 2
      let c := cmpInt (data.getD mid.toNat dfltItem).key key
      if c = 0 then mid
      else if c = -1 then binSearch data key fuel (mid + 1) high
      else binSearch data key fuel low (mid - 1)
    else -1

def Node.GetPositionExact (n : Node) (key : Int) : Int :=
  if n.data.length = 0 then -1
  else binSearch n.data key (n.data.length + 1) 0 ((n.data.length : Int) - 1)

/-- `Node.Insert`: returns the node after the call together with the error
(`none` on success), mirroring Go's in-place mutation plus returned error. -/
def Node.Insert (n : Node) (ih : Item) : Node × Option Err :=
  let idx := n.GetPositionExact ih.key
  if idx ≠ -1 then (n, some .KeyAlreadyExist)
  else if n.data.length = NODE_SIZE then (n, some .NodeIsFull)
  else
    let idx2 := n.GetPositionLessThanEqual ih.key
    if idx2 = -1 then ({ n with data := n.data ++ [ih] }, none)
    else
      ({ n with data :=
          n.data.take idx2.toNat ++ ih :: n.data.drop idx2.toNat }, none)

def Node.Delete (n : Node) (key : Int) : Node × Option Err :=
  if n.data.length = 0 then (n, some .NodeIsEmpty)
  else
    let idx := n.GetPositionExact key
    if idx = -1 then (n, some .DataNotFound)
    else
      ({ n with data := n.data.take idx.toNat ++ n.data.drop (idx.toNat + 1) },
       none)

def Node.Update (n : Node) (d : Item) : Node × Option Err :=
  if n.data.length = 0 then (n, some .NodeIsEmpty)
  else
    let idx := n.GetPositionExact d.key
    if idx = -1 then (n, some .DataNotFound)
    else
      ({ n with data :=
          n.data.set idx.toNat { key := d.key, value := d.value } }, none)

/-- The generic `Node.Get(key, default)`: value (or the default) plus error. -/
def Node.Get (n : Node) (key : Int) (default : Int) : Int × Option Err :=
  if n.data.length = 0 then (default, some .NodeIsEmpty)
  else
    let idx := n.GetPositionExact key
    if idx = -1 then (default, some .DataNotFound)
    else ((n.data.getD idx.toNat dfltItem).value, none)

def Node.Exist (n : Node) (key : Int) : Bool :=
  if n.data.length = 0 then false
  else n.GetPositionExact key ≠ -1

def Node.CheckKeyStrictlyLessThanMax (n : Node) (key : Int) :
    Bool × Option Err :=
  if n.data.length = 0 then (false, some .NodeIsEmpty)
  else (cmpInt key (n.data.getD (n.data.length - 1) dfltItem).key = -1, none)

def Node.CheckKeyStrictlyLessThanMin (n : Node) (key : Int) :
    Bool × Option Err :=
  if n.data.length = 0 then (false, some .NodeIsEmpty)
  else (cmpInt key (n.data.getD 0 dfltItem).key = -1, none)

/-- `ConnectNode(atHeight, next)` (with `next` possibly nil). -/
def Node.ConnectNode (n : Node) (atHeight : Int) (next : Option Nat) :
    Node × Option Err :=
  if atHeight < 0 ∨ (n.height : Int) ≤ atHeight then
    (n, some .HeightOutsideRange)
  else ({ n with nextNodes := n.nextNodes.set atHeight.toNat next }, none)

def Node.DisconnectNode (n : Node) (atHeight : Int) : Node × Option Err :=
  if atHeight < 0 ∨ (n.height : Int) ≤ atHeight then
    (n, some .HeightOutsideRange)
  else ({ n with nextNodes := n.nextNodes.set atHeight.toNat none }, none)

def Node.GetNextNodeAt (n : Node) (atHeight : Int) :
    Option Nat × Option Err :=
  if atHeight < 0 ∨ (n.height : Int) ≤ atHeight then
    (none, some .HeightOutsideRange)
  else (n.nextNodes.getD atHeight.toNat none, none)

/-- `Node.ScanAll(fn)`: the items passed to the visitor, in order. -/
def Node.ScanAll (n : Node) : List Item := n.data

/-- `Node.ScanGreaterThanEqual(key, fn)`. -/
def Node.ScanGreaterThanEqual (n : Node) (key : Int) : List Item :=
  let ok := (n.CheckKeyStrictlyLessThanMax key).1
  if !ok then []
  else
    let idx := n.GetPositionGreaterThanEqual key
    if idx ≠ -1 then n.data.drop idx.toNat
    else n.ScanAll

/-- `Node.ScanStrictlyLessThan(key, fn)`. -/
def Node.ScanStrictlyLessThan (n : Node) (key : Int) : List Item :=
  let ok := (n.CheckKeyStrictlyLessThanMin key).1
  if ok then []
  else
    let idx := n.GetPositionLessThanEqual key
    if idx ≠ -1 then n.data.take idx.toNat
    else n.ScanAll

/-- Modelled from the spec: the generic node's combined range scan
(`Node.ScanRange`, invoked by `Bowl.ScanRange`'s single-node path) is not
under src/ — only the untyped node module is, which lacks it.  Per the
spec's scan-range contract it delivers the node's items in `[lo, hi)`,
ascending. -/
def Node.ScanRange (n : Node) (fromKey toKey : Int) : List Item :=
  n.data.filter (fun it => fromKey ≤ it.key ∧ it.key < toKey)

/-- `SplitIntoNewNode(h)`: returns (this node after the call, new node). -/
def Node.SplitIntoNewNode (n : Node) (h : Nat) : Node × Node :=
  let posToSplit := n.data.length / 2
  let newNode := NewNodeWithOrderedSlice h (n.data.drop posToSplit)
    (n.data.length - posToSplit) n.cmp
  ({ n with data := n.data.take posToSplit }, newNode)

def Node.GetMinKey (n : Node) (default : Int) : Int × Option Err :=
  if n.data.length = 0 then (default, some .NodeIsEmpty)
  else ((n.data.getD 0 dfltItem).key, none)

example :
    let n0 := NewEmptyNode 4 0
    let n1 := (n0.Insert ⟨5, 50⟩).1
    let n2 := (n1.Insert ⟨1, 10⟩).1
    n2.data = [⟨1, 10⟩, ⟨5, 50⟩] := by decide

example :
    let n0 := NewEmptyNode 4 0
    let n1 := (n0.Insert ⟨5, 50⟩).1
    let n2 := (n1.Insert ⟨1, 10⟩).1
    (n2.GetPositionExact 5 = 1 ∧ n2.GetPositionExact 3 = -1 ∧
      n2.ScanGreaterThanEqual 5 = [] ∧
      n2.ScanGreaterThanEqual 3 = [⟨5, 50⟩] ∧
      n2.ScanStrictlyLessThan 5 = [⟨1, 10⟩]) := by decide

/-!
## The list (`Bowl[k, v]` of `src/bowl.go`)

The store `nodes` holds every allocated node, indexed by id; the head
sentinel is id `0`.  `latest` models `latestPointingNodes` (a `nil` Go
pointer is `none`).  `ch` models the random-height channel as the stream of
heights it will deliver; receiving from an empty stream (which in Go would
block forever) is `none`.
-/

structure BowlT where
  nodes : List Node
  latest : List (Option Nat)
  ch : List Nat
deriving DecidableEq, Repr

/-- `NewBOWL(cmp)` with the height stream the channel will produce. -/
def NewBOWL (ch : List Nat) : BowlT :=
  { nodes := [NewEmptyNode MAX_HEIGHT 0],
    latest := List.replicate MAX_HEIGHT none,
    ch := ch }

def BowlT.getN (b : BowlT) (i : Nat) : Option Node := b.nodes.get? i

def BowlT.setN (b : BowlT) (i : Nat) (n : Node) : BowlT :=
  { b with nodes := b.nodes.set i n }

/-- `id.ConnectNode(h, next)` with the returned error discarded (as at each
call site that ignores it). -/
def BowlT.connectIgnore (b : BowlT) (id : Nat) (h : Int) (next : Option Nat) :
    BowlT :=
  match b.getN id with
  | none => b
  | some n => b.setN id (n.ConnectNode h next).1

/-- `id.DisconnectNode(h)` with the returned error discarded. -/
def BowlT.disconnectIgnore (b : BowlT) (id : Nat) (h : Int) : BowlT :=
  match b.getN id with
  | none => b
  | some n => b.setN id (n.DisconnectNode h).1

def resetLatestPointingNodes (b : BowlT) : BowlT :=
  { b with latest := List.replicate MAX_HEIGHT (some 0) }

/-- `setLatestPointingNodes(n)`: `latest[i] ← n` for `i < n.GetHeight()`. -/
def setLatestPointingNodes (b : BowlT) (nid : Nat) : BowlT :=
  match b.getN nid with
  | none => b
  | some n =>
    { b with latest := b.latest.mapIdx fun i v =>
        if i < n.height then some nid else v }

/-- `getNextNodeAtHeightNotMarkedRemoval(h, prev, next)`: walk past (and
splice out) MARKED_REMOVED successors at level `h`. -/
def getNextNodeAtHeightNotMarkedRemoval (h : Int) (prev : Nat) :
    Nat → BowlT → Nat → Option (BowlT × Bool × Nat)
  | 0, _, _ => none
  | fuel + 1, b, next =>
    match b.getN next with
    | none => none
    | some nn =>
      if nn.MarkedRemoval then
        match (nn.GetNextNodeAt h).1 with
        | none => some (b, false, next)
        | some afterNext =>
          let b := b.connectIgnore prev h (some afterNext)
          let b := b.disconnectIgnore next h
          getNextNodeAtHeightNotMarkedRemoval h prev fuel b afterNext
      else some (b, true, next)

/-- `scanNextNodeNotMarkedRemoval(prev, next)` (level-0 variant used by the
scan loops). -/
def scanNextNodeNotMarkedRemoval (prev : Nat) :
    Nat → BowlT → Nat → Option (BowlT × Bool × Nat)
  | 0, _, _ => none
  | fuel + 1, b, next =>
    match b.getN next with
    | none => none
    | some nn =>
      if nn.MarkedRemoval then
        match (nn.GetNextNodeAt 0).1 with
        | none => some (b, false, next)
        | some afterNext =>
          let b := b.connectIgnore prev 0 (some afterNext)
          let b := b.disconnectIgnore next 0
          scanNextNodeNotMarkedRemoval prev fuel b afterNext
      else some (b, true, next)

/-- `getValidNodeToStartScan()`: `none` in the result means the Go function
returned `nil`. -/
def getValidNodeToStartScan (b : BowlT) (fuel : Nat) :
    Option (BowlT × Option Nat) :=
  match b.getN 0 with
  | none => none
  | some head =>
    match (head.GetNextNodeAt 0).1 with
    | none => some (b, none)
    | some nid =>
      match getNextNodeAtHeightNotMarkedRemoval 0 0 fuel b nid with
      | none => none
      | some (b, ok, nid) => if ok then some (b, some nid) else some (b, none)

/-- The level loop of `getNextNodeFromHead` (`for h := MAX_HEIGHT - 1; h > 0;`).
The `Nat` argument is the current level; at `0` the loop has ended without
returning. -/
def gnnfhLoop (key : Int) (fuel : Nat) : BowlT → Nat → Option (BowlT × Option Nat)
  | b, 0 => some (b, none)
  | b, lvl + 1 =>
    match b.getN 0 with
    | none => none
    | some head =>
      match (head.GetNextNodeAt ((lvl + 1 : Nat) : Int)).1 with
      | none => gnnfhLoop key fuel b lvl
      | some nx =>
        match getNextNodeAtHeightNotMarkedRemoval ((lvl + 1 : Nat) : Int) 0 fuel b nx with
        | none => none
        | some (b, ok, nx) =>
          if !ok then gnnfhLoop key fuel b lvl
          else
            match b.getN nx with
            | none => none
            | some nn =>
              let r := nn.CheckKeyStrictlyLessThanMin key
              if r.2.isSome ∧ r.1 = false then
                some (setLatestPointingNodes b nx, some nx)
              else gnnfhLoop key fuel b lvl

/-- `head.ConnectNode(i, newNode)` for `i` in `[0, h)`, errors discarded. -/
def connectHeadLevels (b : BowlT) (nid : Nat) : Nat → BowlT
  | 0 => b
  | i + 1 => (connectHeadLevels b nid i).connectIgnore 0 (i : Int) (some nid)

/-- `getNextNodeFromHead(key)`. -/
def getNextNodeFromHead (b : BowlT) (key : Int) (fuel : Nat) :
    Option (BowlT × Nat) :=
  match gnnfhLoop key fuel b (MAX_HEIGHT - 1) with
  | none => none
  | some (b, some nid) => some (b, nid)
  | some (b, none) =>
    match b.getN 0 with
    | none => none
    | some head =>
      match (head.GetNextNodeAt 0).1 with
      | some n => some (b, n)
      | none =>
        match b.ch with
        | [] => none
        | nextHeight :: restCh =>
          let newNode := NewEmptyNode nextHeight 0
          let nid := b.nodes.length
          let b := { b with nodes := b.nodes ++ [newNode], ch := restCh }
          let b := connectHeadLevels b nid nextHeight
          let b := setLatestPointingNodes b nid
          some (b, nid)

/-- The inner level loop of `getCorrectNode` (`for h >= 0`).  `hp` encodes
the Go level as `h = hp - 1` (so `hp = 0` means the loop has run out).
The result is `(state, atLeastCheck1NextNode, move)` where a move at level
`h` carries the new node and the unchanged `hp = h + 1` (the Go `h` persists
across outer iterations). -/
def gcnInner (key : Int) (fuel : Nat) :
    BowlT → Nat → Nat → Bool → Option (BowlT × Bool × Option (Nat × Nat))
  | b, _, 0, flag => some (b, flag, none)
  | b, cur, hp + 1, flag =>
    match b.getN cur with
    | none => none
    | some cn =>
      match (cn.GetNextNodeAt (hp : Int)).1 with
      | none => gcnInner key fuel b cur hp flag
      | some nx =>
        match getNextNodeAtHeightNotMarkedRemoval (hp : Int) cur fuel b nx with
        | none => none
        | some (b, ok, nx) =>
          if !ok then gcnInner key fuel b cur hp flag
          else
            match b.getN nx with
            | none => none
            | some nn =>
              if (nn.CheckKeyStrictlyLessThanMin key).1 then
                gcnInner key fuel b cur hp true
              else some (b, true, some (nx, hp + 1))

/-- The outer loop of `getCorrectNode`. -/
def gcnOuter (key : Int) (fuel : Nat) :
    Nat → BowlT → Nat → Nat → Option (BowlT × Nat)
  | 0, _, _, _ => none
  | f + 1, b, cur, hp =>
    match b.getN cur with
    | none => none
    | some cn =>
      if (cn.CheckKeyStrictlyLessThanMax key).1 then
        some (setLatestPointingNodes b cur, cur)
      else
        match gcnInner key fuel b cur hp false with
        | none => none
        | some (b, _, some (nx, hp')) =>
          gcnOuter key fuel f (setLatestPointingNodes b nx) nx hp'
        | some (b, flag, none) =>
          if flag then gcnOuter key fuel f b cur 0
          else some (b, cur)

/-- `getCorrectNode(key, currentNode)`; `h` starts at `GetHeight()`. -/
def getCorrectNode (b : BowlT) (key : Int) (cur : Nat) (fuel : Nat) :
    Option (BowlT × Nat) :=
  match b.getN cur with
  | none => none
  | some cn => gcnOuter key fuel fuel b cur (cn.height + 1)

/-- `insertFastPathConnectNewNodeFromCurrent(currentNode, newNode, height)`. -/
def insertFastPathConnectNewNodeFromCurrent (b : BowlT) (cur newId : Nat) :
    Nat → BowlT
  | 0 => b
  | j + 1 =>
    let b := insertFastPathConnectNewNodeFromCurrent b cur newId j
    let nx :=
      match b.getN cur with
      | none => none
      | some cn => (cn.GetNextNodeAt (j : Int)).1
    let b := b.connectIgnore newId (j : Int) nx
    b.connectIgnore cur (j : Int) (some newId)

/-- The loop of `connectUntil` (`for h := fromHeight; h >= toHeight; h--`);
the step count is supplied by `connectUntil`.  The Go code panics on a
`ConnectNode` error, on a negative index and on an index beyond the length
of `latestPointingNodes` (all `none` here). -/
def connectUntilAux (target : Nat) : BowlT → Int → Int → Nat → Option BowlT
  | b, _, _, 0 => some b
  | b, h, toH, steps + 1 =>
    if h < toH then some b
    else if h < 0 then none
    else
      match b.latest.get? h.toNat with
      | none => none
      | some none => none
      | some (some lid) =>
        match b.getN lid with
        | none => none
        | some ln =>
          let r := ln.ConnectNode h (some target)
          if r.2.isSome then none
          else connectUntilAux target (b.setN lid r.1) (h - 1) toH steps

def connectUntil (b : BowlT) (target : Nat) (fromH toH : Int) : Option BowlT :=
  connectUntilAux target b fromH toH (fromH + 1 - toH).toNat

/-- The body of `Insert`'s per-item loop. -/
def insertLoop (fuel : Nat) :
    BowlT → Nat → List Item → Option (BowlT × List (Option Err))
  | b, _, [] => some (b, [])
  | b, cur, ih :: rest =>
    match getCorrectNode b ih.key cur fuel with
    | none => none
    | some (b, cur) =>
      match b.getN cur with
      | none => none
      | some cn =>
        let r := cn.Insert ih
        let b := b.setN cur r.1
        if r.2 = some Err.NodeIsFull then
          match b.ch with
          | [] => none
          | newHeight :: restCh =>
            let b := { b with ch := restCh }
            match b.getN cur with
            | none => none
            | some cn2 =>
              let s := cn2.SplitIntoNewNode newHeight
              let newId := b.nodes.length
              let b := { b with nodes := (b.nodes.set cur s.1) ++ [s.2] }
              let minHeight := if newHeight > cn2.height then cn2.height else newHeight
              let b := insertFastPathConnectNewNodeFromCurrent b cur newId minHeight
              let b := setLatestPointingNodes b cur
              match (if newHeight > cn2.height then
                      connectUntil b newId (newHeight : Int) (cn2.height : Int)
                     else some b) with
              | none => none
              | some b =>
                match b.getN cur with
                | none => none
                | some cn3 =>
                  if (cn3.CheckKeyStrictlyLessThanMax ih.key).1 then
                    let r2 := cn3.Insert ih
                    let b := b.setN cur r2.1
                    if r2.2.isSome then none
                    else
                      match insertLoop fuel b cur rest with
                      | none => none
                      | some (b, es) => some (b, none :: es)
                  else
                    match b.getN newId with
                    | none => none
                    | some nn =>
                      let r2 := nn.Insert ih
                      let b := b.setN newId r2.1
                      if r2.2.isSome then none
                      else
                        let b := setLatestPointingNodes b newId
                        match insertLoop fuel b newId rest with
                        | none => none
                        | some (b, es) => some (b, none :: es)
        else
          match insertLoop fuel b cur rest with
          | none => none
          | some (b, es) => some (b, r.2 :: es)

/-- `Insert(ihs)`.  An empty batch reads `ihs[0].Key` out of range. -/
def bowlInsert (b : BowlT) (ihs : List Item) (fuel : Nat) :
    Option (BowlT × List (Option Err)) :=
  match ihs with
  | [] => none
  | ih0 :: _ =>
    let b := resetLatestPointingNodes b
    match getNextNodeFromHead b ih0.key fuel with
    | none => none
    | some (b, cur) => insertLoop fuel b cur ihs

def getLoop (fuel : Nat) (default : Int) :
    BowlT → Nat → List Int → Option (BowlT × List Int)
  | b, _, [] => some (b, [])
  | b, cur, k :: ks =>
    match getCorrectNode b k cur fuel with
    | none => none
    | some (b, cur) =>
      match b.getN cur with
      | none => none
      | some n =>
        match getLoop fuel default b cur ks with
        | none => none
        | some (b, vs) => some (b, (n.Get k default).1 :: vs)

/-- `Get(keys, notFoundDefaultValue)`. -/
def bowlGet (b : BowlT) (keys : List Int) (default : Int) (fuel : Nat) :
    Option (BowlT × List Int) :=
  match keys with
  | [] => none
  | k0 :: _ =>
    match getNextNodeFromHead b k0 fuel with
    | none => none
    | some (b, cur) => getLoop fuel default b cur keys

def updateLoop (fuel : Nat) :
    BowlT → Nat → List Item → Option (BowlT × List (Option Err))
  | b, _, [] => some (b, [])
  | b, cur, ih :: rest =>
    match getCorrectNode b ih.key cur fuel with
    | none => none
    | some (b, cur) =>
      match b.getN cur with
      | none => none
      | some n =>
        let r := n.Update ih
        let b := b.setN cur r.1
        match updateLoop fuel b cur rest with
        | none => none
        | some (b, es) => some (b, r.2 :: es)

/-- `Update(ihs)`. -/
def bowlUpdate (b : BowlT) (ihs : List Item) (fuel : Nat) :
    Option (BowlT × List (Option Err)) :=
  match ihs with
  | [] => none
  | ih0 :: _ =>
    match getNextNodeFromHead b ih0.key fuel with
    | none => none
    | some (b, cur) => updateLoop fuel b cur ihs

def deleteLoop (fuel : Nat) :
    BowlT → Nat → List Int → Option (BowlT × List (Option Err))
  | b, _, [] => some (b, [])
  | b, cur, k :: ks =>
    match getCorrectNode b k cur fuel with
    | none => none
    | some (b, cur) =>
      match b.getN cur with
      | none => none
      | some n =>
        let r := n.Delete k
        let b := b.setN cur r.1
        let b := if r.1.GetCount = 0 then b.setN cur r.1.MarkRemoval else b
        match deleteLoop fuel b cur ks with
        | none => none
        | some (b, es) => some (b, r.2 :: es)

/-- `Delete(keys)`. -/
def bowlDelete (b : BowlT) (keys : List Int) (fuel : Nat) :
    Option (BowlT × List (Option Err)) :=
  match keys with
  | [] => none
  | k0 :: _ =>
    match getNextNodeFromHead b k0 fuel with
    | none => none
    | some (b, cur) => deleteLoop fuel b cur keys

/-- The walk of `ScanAll` over the level-0 chain. -/
def bowlScanAllLoop : Nat → BowlT → Nat → Option (BowlT × List Item)
  | 0, _, _ => none
  | f + 1, b, nid =>
    match b.getN nid with
    | none => none
    | some n =>
      match (n.GetNextNodeAt 0).1 with
      | none => some (b, n.ScanAll)
      | some nx =>
        match scanNextNodeNotMarkedRemoval nid f b nx with
        | none => none
        | some (b, ok, nx) =>
          if !ok then some (b, n.ScanAll)
          else
            match bowlScanAllLoop f b nx with
            | none => none
            | some (b, rest) => some (b, n.ScanAll ++ rest)

/-- `ScanAll(fn)`: the items passed to the visitor, in order. -/
def bowlScanAll (b : BowlT) (fuel : Nat) : Option (BowlT × List Item) :=
  match getValidNodeToStartScan b fuel with
  | none => none
  | some (b, none) => some (b, [])
  | some (b, some nid) => bowlScanAllLoop fuel b nid

def bowlScanGELoop : Nat → BowlT → Nat → Option (BowlT × List Item)
  | 0, _, _ => none
  | f + 1, b, nid =>
    match b.getN nid with
    | none => none
    | some n =>
      match (n.GetNextNodeAt 0).1 with
      | none => some (b, [])
      | some nx =>
        match scanNextNodeNotMarkedRemoval nid f b nx with
        | none => none
        | some (b, ok, nx) =>
          if !ok then some (b, [])
          else
            match b.getN nx with
            | none => none
            | some nn =>
              match bowlScanGELoop f b nx with
              | none => none
              | some (b, rest) => some (b, nn.ScanAll ++ rest)

/-- `ScanGreaterThanEqual(key, fn)`. -/
def bowlScanGreaterThanEqual (b : BowlT) (key : Int) (fuel : Nat) :
    Option (BowlT × List Item) :=
  match getNextNodeFromHead b key fuel with
  | none => none
  | some (b, nid) =>
    match getCorrectNode b key nid fuel with
    | none => none
    | some (b, nid) =>
      match b.getN nid with
      | none => none
      | some n =>
        match bowlScanGELoop fuel b nid with
        | none => none
        | some (b, rest) => some (b, n.ScanGreaterThanEqual key ++ rest)

def bowlScanLTLoop (key : Int) : Nat → BowlT → Nat → Option (BowlT × List Item)
  | 0, _, _ => none
  | f + 1, b, nid =>
    match b.getN nid with
    | none => none
    | some n =>
      if (n.CheckKeyStrictlyLessThanMax key).1 then
        some (b, n.ScanStrictlyLessThan key)
      else
        match (n.GetNextNodeAt 0).1 with
        | none => some (b, n.ScanAll)
        | some nx =>
          match scanNextNodeNotMarkedRemoval nid f b nx with
          | none => none
          | some (b, ok, nx) =>
            if !ok then some (b, n.ScanAll)
            else
              match b.getN nx with
              | none => none
              | some nn =>
                if (nn.CheckKeyStrictlyLessThanMin key).1 then
                  some (b, n.ScanAll)
                else
                  match bowlScanLTLoop key f b nx with
                  | none => none
                  | some (b, rest) => some (b, n.ScanAll ++ rest)

/-- `ScanStrictlyLessThan(key, fn)`. -/
def bowlScanStrictlyLessThan (b : BowlT) (key : Int) (fuel : Nat) :
    Option (BowlT × List Item) :=
  match getValidNodeToStartScan b fuel with
  | none => none
  | some (b, none) => some (b, [])
  | some (b, some nid) => bowlScanLTLoop key fuel b nid

def bowlScanRangeLoop (toKey : Int) : Nat → BowlT → Nat → Option (BowlT × List Item)
  | 0, _, _ => none
  | f + 1, b, nid =>
    match b.getN nid with
    | none => none
    | some n =>
      match (n.GetNextNodeAt 0).1 with
      | none => some (b, [])
      | some nx =>
        match scanNextNodeNotMarkedRemoval nid f b nx with
        | none => none
        | some (b, ok, nx) =>
          if !ok then some (b, [])
          else
            match b.getN nx with
            | none => none
            | some nn =>
              if (nn.CheckKeyStrictlyLessThanMax toKey).1 then
                some (b, nn.ScanStrictlyLessThan toKey)
              else
                if (nn.CheckKeyStrictlyLessThanMin toKey).1 then
                  some (b, nn.ScanAll)
                else
                  match bowlScanRangeLoop toKey f b nx with
                  | none => none
                  | some (b, rest) => some (b, nn.ScanAll ++ rest)

/-- `ScanRange(fromKey, toKey, fn)`. -/
def bowlScanRange (b : BowlT) (fromKey toKey : Int) (fuel : Nat) :
    Option (BowlT × List Item) :=
  match getNextNodeFromHead b fromKey fuel with
  | none => none
  | some (b, nid) =>
    match getCorrectNode b fromKey nid fuel with
    | none => none
    | some (b, nid) =>
      match b.getN nid with
      | none => none
      | some n =>
        if (n.CheckKeyStrictlyLessThanMax toKey).1 then
          some (b, n.ScanRange fromKey toKey)
        else
          match bowlScanRangeLoop toKey fuel b nid with
          | none => none
          | some (b, rest) => some (b, n.ScanGreaterThanEqual fromKey ++ rest)

/-!
## Definitions used by the statements
-/

/-- Keys strictly ascending (invariant I1 of the spec). -/
def sortedItems (l : List Item) : Prop :=
  l.Chain' (fun a b => a.key < b.key)

/-- Executable check for `sortedItems`. -/
def sortedItemsB : List Item → Bool
  | [] => true
  | [_] => true
  | a :: b :: rest => decide (a.key < b.key) && sortedItemsB (b :: rest)

instance : DecidablePred sortedItems := fun l =>
  decidable_of_iff (sortedItemsB l = true) (by
    induction l with
    | nil => simp [sortedItemsB, sortedItems]
    | cons a rest ih =>
      cases rest with
      | nil => simp [sortedItemsB, sortedItems]
      | cons b rest2 =>
        rw [sortedItemsB]
        unfold sortedItems at ih ⊢
        rw [List.chain'_cons]
        rw [Bool.and_eq_true, decide_eq_true_iff, ih])

/-- The pointer stored at level `lvl` of node `id` (`none` when the node
does not exist). -/
def ptrAt (b : BowlT) (id lvl : Nat) : Option (Option Nat) :=
  (b.getN id).map (fun n => n.nextNodes.getD lvl none)

/-- Scenario P9 / test 6 of the spec: 32 keys into one node, delete all
(marking the node), then insert one key in the former range.  The height
stream serves the single node creation (and would serve a split). -/
def c2_items : List Item := (List.range 32).map (fun i => ⟨(i : Int) + 1, (i : Int) + 1⟩)

def c2_keys : List Int := (List.range 32).map (fun i => (i : Int) + 1)

def c2_state : Option BowlT := do
  let b ← (bowlInsert (NewBOWL [1, 1]) c2_items 1000).map Prod.fst
  let b ← (bowlDelete b c2_keys 1000).map Prod.fst
  (bowlInsert b [⟨5, 55⟩] 1000).map Prod.fst

/-- A list holding keys 1 and 5 in a single node. -/
def c3_state : Option BowlT :=
  (bowlInsert (NewBOWL [1]) [⟨1, 1⟩, ⟨5, 5⟩] 1000).map Prod.fst

/-- A full node (32 keys, height 1) split by a 33rd insert whose sampled
height is 3. -/
def c5_state : Option BowlT := do
  let b ← (bowlInsert (NewBOWL [1, 3]) c2_items 1000).map Prod.fst
  (bowlInsert b [⟨100, 100⟩] 1000).map Prod.fst

/-- Keys 10,20,…,330 with heights 1 then 2: node 1 (height 1) keeps keys
10..160, node 2 (height 2) holds 170..330 and hangs off head at levels 1–2. -/
def c6_items : List Item :=
  (List.range 33).map (fun i => ⟨10 * ((i : Int) + 1), 10 * ((i : Int) + 1)⟩)

def c6_state : Option BowlT :=
  (bowlInsert (NewBOWL [1, 2]) c6_items 1000).map Prod.fst

/-- A one-node store with a four-entry `latest` vector, used to witness the
connect-taller characterization. -/
def c5w_bowl : BowlT :=
  { nodes := [NewEmptyNode 64 0],
    latest := [some 0, some 0, some 0, some 0], ch := [] }

/-- A cursor node with no items and no successors: traversal from it cannot
move and node operations see an empty node. -/
def isInert (b : BowlT) (cur : Nat) : Prop :=
  ∃ n, b.getN cur = some n ∧ n.data = [] ∧
    ∀ i : Nat, n.nextNodes.getD i none = none

/-!
## The level-0 chain and the structural invariant (claim C1)

`ChainSeg ns o ids o'` says that starting from the pointer `o` the node ids
`ids` are linked consecutively through their level-0 pointers, ending with
the continuation pointer `o'`; the full chain of a list is the segment from
the head's level-0 pointer to `none`.  `InvAt` packages the structural
well-formedness facts that every public operation preserves.
-/

/-- The level-0 forward pointer of a node. -/
def next0 (n : Node) : Option Nat := n.nextNodes.getD 0 none

inductive ChainSeg (ns : List Node) : Option Nat → List Nat → Option Nat → Prop where
  | nil (o : Option Nat) : ChainSeg ns o [] o
  | cons {i : Nat} {n : Node} {rest : List Nat} {o' : Option Nat}
      (hget : ns.get? i = some n)
      (htail : ChainSeg ns (next0 n) rest o') :
      ChainSeg ns (some i) (i :: rest) o'

/-- The data stored at node id `j` (empty when the id is dangling). -/
def dataAt (ns : List Node) (j : Nat) : List Item :=
  match ns.get? j with
  | some n => n.data
  | none => []

/-- The items stored along a list of node ids, in order. -/
def chainItems (ns : List Node) : List Nat → List Item
  | [] => []
  | i :: rest => dataAt ns i ++ chainItems ns rest

/-- Shape equality of two nodes: same data, state, height and pointer-vector
length (the pointers themselves may differ). -/
def nodeShapeEq (n n' : Node) : Prop :=
  n'.data = n.data ∧ n'.marked = n.marked ∧ n'.height = n.height ∧
    n'.nextNodes.length = n.nextNodes.length

/-- Every node of `b` survives into `b'` with its shape intact. -/
def storePres (b b' : BowlT) : Prop :=
  ∀ j n, b.getN j = some n → ∃ n', b'.getN j = some n' ∧ nodeShapeEq n n'

/-- The structural invariant of a BOWL state: a well-formed head sentinel, a
level-0 chain, per-node well-formedness, every non-marked node reachable on
the chain, no pointer back to the head, marked chain nodes past the first
empty, an empty live node only as the sole chain node, sane pending channel
heights, and strictly ascending items along the chain. -/
structure InvAt (b : BowlT) (hd : Node) (ids : List Nat) : Prop where
  hhd : b.getN 0 = some hd
  hd_height : hd.height = MAX_HEIGHT
  hd_data : hd.data = []
  hd_marked : hd.marked = false
  chain : ChainSeg b.nodes (next0 hd) ids none
  node_len : ∀ j n, b.getN j = some n → n.nextNodes.length = n.height
  node_ht : ∀ j n, b.getN j = some n → 1 ≤ n.height ∧ n.height ≤ MAX_HEIGHT
  node_sorted : ∀ j n, b.getN j = some n → sortedItems n.data
  active_in_chain : ∀ j n, b.getN j = some n → n.marked = false → j = 0 ∨ j ∈ ids
  no_ptr_zero : ∀ j n (lvl : Nat), b.getN j = some n →
    n.nextNodes.getD lvl none ≠ some 0
  marked_tail_empty : ∀ j, j ∈ ids.drop 1 → ∀ n, b.getN j = some n →
    n.marked = true → n.data = []
  empty_active_sole : ∀ j, j ∈ ids → ∀ n, b.getN j = some n →
    n.marked = false → n.data = [] → ids = [j]
  ch_ok : ∀ h ∈ b.ch, 1 ≤ h ∧ h ≤ MAX_HEIGHT
  items_sorted : sortedItems (chainItems b.nodes ids)

/-- One batched public mutation (the operations claim P1/P2 range over). -/
inductive BatchOp where
  | insert (ihs : List Item)
  | update (ihs : List Item)
  | delete (keys : List Int)
deriving DecidableEq, Repr

/-- The batch is pre-sorted ascending, as the spec assumes of all inputs. -/
def BatchOp.sortedInput : BatchOp → Prop
  | .insert ihs => (ihs.map Item.key).Chain' (· ≤ ·)
  | .update ihs => (ihs.map Item.key).Chain' (· ≤ ·)
  | .delete keys => keys.Chain' (· ≤ ·)

/-- Run one batched operation, keeping the resulting list state. -/
def runOp (fuel : Nat) (b : BowlT) : BatchOp → Option BowlT
  | .insert ihs => (bowlInsert b ihs fuel).map Prod.fst
  | .update ihs => (bowlUpdate b ihs fuel).map Prod.fst
  | .delete keys => (bowlDelete b keys fuel).map Prod.fst

/-- Run a sequence of batched operations from a starting state. -/
def runOps (fuel : Nat) : BowlT → List BatchOp → Option BowlT
  | b, [] => some b
  | b, op :: ops =>
    match runOp fuel b op with
    | none => none
    | some b2 => runOps fuel b2 ops

/-!
## Basic lemmas about the comparator and sortedness
-/

theorem cmpInt_eq_negOne {a b : Int} : cmpInt a b = -1 ↔ a < b := by
  unfold cmpInt
  split
  · simp_all
  · split <;> simp_all

theorem cmpInt_eq_zero {a b : Int} : cmpInt a b = 0 ↔ a = b := by
  unfold cmpInt
  split
  · constructor
    · intro h; omega
    · intro h; omega
  · split <;> simp_all

theorem sortedItems_pairwise {l : List Item} (h : sortedItems l) :
    l.Pairwise (fun a b => a.key < b.key) := by
  haveI : IsTrans Item (fun a b => a.key < b.key) :=
    ⟨fun _ _ _ hab hbc => lt_trans hab hbc⟩
  exact List.chain'_iff_pairwise.mp h

theorem sortedItems_strict {l : List Item} (h : sortedItems l)
    {i j : Nat} (hij : i < j) (hj : j < l.length) :
    (l.getD i dfltItem).key < (l.getD j dfltItem).key := by
  have hp := sortedItems_pairwise h
  rw [List.pairwise_iff_getElem] at hp
  have hi : i < l.length := lt_trans hij hj
  have := hp i j hi hj hij
  rwa [List.getD_eq_getElem l dfltItem hi, List.getD_eq_getElem l dfltItem hj]

theorem sortedItems_mono {l : List Item} (h : sortedItems l)
    {i j : Nat} (hij : i ≤ j) (hj : j < l.length) :
    (l.getD i dfltItem).key ≤ (l.getD j dfltItem).key := by
  rcases Nat.lt_or_ge i j with hlt | hge
  · exact le_of_lt (sortedItems_strict h hlt hj)
  · have : i = j := le_antisymm hij hge
    subst this; exact le_refl _

theorem cmpInt_le_zero {a b : Int} : cmpInt a b ≤ 0 ↔ a ≤ b := by
  unfold cmpInt
  split
  · simp; omega
  · split <;> simp_all <;> omega

theorem cmpInt_out {a b : Int} (h0 : cmpInt a b ≠ 0) (h1 : cmpInt a b ≠ -1) :
    b < a := by
  unfold cmpInt at h0 h1
  by_contra hc
  rcases lt_or_eq_of_le (not_lt.mp hc) with h | h <;> simp_all

/-- Correctness of the binary-search loop on sorted data. -/
theorem binSearch_go {data : List Item} {key : Int} (hs : sortedItems data) :
    ∀ (fuel : Nat) (low high : Int), 0 ≤ low → high < (data.length : Int) →
    (high + 1 - low).toNat ≤ fuel →
    (binSearch data key fuel low high = -1 ∧
      ∀ i : Nat, low ≤ (i : Int) → (i : Int) ≤ high → i < data.length →
        (data.getD i dfltItem).key ≠ key) ∨
    (∃ i : Nat, low ≤ (i : Int) ∧ (i : Int) ≤ high ∧ i < data.length ∧
      binSearch data key fuel low high = (i : Int) ∧
      (data.getD i dfltItem).key = key) := by
  intro fuel
  induction fuel with
  | zero =>
    intro low high hlow hhigh hfuel
    left
    constructor
    · trivial
    · intro i h1 h2 _
      omega
  | succ f ih =>
    intro low high hlow hhigh hfuel
    simp only [binSearch]
    by_cases hlh : low ≤ high
    · simp only [if_pos hlh]
      set mid := low + (high - low) / 2 with hmid
      have hmlow : low ≤ mid := by omega
      have hmhigh : mid ≤ high := by omega
      have hmid0 : 0 ≤ mid := le_trans hlow hmlow
      have hmidlen : mid.toNat < data.length := by omega
      have hmidcast : ((mid.toNat : Int)) = mid := Int.toNat_of_nonneg hmid0
      by_cases hc0 : cmpInt (data.getD mid.toNat dfltItem).key key = 0
      · rw [if_pos hc0]
        right
        exact ⟨mid.toNat, by omega, by omega, hmidlen, by omega, cmpInt_eq_zero.mp hc0⟩
      · rw [if_neg hc0]
        by_cases hc1 : cmpInt (data.getD mid.toNat dfltItem).key key = -1
        · -- data[mid].key < key: search right half
          have hklt : (data.getD mid.toNat dfltItem).key < key := cmpInt_eq_negOne.mp hc1
          rw [if_pos hc1]
          have := ih (mid + 1) high (by omega) hhigh (by omega)
          rcases this with ⟨hres, hnone⟩ | ⟨i, hi1, hi2, hi3, hi4, hi5⟩
          · left
            refine ⟨hres, fun i h1 h2 h3 => ?_⟩
            by_cases hcase : (i : Int) ≤ mid
            · intro hk
              have : (data.getD i dfltItem).key ≤ (data.getD mid.toNat dfltItem).key :=
                sortedItems_mono hs (by omega) hmidlen
              omega
            · exact hnone i (by omega) h2 h3
          · right
            exact ⟨i, by omega, hi2, hi3, hi4, hi5⟩
        · -- key < data[mid].key: search left half
          have hkgt : key < (data.getD mid.toNat dfltItem).key := cmpInt_out hc0 hc1
          rw [if_neg hc1]
          have := ih low (mid - 1) hlow (by omega) (by omega)
          rcases this with ⟨hres, hnone⟩ | ⟨i, hi1, hi2, hi3, hi4, hi5⟩
          · left
            refine ⟨hres, fun i h1 h2 h3 => ?_⟩
            by_cases hcase : (i : Int) ≤ mid - 1
            · exact hnone i h1 (by omega) h3
            · intro hk
              have : (data.getD mid.toNat dfltItem).key ≤ (data.getD i dfltItem).key :=
                sortedItems_mono hs (by omega) h3
              omega
          · right
            exact ⟨i, hi1, by omega, hi3, hi4, hi5⟩
    · simp only [if_neg hlh]
      left
      constructor
      · trivial
      · intro i h1 h2 _
        omega

/-- `GetPositionExact` on sorted data: `-1` exactly when the key is absent,
otherwise the index of the key. -/
theorem getPositionExact_spec {n : Node} {key : Int} (hs : sortedItems n.data) :
    (n.GetPositionExact key = -1 ∧ ∀ it ∈ n.data, it.key ≠ key) ∨
    (∃ i : Nat, i < n.data.length ∧ n.GetPositionExact key = (i : Int) ∧
      (n.data.getD i dfltItem).key = key) := by
  unfold Node.GetPositionExact
  by_cases hlen : n.data.length = 0
  · left
    refine ⟨by simp [hlen], fun it hit => ?_⟩
    have : n.data = [] := List.eq_nil_of_length_eq_zero hlen
    simp [this] at hit
  · simp only [if_neg hlen]
    have := @binSearch_go _ key hs (n.data.length + 1) 0
      ((n.data.length : Int) - 1) (le_refl 0) (by omega) (by omega)
    rcases this with ⟨hres, hnone⟩ | ⟨i, _, _, hi3, hi4, hi5⟩
    · left
      refine ⟨hres, fun it hit => ?_⟩
      rcases List.mem_iff_getElem.mp hit with ⟨i, hilen, hig⟩
      have := hnone i (by omega) (by omega) hilen
      rw [List.getD_eq_getElem n.data dfltItem hilen, hig] at this
      exact this
    · right
      exact ⟨i, hi3, hi4, hi5⟩

theorem zero_le_cmpInt {a b : Int} : 0 ≤ cmpInt a b ↔ b ≤ a := by
  unfold cmpInt
  split
  · constructor
    · intro h; omega
    · intro h; omega
  · split <;> simp_all <;> omega

/-- The linear scan of `GetPositionLessThanEqual`: `-1` when every item key
is below `key`, otherwise the start offset plus the length of the strict
prefix of items below `key`. -/
theorem posLEAux_spec (key : Int) : ∀ (l : List Item) (i : Int),
    posLEAux key l i =
      if ∀ it ∈ l, it.key < key then -1
      else i + ((l.takeWhile fun it => decide (it.key < key)).length : Int) := by
  intro l
  induction l with
  | nil => intro i; simp [posLEAux]
  | cons it rest ihl =>
    intro i
    have hcons1 : (∀ x ∈ it :: rest, x.key < key) ↔
        it.key < key ∧ ∀ x ∈ rest, x.key < key := by
      simp [List.forall_mem_cons]
    rw [posLEAux]
    by_cases hk : cmpInt key it.key ≤ 0
    · have hkk : key ≤ it.key := cmpInt_le_zero.mp hk
      rw [if_pos hk,
        if_neg (by intro hc; have := (hcons1.mp hc).1; omega),
        List.takeWhile_cons_of_neg (by simp; omega)]
      simp
    · have hkk : it.key < key := by
        rcases lt_trichotomy key it.key with h | h | h
        · exact absurd (cmpInt_le_zero.mpr (le_of_lt h)) hk
        · exact absurd (cmpInt_le_zero.mpr (le_of_eq h)) hk
        · exact h
      rw [if_neg hk, ihl (i + 1), List.takeWhile_cons_of_pos (by simp [hkk])]
      by_cases hall : ∀ x ∈ rest, x.key < key
      · rw [if_pos hall, if_pos (hcons1.mpr ⟨hkk, hall⟩)]
      · rw [if_neg hall, if_neg (fun hc => hall (hcons1.mp hc).2)]
        simp
        omega

/-- The linear scan of `GetPositionGreaterThanEqual` computes the same
position as the less-than-equal one (both find the first index `i` with
`key ≤ data[i].key`). -/
theorem posGEAux_spec (key : Int) : ∀ (l : List Item) (i : Int),
    posGEAux key l i =
      if ∀ it ∈ l, it.key < key then -1
      else i + ((l.takeWhile fun it => decide (it.key < key)).length : Int) := by
  intro l
  induction l with
  | nil => intro i; simp [posGEAux]
  | cons it rest ihl =>
    intro i
    have hcons1 : (∀ x ∈ it :: rest, x.key < key) ↔
        it.key < key ∧ ∀ x ∈ rest, x.key < key := by
      simp [List.forall_mem_cons]
    rw [posGEAux]
    by_cases hk : 0 ≤ cmpInt it.key key
    · have hkk : key ≤ it.key := zero_le_cmpInt.mp hk
      rw [if_pos hk,
        if_neg (by intro hc; have := (hcons1.mp hc).1; omega),
        List.takeWhile_cons_of_neg (by simp; omega)]
      simp
    · have hkk : it.key < key := by
        rcases lt_trichotomy key it.key with h | h | h
        · exact absurd (zero_le_cmpInt.mpr (le_of_lt h)) hk
        · exact absurd (zero_le_cmpInt.mpr (le_of_eq h)) hk
        · exact h
      rw [if_neg hk, ihl (i + 1), List.takeWhile_cons_of_pos (by simp [hkk])]
      by_cases hall : ∀ x ∈ rest, x.key < key
      · rw [if_pos hall, if_pos (hcons1.mpr ⟨hkk, hall⟩)]
      · rw [if_neg hall, if_neg (fun hc => hall (hcons1.mp hc).2)]
        simp
        omega

theorem take_length_takeWhile {α : Type} (p : α → Bool) (l : List α) :
    l.take (l.takeWhile p).length = l.takeWhile p := by
  induction l with
  | nil => rfl
  | cons x xs ihl =>
    by_cases hx : p x = true
    · rw [List.takeWhile_cons_of_pos hx]
      simp [ihl]
    · rw [List.takeWhile_cons_of_neg hx]
      simp

theorem drop_length_takeWhile {α : Type} (p : α → Bool) (l : List α) :
    l.drop (l.takeWhile p).length = l.dropWhile p := by
  induction l with
  | nil => rfl
  | cons x xs ihl =>
    by_cases hx : p x = true
    · rw [List.takeWhile_cons_of_pos hx, List.dropWhile_cons_of_pos hx]
      simp [ihl]
    · rw [List.takeWhile_cons_of_neg hx, List.dropWhile_cons_of_neg hx]
      simp

theorem sortedItems_dropWhile_gt {key : Int} :
    ∀ {l : List Item}, sortedItems l → (∀ it ∈ l, it.key ≠ key) →
    ∀ b ∈ l.dropWhile (fun it => decide (it.key < key)), key < b.key := by
  intro l
  induction l with
  | nil => intro _ _ b hb; simp at hb
  | cons x xs ihl =>
    intro hs habs b hb
    by_cases hx : x.key < key
    · rw [List.dropWhile_cons_of_pos (by simp [hx])] at hb
      exact ihl (List.Chain'.tail hs) (fun it hit => habs it (List.mem_cons_of_mem x hit)) b hb
    · rw [List.dropWhile_cons_of_neg (by simp [hx])] at hb
      have hxk : key < x.key :=
        lt_of_le_of_ne (not_lt.mp hx) (fun h => habs x (List.mem_cons_self x xs) h.symm)
      rcases List.mem_cons.mp hb with h | h
      · subst h; exact hxk
      · have hp := sortedItems_pairwise hs
        have := (List.pairwise_cons.mp hp).1 b h
        omega

/-- C8: `Node.Insert` on a sorted node — `KeyExists` (node unchanged, value
untouched) when the key is present even in a full node; `NodeFull` (node
unchanged) when absent and the node holds `NODE_SIZE` items; otherwise the
item is spliced at its sorted position, the count grows by one, and state,
height and forward pointers are untouched. -/
theorem claim_C8_node_insert (n : Node) (ih : Item) (hs : sortedItems n.data) :
    ((∃ it ∈ n.data, it.key = ih.key) →
       n.Insert ih = (n, some Err.KeyAlreadyExist)) ∧
    ((∀ it ∈ n.data, it.key ≠ ih.key) → n.data.length = NODE_SIZE →
       n.Insert ih = (n, some Err.NodeIsFull)) ∧
    ((∀ it ∈ n.data, it.key ≠ ih.key) → n.data.length ≠ NODE_SIZE →
       n.Insert ih =
         ({ n with data := (n.data.takeWhile fun it => decide (it.key < ih.key)) ++
             ih :: (n.data.dropWhile fun it => decide (it.key < ih.key)) }, none) ∧
       sortedItems (n.Insert ih).1.data ∧
       (n.Insert ih).1.data.length = n.data.length + 1) := by
  rcases @getPositionExact_spec _ ih.key hs with ⟨hm1, habs⟩ | ⟨i, hilen, hieq, hikey⟩
  · -- key absent
    refine ⟨?_, ?_, ?_⟩
    · intro ⟨it, hit, hkey⟩
      exact absurd hkey (habs it hit)
    · intro _ hfull
      unfold Node.Insert
      rw [if_neg (by simp [hm1]), if_pos hfull]
    · intro _ hnfull
      have hsplice : n.Insert ih =
          ({ n with data := (n.data.takeWhile fun it => decide (it.key < ih.key)) ++
              ih :: (n.data.dropWhile fun it => decide (it.key < ih.key)) }, none) := by
        unfold Node.Insert
        rw [if_neg (by simp [hm1]), if_neg hnfull]
        unfold Node.GetPositionLessThanEqual
        rw [posLEAux_spec]
        by_cases hall : ∀ it ∈ n.data, it.key < ih.key
        · rw [if_pos hall, if_pos rfl]
          have htw : n.data.takeWhile (fun it => decide (it.key < ih.key)) = n.data :=
            List.takeWhile_eq_self_iff.mpr (fun a ha => by simp [hall a ha])
          have hdw : n.data.dropWhile (fun it => decide (it.key < ih.key)) = [] :=
            List.dropWhile_eq_nil_iff.mpr (fun a ha => by simp [hall a ha])
          rw [htw, hdw]
        · rw [if_neg hall]
          have hpos : (0 : Int) +
              ((n.data.takeWhile fun it => decide (it.key < ih.key)).length : Int) ≠ -1 := by
            omega
          rw [if_neg hpos]
          have htn : ((0 : Int) +
              ((n.data.takeWhile fun it => decide (it.key < ih.key)).length : Int)).toNat =
              (n.data.takeWhile fun it => decide (it.key < ih.key)).length := by
            omega
          rw [htn, take_length_takeWhile, drop_length_takeWhile]
      refine ⟨hsplice, ?_, ?_⟩
      · rw [hsplice]
        haveI : IsTrans Item (fun a b => a.key < b.key) :=
          ⟨fun _ _ _ hab hbc => lt_trans hab hbc⟩
        unfold sortedItems
        rw [List.chain'_iff_pairwise, List.pairwise_append]
        refine ⟨?_, ?_, ?_⟩
        · exact (sortedItems_pairwise hs).sublist (List.takeWhile_sublist _)
        · rw [List.pairwise_cons]
          refine ⟨fun b hb => sortedItems_dropWhile_gt hs habs b hb, ?_⟩
          exact (sortedItems_pairwise hs).sublist (List.dropWhile_sublist _)
        · intro a ha b hb
          have hak : a.key < ih.key := by
            have := List.mem_takeWhile_imp ha
            simpa using this
          rcases List.mem_cons.mp hb with h | h
          · subst h; exact hak
          · have := sortedItems_dropWhile_gt hs habs b h
            omega
      · rw [hsplice]
        have hlen : (n.data.takeWhile fun it => decide (it.key < ih.key)).length +
            (n.data.dropWhile fun it => decide (it.key < ih.key)).length =
            n.data.length := by
          rw [← List.length_append, List.takeWhile_append_dropWhile]
        simp
        omega
  · -- key present at index i
    have hmem : (∃ it ∈ n.data, it.key = ih.key) := by
      refine ⟨n.data.getD i dfltItem, ?_, hikey⟩
      rw [List.getD_eq_getElem n.data dfltItem hilen]
      exact List.getElem_mem hilen
    refine ⟨?_, ?_, ?_⟩
    · intro _
      unfold Node.Insert
      rw [if_pos (by rw [hieq]; omega)]
    · intro habs _
      rcases hmem with ⟨it, hit, hkey⟩
      exact absurd hkey (habs it hit)
    · intro habs _
      rcases hmem with ⟨it, hit, hkey⟩
      exact absurd hkey (habs it hit)

theorem getLast?_eq_getD {l : List Item} (h : l ≠ []) :
    l.getLast? = some (l.getD (l.length - 1) dfltItem) := by
  rw [List.getLast?_eq_getElem?]
  have hl : 0 < l.length := List.length_pos.mpr h
  rw [List.getElem?_eq_getElem (by omega), List.getD_eq_getElem l dfltItem (by omega)]

theorem filter_eq_dropWhile_sorted {key : Int} :
    ∀ {l : List Item}, sortedItems l →
    l.filter (fun it => decide (key ≤ it.key)) =
      l.dropWhile (fun it => decide (it.key < key)) := by
  intro l
  induction l with
  | nil => intro _; rfl
  | cons x xs ihl =>
    intro hs
    by_cases hx : x.key < key
    · rw [List.dropWhile_cons_of_pos (by simp [hx]),
        List.filter_cons_of_neg (by simp; omega)]
      exact ihl (List.Chain'.tail hs)
    · rw [List.dropWhile_cons_of_neg (by simp [hx]),
        List.filter_cons_of_pos (by simp; omega)]
      have hall : ∀ b ∈ xs, key ≤ b.key := by
        intro b hb
        have := (List.pairwise_cons.mp (sortedItems_pairwise hs)).1 b hb
        omega
      rw [List.filter_eq_self.mpr (fun a ha => by simp [hall a ha])]

/-- C4 counterexample: on the node holding keys 1 and 5 (built by two
`Node.Insert` calls), `ScanGreaterThanEqual(5)` — the key equal to the
node's maximum — visits nothing, although the node stores an item with
key ≥ 5. -/
theorem claim_C4_counterexample :
    Node.ScanGreaterThanEqual (((NewEmptyNode 4 0).Insert ⟨1, 10⟩).1.Insert ⟨5, 50⟩).1 5 = [] ∧
    (⟨5, 50⟩ : Item) ∈ (((NewEmptyNode 4 0).Insert ⟨1, 10⟩).1.Insert ⟨5, 50⟩).1.data := by
  decide

/-- C4 (amended): on a node with strictly ascending data,
`ScanGreaterThanEqual(k, fn)` invokes `fn` on exactly the items with key
≥ k, ascending, whenever k is strictly below the node's maximum key; when
the node is empty or k is greater than or equal to the maximum key
(in particular at k = max-key), it invokes `fn` on nothing. -/
theorem claim_C4_scanGE_amended (n : Node) (key : Int) (hs : sortedItems n.data) :
    ((∃ last ∈ n.data.getLast?, key < last.key) →
       n.ScanGreaterThanEqual key =
         n.data.filter (fun it => decide (key ≤ it.key)) ∧
       sortedItems (n.ScanGreaterThanEqual key)) ∧
    ((∀ last ∈ n.data.getLast?, last.key ≤ key) →
       n.ScanGreaterThanEqual key = []) := by
  constructor
  · intro ⟨last, hlast, hkey⟩
    have hne : n.data ≠ [] := by
      intro hnil
      rw [hnil] at hlast
      simp at hlast
    have hlen : 0 < n.data.length := List.length_pos.mpr hne
    rw [getLast?_eq_getD hne] at hlast
    have hlast' : last = n.data.getD (n.data.length - 1) dfltItem := by
      injection hlast with h
      exact h.symm
    subst hlast'
    have hmax : (n.CheckKeyStrictlyLessThanMax key).1 = true := by
      unfold Node.CheckKeyStrictlyLessThanMax
      rw [if_neg (by omega)]
      simpa using cmpInt_eq_negOne.mpr hkey
    have heq : n.ScanGreaterThanEqual key =
        n.data.filter (fun it => decide (key ≤ it.key)) := by
      unfold Node.ScanGreaterThanEqual
      rw [hmax]
      simp only [Bool.not_true, Bool.false_eq_true, if_false]
      unfold Node.GetPositionGreaterThanEqual
      rw [posGEAux_spec]
      have hnall : ¬ ∀ it ∈ n.data, it.key < key := by
        push_neg
        refine ⟨n.data.getD (n.data.length - 1) dfltItem, ?_, by omega⟩
        rw [List.getD_eq_getElem n.data dfltItem (by omega)]
        exact List.getElem_mem (by omega)
      rw [if_neg hnall]
      have hpos : (0 : Int) +
          ((n.data.takeWhile fun it => decide (it.key < key)).length : Int) ≠ -1 := by
        omega
      rw [if_pos hpos]
      have htn : ((0 : Int) +
          ((n.data.takeWhile fun it => decide (it.key < key)).length : Int)).toNat =
          (n.data.takeWhile fun it => decide (it.key < key)).length := by
        omega
      rw [htn, drop_length_takeWhile, filter_eq_dropWhile_sorted hs]
    refine ⟨heq, ?_⟩
    rw [heq]
    haveI : IsTrans Item (fun a b => a.key < b.key) :=
      ⟨fun _ _ _ hab hbc => lt_trans hab hbc⟩
    unfold sortedItems
    rw [List.chain'_iff_pairwise]
    exact (sortedItems_pairwise hs).sublist (List.filter_sublist n.data)
  · intro hle
    unfold Node.ScanGreaterThanEqual
    rcases List.eq_nil_or_concat n.data with hnil | ⟨_, _, _⟩
    · unfold Node.CheckKeyStrictlyLessThanMax
      rw [if_pos (by rw [hnil]; rfl)]
    · have hne : n.data ≠ [] := by
        intro h
        simp_all
      have hlen : 0 < n.data.length := List.length_pos.mpr hne
      have hmaxle : (n.data.getD (n.data.length - 1) dfltItem).key ≤ key := by
        have h2 := hle (n.data.getD (n.data.length - 1) dfltItem)
        rw [getLast?_eq_getD hne] at h2
        exact h2 (by simp)
      have hmax : (n.CheckKeyStrictlyLessThanMax key).1 = false := by
        unfold Node.CheckKeyStrictlyLessThanMax
        rw [if_neg (by omega)]
        show decide (cmpInt key (n.data.getD (n.data.length - 1) dfltItem).key = -1) = false
        rw [decide_eq_false_iff_not]
        intro hc
        have := cmpInt_eq_negOne.mp hc
        omega
      rw [hmax]
      rfl

theorem claim_C4_scanGE_amended_witness :
    sortedItems [(⟨1, 10⟩ : Item), ⟨5, 50⟩] ∧
    Node.ScanGreaterThanEqual
      { marked := false, cmp := 0, data := [⟨1, 10⟩, ⟨5, 50⟩], height := 4,
        nextNodes := [none, none, none, none] } 3 = [⟨5, 50⟩] := by
  refine ⟨by decide, ?_⟩
  have h := (claim_C4_scanGE_amended
    { marked := false, cmp := 0, data := [⟨1, 10⟩, ⟨5, 50⟩], height := 4,
      nextNodes := [none, none, none, none] } 3 (by decide)).1
    ⟨⟨5, 50⟩, by decide, by decide⟩
  exact h.1.trans (by decide)

theorem claim_C8_node_insert_witness :
    (Node.Insert
      { marked := false, cmp := 0, data := [⟨1, 1⟩, ⟨5, 5⟩], height := 4,
        nextNodes := [none, none, none, none] } ⟨5, 99⟩ =
      ({ marked := false, cmp := 0, data := [⟨1, 1⟩, ⟨5, 5⟩], height := 4,
         nextNodes := [none, none, none, none] }, some Err.KeyAlreadyExist)) ∧
    (Node.Insert
      { marked := false, cmp := 0, data := [⟨1, 1⟩, ⟨5, 5⟩], height := 4,
        nextNodes := [none, none, none, none] } ⟨3, 33⟩ =
      ({ marked := false, cmp := 0, data := [⟨1, 1⟩, ⟨3, 33⟩, ⟨5, 5⟩], height := 4,
         nextNodes := [none, none, none, none] }, none)) := by
  constructor
  · exact (claim_C8_node_insert _ _ (by decide)).1 ⟨⟨5, 5⟩, by decide, rfl⟩
  · have h := ((claim_C8_node_insert
      { marked := false, cmp := 0, data := [⟨1, 1⟩, ⟨5, 5⟩], height := 4,
        nextNodes := [none, none, none, none] } ⟨3, 33⟩ (by decide)).2.2
      (by decide) (by decide)).1
    exact h.trans (by decide)

/-- C9: `SplitIntoNewNode(h)` leaves the first `count/2` items in this node
(forward pointers, state, height, comparator untouched), and returns a new
node of height `h` holding exactly the items formerly at positions
`count/2 .. count-1` in order, with the same comparator tag and fresh nil
forward pointers. -/
theorem claim_C9_split_into_new_node (n : Node) (h : Nat) :
    n.SplitIntoNewNode h =
      ({ n with data := n.data.take (n.data.length / 2) },
       { marked := false, cmp := n.cmp,
         data := n.data.drop (n.data.length / 2),
         height := h, nextNodes := List.replicate h none }) := by
  have ht : (n.data.drop (n.data.length / 2)).take (n.data.length - n.data.length / 2) =
      n.data.drop (n.data.length / 2) :=
    List.take_of_length_le (by rw [List.length_drop])
  simp only [Node.SplitIntoNewNode, NewNodeWithOrderedSlice, ht]

/-- C2: after emptying the only node (which marks it MARKED_REMOVED) and
inserting key 5 into its former range, the insert reports success and
`Get` returns the inserted value — but `ScanAll` visits nothing (the item
sits in a node every scan skips), contradicting the claim's (and spec
P9's) requirement that it reappear in ScanAll output. -/
theorem claim_C2_marked_removal_loss :
    (c2_state.bind (fun b => (bowlGet b [5] 0 1000).map Prod.snd) = some [55]) ∧
    (c2_state.bind (fun b => (bowlScanAll b 1000).map Prod.snd) = some []) := by
  decide

/-- C3: `ScanRange(0, 5)` on a list storing keys 1 and 5 visits the item
with key 5 — equal to the (exclusive, per the claim) upper bound — because
the landing node's max key is not strictly above `toKey`, so the code falls
back to `ScanGreaterThanEqual`, which delivers the node's tail. -/
theorem claim_C3_scanRange_upper_bound :
    c3_state.bind (fun b => (bowlScanRange b 0 5 1000).map Prod.snd) =
      some [⟨1, 1⟩, ⟨5, 5⟩] := by
  decide

/-- C5 counterexample: splitting a full height-1 node with sampled height 3
links the new node (id 2, height 3) from `latest[h]` at levels 1, 2 and
also 3 — a level equal to the new node's height, which the claim says is
never touched. -/
theorem claim_C5_counterexample :
    ((c5_state.bind (fun b => b.getN 0)).map (fun h => h.nextNodes.take 4) =
      some [some 1, some 2, some 2, some 2]) ∧
    ((c5_state.bind (fun b => b.getN 2)).map Node.height = some 3) := by
  decide

/-- C6: with node 1 (height 1, keys 10..160) and node 2 (height 2, keys
170..330, reachable from head at level 1), `getNextNodeFromHead(400)`
returns node 1 — the plain level-0 successor — even though node 2 is the
first successor encountered (at level 1) whose min-key 170 is ≤ 400.  The
level loop's guard `err != nil && !ok` only fires for empty nodes, so the
`key ≥ min` case descends instead of returning, contradicting the claim
(and the code's own comment). -/
theorem claim_C6_descend_from_head :
    (c6_state.bind (fun b => (getNextNodeFromHead b 400 1000).map Prod.snd) =
      some 1) ∧
    ((c6_state.bind (fun b => b.getN 0)).map (fun h => h.nextNodes.getD 1 none) =
      some (some 2)) ∧
    ((c6_state.bind (fun b => b.getN 2)).map (fun n => n.data.getD 0 dfltItem) =
      some ⟨170, 170⟩) := by
  decide

/-- C7 counterexample: every batched operation indexes `batch[0]` before
its loop, so the empty batch aborts (index out of range) instead of
returning an empty result vector. -/
theorem claim_C7_counterexample :
    bowlGet (NewBOWL []) [] 0 1000 = none ∧
    bowlInsert (NewBOWL []) [] 1000 = none ∧
    bowlUpdate (NewBOWL []) [] 1000 = none ∧
    bowlDelete (NewBOWL []) [] 1000 = none := by
  decide

theorem getLoop_length (fuel : Nat) (default : Int) :
    ∀ (keys : List Int) (b : BowlT) (cur : Nat) (b' : BowlT) (vs : List Int),
    getLoop fuel default b cur keys = some (b', vs) → vs.length = keys.length := by
  intro keys
  induction keys with
  | nil =>
    intro b cur b' vs h
    rw [getLoop] at h
    simp at h
    simp [h.2.symm]
  | cons k ks ihl =>
    intro b cur b' vs h
    rw [getLoop] at h
    cases hgc : getCorrectNode b k cur fuel with
    | none => rw [hgc] at h; simp at h
    | some p =>
      rw [hgc] at h
      obtain ⟨b1, cur1⟩ := p
      dsimp only at h
      cases hgn : BowlT.getN b1 cur1 with
      | none => rw [hgn] at h; simp at h
      | some n =>
        rw [hgn] at h
        dsimp only at h
        cases hrec : getLoop fuel default b1 cur1 ks with
        | none => rw [hrec] at h; simp at h
        | some q =>
          rw [hrec] at h
          obtain ⟨b2, vs2⟩ := q
          dsimp only at h
          simp at h
          rw [← h.2]
          simp [ihl _ _ _ _ hrec]

theorem match_tail_aux {recv : Option (BowlT × List (Option Err))}
    {e : Option Err} {b' : BowlT} {es : List (Option Err)}
    (h : (match recv with
          | none => none
          | some (b, es2) => some (b, e :: es2)) = some (b', es)) :
    ∃ b2 es2, recv = some (b2, es2) ∧ es = e :: es2 := by
  cases recv with
  | none => exact Option.noConfusion h
  | some p =>
    obtain ⟨b2, es2⟩ := p
    simp at h
    exact ⟨b2, es2, rfl, h.2.symm⟩

theorem updateLoop_length (fuel : Nat) :
    ∀ (ihs : List Item) (b : BowlT) (cur : Nat) (b' : BowlT) (es : List (Option Err)),
    updateLoop fuel b cur ihs = some (b', es) → es.length = ihs.length := by
  intro ihs
  induction ihs with
  | nil =>
    intro b cur b' es h
    rw [updateLoop] at h
    simp at h
    simp [h.2.symm]
  | cons ih rest ihl =>
    intro b cur b' es h
    rw [updateLoop] at h
    repeat' split at h
    all_goals try (exfalso; exact Option.noConfusion h)
    all_goals
      obtain ⟨b2, es2, hrec, hes⟩ := match_tail_aux h
      subst hes
      simp [ihl _ _ _ _ hrec]

theorem deleteLoop_length (fuel : Nat) :
    ∀ (keys : List Int) (b : BowlT) (cur : Nat) (b' : BowlT) (es : List (Option Err)),
    deleteLoop fuel b cur keys = some (b', es) → es.length = keys.length := by
  intro keys
  induction keys with
  | nil =>
    intro b cur b' es h
    rw [deleteLoop] at h
    simp at h
    simp [h.2.symm]
  | cons k ks ihl =>
    intro b cur b' es h
    rw [deleteLoop] at h
    repeat' split at h
    all_goals try (exfalso; exact Option.noConfusion h)
    all_goals
      obtain ⟨b2, es2, hrec, hes⟩ := match_tail_aux h
      subst hes
      simp [ihl _ _ _ _ hrec]

theorem insertLoop_length (fuel : Nat) :
    ∀ (ihs : List Item) (b : BowlT) (cur : Nat) (b' : BowlT) (es : List (Option Err)),
    insertLoop fuel b cur ihs = some (b', es) → es.length = ihs.length := by
  intro ihs
  induction ihs with
  | nil =>
    intro b cur b' es h
    rw [insertLoop] at h
    simp at h
    simp [h.2.symm]
  | cons ih rest ihl =>
    intro b cur b' es h
    rw [insertLoop] at h
    dsimp only at h
    repeat' split at h
    all_goals try (exfalso; exact Option.noConfusion h)
    all_goals first
      | (obtain ⟨b2, es2, hrec, hes⟩ := match_tail_aux h
         subst hes
         simp [ihl _ _ _ _ hrec])
      | (rename_i heq
         simp at h
         rw [← h.2]
         simp [ihl _ _ _ _ heq])

/-- C7 (amended): for every non-empty batch, whenever a public batched
operation runs to completion it returns a result vector whose length equals
the input length, with per-item results collected slot by slot (no
short-circuit on per-item errors).  The empty batch aborts on `batch[0]`
(see the counterexample), and an operation can also abort inside (fuel,
or a panic path such as a split whose sampled height is `MAX_HEIGHT`). -/
theorem claim_C7_batch_length_amended (b : BowlT) (fuel : Nat) (default : Int) :
    (∀ keys r, keys ≠ [] → bowlGet b keys default fuel = some r →
       r.2.length = keys.length) ∧
    (∀ ihs r, ihs ≠ [] → bowlInsert b ihs fuel = some r →
       r.2.length = ihs.length) ∧
    (∀ ihs r, ihs ≠ [] → bowlUpdate b ihs fuel = some r →
       r.2.length = ihs.length) ∧
    (∀ keys r, keys ≠ [] → bowlDelete b keys fuel = some r →
       r.2.length = keys.length) := by
  refine ⟨?_, ?_, ?_, ?_⟩
  · intro keys r _ h
    cases keys with
    | nil => exact Option.noConfusion h
    | cons k0 ks =>
      rw [bowlGet] at h
      cases hg : getNextNodeFromHead b k0 fuel with
      | none => rw [hg] at h; exact Option.noConfusion h
      | some p =>
        rw [hg] at h
        dsimp only at h
        exact getLoop_length fuel default (k0 :: ks) p.1 p.2 r.1 r.2 (by
          obtain ⟨r1, r2⟩ := r
          exact h)
  · intro ihs r _ h
    cases ihs with
    | nil => exact Option.noConfusion h
    | cons ih0 rest =>
      rw [bowlInsert] at h
      cases hg : getNextNodeFromHead (resetLatestPointingNodes b) ih0.key fuel with
      | none => rw [hg] at h; exact Option.noConfusion h
      | some p =>
        rw [hg] at h
        dsimp only at h
        exact insertLoop_length fuel (ih0 :: rest) p.1 p.2 r.1 r.2 (by
          obtain ⟨r1, r2⟩ := r
          exact h)
  · intro ihs r _ h
    cases ihs with
    | nil => exact Option.noConfusion h
    | cons ih0 rest =>
      rw [bowlUpdate] at h
      cases hg : getNextNodeFromHead b ih0.key fuel with
      | none => rw [hg] at h; exact Option.noConfusion h
      | some p =>
        rw [hg] at h
        dsimp only at h
        exact updateLoop_length fuel (ih0 :: rest) p.1 p.2 r.1 r.2 (by
          obtain ⟨r1, r2⟩ := r
          exact h)
  · intro keys r _ h
    cases keys with
    | nil => exact Option.noConfusion h
    | cons k0 ks =>
      rw [bowlDelete] at h
      cases hg : getNextNodeFromHead b k0 fuel with
      | none => rw [hg] at h; exact Option.noConfusion h
      | some p =>
        rw [hg] at h
        dsimp only at h
        exact deleteLoop_length fuel (k0 :: ks) p.1 p.2 r.1 r.2 (by
          obtain ⟨r1, r2⟩ := r
          exact h)

theorem claim_C7_batch_length_amended_witness :
    (bowlGet (NewBOWL [1]) [5, 9] 0 100).elim False (fun r => r.2.length = 2) := by
  cases hg : bowlGet (NewBOWL [1]) [5, 9] 0 100 with
  | none => exact absurd hg (by decide)
  | some r =>
    exact (claim_C7_batch_length_amended (NewBOWL [1]) 100 0).1 [5, 9] r (by decide) hg

theorem getN_setN_self {b : BowlT} {i : Nat} (n : Node) (h : i < b.nodes.length) :
    (b.setN i n).getN i = some n := by
  simp [BowlT.setN, BowlT.getN, List.getElem?_set_self' , List.getElem?_eq_getElem h]

theorem getN_setN_ne {b : BowlT} {i j : Nat} (n : Node) (h : i ≠ j) :
    (b.setN i n).getN j = b.getN j := by
  simp [BowlT.setN, BowlT.getN, List.getElem?_set_ne h]

theorem getD_set_self {l : List (Option Nat)} {k : Nat} {v : Option Nat}
    (h : k < l.length) : (l.set k v).getD k none = v := by
  rw [List.getD_eq_getElem (l.set k v) none (by simpa using h)]
  simp [List.getElem_set_self]

theorem getD_set_ne {l : List (Option Nat)} {k m : Nat} {v : Option Nat}
    (h : k ≠ m) : (l.set k v).getD m none = l.getD m none := by
  rcases Nat.lt_or_ge m l.length with hm | hm
  · rw [List.getD_eq_getElem (l.set k v) none (by simpa using hm),
      List.getD_eq_getElem l none hm]
    simp [List.getElem_set_ne h]
  · rw [List.getD_eq_default _ none (by simpa using hm),
      List.getD_eq_default _ none hm]

/-- What the `connectUntil` loop writes: for every level `h` in
`[toHeight, fromHeight]` it sets `latest[h].next[h] ← target`, and it
changes no other pointer. -/
theorem connectUntilAux_spec (target : Nat) :
    ∀ (steps : Nat) (b : BowlT) (fromH toH : Int),
    0 ≤ toH →
    steps = (fromH + 1 - toH).toNat →
    (∀ h : Int, toH ≤ h → h ≤ fromH →
      ∃ lid n, b.latest.get? h.toNat = some (some lid) ∧ b.getN lid = some n ∧
        h < (n.height : Int) ∧ n.nextNodes.length = n.height) →
    ∃ b', connectUntilAux target b fromH toH steps = some b' ∧
      b'.latest = b.latest ∧ b'.ch = b.ch ∧ b'.nodes.length = b.nodes.length ∧
      (∀ h : Int, toH ≤ h → h ≤ fromH → ∀ lid,
         b.latest.get? h.toNat = some (some lid) →
         ptrAt b' lid h.toNat = some (some target)) ∧
      (∀ id lvl : Nat, ptrAt b' id lvl ≠ ptrAt b id lvl →
         toH ≤ (lvl : Int) ∧ (lvl : Int) ≤ fromH ∧
         b.latest.get? lvl = some (some id)) := by
  intro steps
  induction steps with
  | zero =>
    intro b fromH toH htoH hsteps _
    refine ⟨b, rfl, rfl, rfl, rfl, ?_, ?_⟩
    · intro h h1 h2 lid _
      omega
    · intro id lvl hdiff
      exact absurd rfl hdiff
  | succ st ihs =>
    intro b fromH toH htoH hsteps hgood
    have hrange : toH ≤ fromH := by omega
    have hfrom0 : 0 ≤ fromH := le_trans htoH hrange
    obtain ⟨lid, n, hlat, hget, hht, hlen⟩ := hgood fromH hrange (le_refl _)
    have hconn : n.ConnectNode fromH (some target) =
        ({ n with nextNodes := n.nextNodes.set fromH.toNat (some target) }, none) := by
      unfold Node.ConnectNode
      rw [if_neg (by omega)]
    have hlid_len : lid < b.nodes.length := by
      by_contra hc
      rw [BowlT.getN, List.get?_eq_none.mpr (by omega)] at hget
      exact Option.noConfusion hget
    set n2 : Node := { n with nextNodes := n.nextNodes.set fromH.toNat (some target) }
      with hn2
    set b2 : BowlT := b.setN lid n2 with hb2
    have hb2latest : b2.latest = b.latest := rfl
    have hb2ch : b2.ch = b.ch := rfl
    have hb2len : b2.nodes.length = b.nodes.length := by
      rw [hb2, BowlT.setN]
      exact List.length_set b.nodes lid n2
    have hstep : connectUntilAux target b fromH toH (st + 1) =
        connectUntilAux target b2 (fromH - 1) toH st := by
      rw [connectUntilAux, if_neg (by omega), if_neg (by omega), hlat]
      dsimp only
      rw [hget]
      dsimp only
      rw [hconn]
      rfl
    have hn2len : fromH.toNat < n.nextNodes.length := by omega
    have hgood2 : ∀ h : Int, toH ≤ h → h ≤ fromH - 1 →
        ∃ lid' n', b2.latest.get? h.toNat = some (some lid') ∧
          b2.getN lid' = some n' ∧ h < (n'.height : Int) ∧
          n'.nextNodes.length = n'.height := by
      intro h h1 h2
      obtain ⟨lid', n', hl', hg', hh', hlen'⟩ := hgood h h1 (by omega)
      by_cases hsame : lid = lid'
      · subst hsame
        have hnn : n' = n := by
          rw [hget] at hg'
          injection hg' with h5
          exact h5.symm
        rw [hnn] at hh'
        refine ⟨lid, n2, hl', getN_setN_self n2 hlid_len, ?_, ?_⟩
        · exact hh'
        · show (n.nextNodes.set fromH.toNat (some target)).length = n.height
          rw [List.length_set]
          exact hlen
      · exact ⟨lid', n', hl', by rw [hb2, getN_setN_ne _ hsame]; exact hg', hh', hlen'⟩
    obtain ⟨b', hrun, hlat', hch', hnlen', hwrites, hframe⟩ :=
      ihs b2 (fromH - 1) toH htoH (by omega) hgood2
    have hptr_b2_at : ptrAt b2 lid fromH.toNat = some (some target) := by
      rw [ptrAt, hb2, getN_setN_self n2 hlid_len]
      show some ((n.nextNodes.set fromH.toNat (some target)).getD fromH.toNat none) =
        some (some target)
      rw [getD_set_self hn2len]
    have hptr_b2_other : ∀ id lvl : Nat, ptrAt b2 id lvl ≠ ptrAt b id lvl →
        id = lid ∧ lvl = fromH.toNat := by
      intro id lvl hdiff
      by_cases hid : id = lid
      · subst hid
        refine ⟨rfl, ?_⟩
        by_contra hlvl
        apply hdiff
        rw [ptrAt, ptrAt, hb2, getN_setN_self n2 hlid_len, hget]
        show some ((n.nextNodes.set fromH.toNat (some target)).getD lvl none) =
          some (n.nextNodes.getD lvl none)
        rw [getD_set_ne (fun hc => hlvl hc.symm)]
      · exact absurd (by rw [ptrAt, ptrAt, hb2, getN_setN_ne _ (fun hc => hid hc.symm)]) hdiff
    refine ⟨b', by rw [hstep]; exact hrun, by rw [hlat', hb2latest],
      by rw [hch', hb2ch], by rw [hnlen', hb2len], ?_, ?_⟩
    · intro h h1 h2 lid' hl'
      by_cases hh : h ≤ fromH - 1
      · exact hwrites h h1 hh lid' (by rw [hb2latest]; exact hl')
      · have hhf : h = fromH := by omega
        rw [hhf] at hl' ⊢
        have hsame : lid' = lid := by
          rw [hlat] at hl'
          injection hl' with h3
          injection h3 with h4
          exact h4.symm
        subst hsame
        by_cases hchg : ptrAt b' lid' fromH.toNat = ptrAt b2 lid' fromH.toNat
        · rw [hchg]
          exact hptr_b2_at
        · have := hframe lid' fromH.toNat hchg
          omega
    · intro id lvl hdiff
      by_cases hchg : ptrAt b' id lvl = ptrAt b2 id lvl
      · rw [hchg] at hdiff
        obtain ⟨hid, hlvl⟩ := hptr_b2_other id lvl hdiff
        subst hid
        refine ⟨by omega, by omega, ?_⟩
        have : lvl = fromH.toNat := hlvl
        rw [this]
        exact hlat
      · obtain ⟨h1, h2, h3⟩ := hframe id lvl hchg
        rw [hb2latest] at h3
        exact ⟨h1, by omega, h3⟩

/-- C5 (amended): when a split's sampled height `newH` exceeds the current
node's height `curH`, `Insert`'s connect-taller step — `connectUntil(newNode,
newH, curH)` — links `latest[h].next[h] ← newNode` for exactly the levels
`h ∈ [curH, newH]` INCLUSIVE, i.e. it also writes the level equal to the new
node's height (one more than the claim allows), and touches no other level.
(At `newH = MAX_HEIGHT` the write to `latest[MAX_HEIGHT]` would abort:
index out of range.) -/
theorem claim_C5_connect_taller_amended (b : BowlT) (target : Nat) (newH curH : Nat)
    (hlt : curH < newH)
    (hgood : ∀ h : Nat, curH ≤ h → h ≤ newH →
      ∃ lid n, b.latest.get? h = some (some lid) ∧ b.getN lid = some n ∧
        h < n.height ∧ n.nextNodes.length = n.height) :
    ∃ b', connectUntil b target (newH : Int) (curH : Int) = some b' ∧
      (∀ h : Nat, curH ≤ h → h ≤ newH → ∀ lid,
         b.latest.get? h = some (some lid) →
         ptrAt b' lid h = some (some target)) ∧
      (∀ id lvl : Nat, ptrAt b' id lvl ≠ ptrAt b id lvl →
         curH ≤ lvl ∧ lvl ≤ newH ∧ b.latest.get? lvl = some (some id)) := by
  have hgood' : ∀ h : Int, (curH : Int) ≤ h → h ≤ (newH : Int) →
      ∃ lid n, b.latest.get? h.toNat = some (some lid) ∧ b.getN lid = some n ∧
        h < (n.height : Int) ∧ n.nextNodes.length = n.height := by
    intro h h1 h2
    obtain ⟨lid, n, ha, hb, hc, hd⟩ := hgood h.toNat (by omega) (by omega)
    exact ⟨lid, n, ha, hb, by omega, hd⟩
  obtain ⟨b', hrun, _, _, _, hwrites, hframe⟩ :=
    connectUntilAux_spec target (((newH : Int) + 1 - (curH : Int)).toNat) b
      (newH : Int) (curH : Int) (by omega) rfl hgood'
  refine ⟨b', hrun, ?_, ?_⟩
  · intro h h1 h2 lid hl
    have := hwrites (h : Int) (by omega) (by omega) lid (by simpa using hl)
    simpa using this
  · intro id lvl hdiff
    obtain ⟨h1, h2, h3⟩ := hframe id lvl hdiff
    exact ⟨by omega, by omega, h3⟩

theorem claim_C5_connect_taller_amended_witness :
    ∃ b', connectUntil c5w_bowl 5 3 1 = some b' ∧
      (∀ h : Nat, 1 ≤ h → h ≤ 3 → ∀ lid,
         c5w_bowl.latest.get? h = some (some lid) →
         ptrAt b' lid h = some (some 5)) ∧
      (∀ id lvl : Nat, ptrAt b' id lvl ≠ ptrAt c5w_bowl id lvl →
         1 ≤ lvl ∧ lvl ≤ 3 ∧ c5w_bowl.latest.get? lvl = some (some id)) := by
  refine claim_C5_connect_taller_amended c5w_bowl 5 3 1 (by omega) ?_
  intro h h1 h2
  refine ⟨0, NewEmptyNode 64 0, ?_, rfl, by simp [NewEmptyNode]; omega, by simp [NewEmptyNode]⟩
  interval_cases h <;> rfl

theorem getN_some_lt {b : BowlT} {i : Nat} {n : Node} (h : b.getN i = some n) :
    i < b.nodes.length := by
  by_contra hc
  rw [BowlT.getN, List.get?_eq_none.mpr (by omega)] at h
  exact Option.noConfusion h

theorem list_set_get_self : ∀ (l : List Node) (i : Nat) (n : Node),
    l.get? i = some n → l.set i n = l := by
  intro l
  induction l with
  | nil => intro i n h; exact Option.noConfusion h
  | cons x xs ihl =>
    intro i n h
    cases i with
    | zero =>
      simp at h
      simp [h]
    | succ j =>
      simp at h
      simp [List.set]
      exact ihl j n (by simpa using h)

theorem setN_getN_self {b : BowlT} {i : Nat} {n : Node} (h : b.getN i = some n) :
    b.setN i n = b := by
  obtain ⟨nodes, latest, ch⟩ := b
  rw [BowlT.setN]
  simp only [BowlT.mk.injEq, and_true, true_and]
  exact list_set_get_self nodes i n h

theorem gnnfhLoop_no_next (key : Int) (fuel : Nat) (b : BowlT) (hd : Node)
    (hhd : b.getN 0 = some hd)
    (hnone : ∀ i : Nat, hd.nextNodes.getD i none = none) :
    ∀ lvl, gnnfhLoop key fuel b lvl = some (b, none) := by
  intro lvl
  induction lvl with
  | zero => rfl
  | succ l ih =>
    have hnn : (hd.GetNextNodeAt ((l + 1 : Nat) : Int)).1 = none := by
      unfold Node.GetNextNodeAt
      split
      · rfl
      · exact hnone _
    rw [gnnfhLoop, hhd]
    dsimp only
    rw [hnn]
    exact ih

theorem connectHeadLevels_spec :
    ∀ (j : Nat) (b : BowlT) (nid : Nat) (hd : Node),
    b.getN 0 = some hd → hd.nextNodes.length = hd.height → j ≤ hd.height →
    ∃ hd', (connectHeadLevels b nid j).getN 0 = some hd' ∧
      (connectHeadLevels b nid j).nodes.length = b.nodes.length ∧
      (∀ m, m ≠ 0 → (connectHeadLevels b nid j).getN m = b.getN m) ∧
      (connectHeadLevels b nid j).latest = b.latest ∧
      (connectHeadLevels b nid j).ch = b.ch ∧
      hd'.marked = hd.marked ∧ hd'.data = hd.data ∧ hd'.height = hd.height ∧
      hd'.cmp = hd.cmp ∧
      hd'.nextNodes.length = hd.nextNodes.length ∧
      (∀ i, i < j → hd'.nextNodes.getD i none = some nid) ∧
      (∀ i, j ≤ i → hd'.nextNodes.getD i none = hd.nextNodes.getD i none) := by
  intro j
  induction j with
  | zero =>
    intro b nid hd hhd _ _
    exact ⟨hd, hhd, rfl, fun m _ => rfl, rfl, rfl, rfl, rfl, rfl, rfl, rfl,
      fun i hi => absurd hi (by omega), fun i _ => rfl⟩
  | succ j ihj =>
    intro b nid hd hhd hlen hj
    obtain ⟨hd', h0, hnl, hm, hlat, hch, hmk, hdat, hht, hcmp, hnlen, hlo, hhi⟩ :=
      ihj b nid hd hhd hlen (by omega)
    have hconn : hd'.ConnectNode (j : Int) (some nid) =
        ({ hd' with nextNodes := hd'.nextNodes.set j (some nid) }, none) := by
      unfold Node.ConnectNode
      rw [if_neg (by omega)]
      simp
    rw [connectHeadLevels]
    set bj := connectHeadLevels b nid j with hbj
    set hd2 : Node := { hd' with nextNodes := hd'.nextNodes.set j (some nid) }
      with hhd2
    have hci : bj.connectIgnore 0 (j : Int) (some nid) = bj.setN 0 hd2 := by
      rw [BowlT.connectIgnore, h0]
      dsimp only
      rw [hconn]
    rw [hci]
    have hjlen : j < hd'.nextNodes.length := by omega
    refine ⟨hd2, getN_setN_self hd2 (getN_some_lt h0), ?_, ?_, ?_, ?_,
      hmk, hdat, hht, hcmp, ?_, ?_, ?_⟩
    · rw [BowlT.setN]
      simp [List.length_set, hnl]
    · intro m hmne
      rw [getN_setN_ne hd2 (fun hc => hmne hc.symm)]
      exact hm m hmne
    · rw [BowlT.setN]
      exact hlat
    · rw [BowlT.setN]
      exact hch
    · rw [hhd2]
      simp [List.length_set, hnlen]
    · intro i hi
      rw [hhd2]
      by_cases hij : i = j
      · subst hij
        exact getD_set_self hjlen
      · rw [getD_set_ne (fun hc => hij hc.symm)]
        exact hlo i (by omega)
    · intro i hi
      rw [hhd2]
      rw [getD_set_ne (by omega)]
      exact hhi i (by omega)

theorem gnnfh_empty_list (h : Nat) (k : Int) (fuel : Nat)
    (hh1 : 1 ≤ h) (hh2 : h ≤ MAX_HEIGHT) :
    ∃ bC, getNextNodeFromHead (NewBOWL [h]) k fuel = some (bC, 1) ∧
      bC.nodes.length = 2 ∧ bC.getN 1 = some (NewEmptyNode h 0) ∧ bC.ch = [] ∧
      ∃ hd', bC.getN 0 = some hd' ∧ hd'.data = [] ∧ hd'.height = MAX_HEIGHT ∧
        (∀ i, i < h → hd'.nextNodes.getD i none = some 1) ∧
        (∀ i, h ≤ i → hd'.nextNodes.getD i none = none) := by
  have hhd : (NewBOWL [h]).getN 0 = some (NewEmptyNode MAX_HEIGHT 0) := rfl
  have hnone : ∀ i : Nat, (NewEmptyNode MAX_HEIGHT 0).nextNodes.getD i none = none := by
    intro i
    rcases Nat.lt_or_ge i MAX_HEIGHT with hi | hi
    · rw [NewEmptyNode]
      rw [List.getD_eq_getElem _ none (by simpa using hi)]
      simp
    · rw [List.getD_eq_default _ none (by simpa [NewEmptyNode] using hi)]
  rw [getNextNodeFromHead,
    gnnfhLoop_no_next k fuel (NewBOWL [h]) (NewEmptyNode MAX_HEIGHT 0) hhd hnone _]
  dsimp only
  rw [hhd]
  dsimp only
  have hn0 : ((NewEmptyNode MAX_HEIGHT 0).GetNextNodeAt 0).1 = none := by
    unfold Node.GetNextNodeAt
    split
    · rfl
    · exact hnone 0
  rw [hn0]
  dsimp only
  set b2 : BowlT := { NewBOWL [h] with
    nodes := (NewBOWL [h]).nodes ++ [NewEmptyNode h 0], ch := [] } with hb2
  have hb2get : b2.getN 0 = some (NewEmptyNode MAX_HEIGHT 0) := rfl
  obtain ⟨hd', h0, hnl, hm, hlat, hch, hmk, hdat, hht, hcmp, hnlen, hlo, hhi⟩ :=
    connectHeadLevels_spec h b2 1 (NewEmptyNode MAX_HEIGHT 0) hb2get
      (by simp [NewEmptyNode]) (by simpa [NewEmptyNode] using hh2)
  set b3 := connectHeadLevels b2 1 h with hb3
  have hsl_nodes : ∀ bX nid, (setLatestPointingNodes bX nid).nodes = bX.nodes := by
    intro bX nid
    rw [setLatestPointingNodes]
    cases bX.getN nid with
    | none => rfl
    | some n => rfl
  have hsl_ch : ∀ bX nid, (setLatestPointingNodes bX nid).ch = bX.ch := by
    intro bX nid
    rw [setLatestPointingNodes]
    cases bX.getN nid with
    | none => rfl
    | some n => rfl
  have hsl_getN : ∀ bX nid m, (setLatestPointingNodes bX nid).getN m = bX.getN m := by
    intro bX nid m
    rw [BowlT.getN, BowlT.getN, hsl_nodes]
  refine ⟨setLatestPointingNodes b3 1, rfl, ?_, ?_, ?_, hd', ?_, ?_, ?_, ?_, ?_⟩
  · show (setLatestPointingNodes b3 1).nodes.length = 2
    rw [hsl_nodes b3 1, hnl]
    rfl
  · rw [hsl_getN, hm 1 (by omega)]
    rfl
  · rw [hsl_ch b3 1, hch]
  · rw [hsl_getN]
    exact h0
  · rw [hdat]
    rfl
  · rw [hht]
    rfl
  · exact hlo
  · intro i hi
    rw [hhi i hi]
    exact hnone i

theorem gcnInner_inert (key : Int) (fuel : Nat) (b : BowlT) (cur : Nat) (n : Node)
    (hget : b.getN cur = some n)
    (hnone : ∀ i : Nat, n.nextNodes.getD i none = none) :
    ∀ hp flag, gcnInner key fuel b cur hp flag = some (b, flag, none) := by
  intro hp
  induction hp with
  | zero => intro flag; rfl
  | succ hp2 ih =>
    intro flag
    rw [gcnInner, hget]
    dsimp only
    have hnn : (n.GetNextNodeAt (hp2 : Int)).1 = none := by
      unfold Node.GetNextNodeAt
      split
      · rfl
      · exact hnone _
    rw [hnn]
    exact ih flag

theorem getCorrectNode_inert (key : Int) (f : Nat) (b : BowlT) (cur : Nat) (n : Node)
    (hget : b.getN cur = some n) (hdata : n.data = [])
    (hnone : ∀ i : Nat, n.nextNodes.getD i none = none) :
    getCorrectNode b key cur (f + 1) = some (b, cur) := by
  rw [getCorrectNode, hget]
  dsimp only
  rw [gcnOuter, hget]
  dsimp only
  have hmax : (n.CheckKeyStrictlyLessThanMax key).1 = false := by
    unfold Node.CheckKeyStrictlyLessThanMax
    rw [if_pos (by simp [hdata])]
  rw [hmax]
  simp only [Bool.false_eq_true, if_false]
  rw [gcnInner_inert key (f + 1) b cur n hget hnone _ false]
  rfl

theorem getLoop_inert (d : Int) (f : Nat) :
    ∀ (keys : List Int) (b : BowlT) (cur : Nat) (n : Node),
    b.getN cur = some n → n.data = [] →
    (∀ i : Nat, n.nextNodes.getD i none = none) →
    getLoop (f + 1) d b cur keys = some (b, keys.map fun _ => d) := by
  intro keys
  induction keys with
  | nil => intro b cur n _ _ _; rfl
  | cons k ks ih =>
    intro b cur n hget hdata hnone
    rw [getLoop, getCorrectNode_inert k f b cur n hget hdata hnone]
    dsimp only
    rw [hget]
    dsimp only
    rw [ih b cur n hget hdata hnone]
    dsimp only
    have hv : (n.Get k d).1 = d := by
      unfold Node.Get
      rw [if_pos (by simp [hdata])]
    rw [hv]
    rfl

theorem updateLoop_inert (f : Nat) :
    ∀ (ihs : List Item) (b : BowlT) (cur : Nat) (n : Node),
    b.getN cur = some n → n.data = [] →
    (∀ i : Nat, n.nextNodes.getD i none = none) →
    updateLoop (f + 1) b cur ihs = some (b, ihs.map fun _ => some Err.NodeIsEmpty) := by
  intro ihs
  induction ihs with
  | nil => intro b cur n _ _ _; rfl
  | cons ih0 rest ih =>
    intro b cur n hget hdata hnone
    rw [updateLoop, getCorrectNode_inert ih0.key f b cur n hget hdata hnone]
    dsimp only
    rw [hget]
    dsimp only
    have hu : n.Update ih0 = (n, some Err.NodeIsEmpty) := by
      unfold Node.Update
      rw [if_pos (by simp [hdata])]
    rw [hu]
    dsimp only
    rw [setN_getN_self hget, ih b cur n hget hdata hnone]
    rfl

theorem markRemoval_of_marked {n : Node} (h : n.marked = true) : n.MarkRemoval = n := by
  obtain ⟨mk, cmp, data, height, nexts⟩ := n
  rw [Node.MarkRemoval]
  simp_all

theorem deleteLoop_marked (f : Nat) :
    ∀ (keys : List Int) (b : BowlT) (cur : Nat) (n : Node),
    b.getN cur = some n → n.data = [] →
    (∀ i : Nat, n.nextNodes.getD i none = none) → n.marked = true →
    deleteLoop (f + 1) b cur keys =
      some (b, keys.map fun _ => some Err.NodeIsEmpty) := by
  intro keys
  induction keys with
  | nil => intro b cur n _ _ _ _; rfl
  | cons k ks ih =>
    intro b cur n hget hdata hnone hmk
    rw [deleteLoop, getCorrectNode_inert k f b cur n hget hdata hnone]
    dsimp only
    rw [hget]
    dsimp only
    have hd : n.Delete k = (n, some Err.NodeIsEmpty) := by
      unfold Node.Delete
      rw [if_pos (by simp [hdata])]
    rw [hd]
    dsimp only
    rw [setN_getN_self hget]
    rw [if_pos (by simp [Node.GetCount, hdata])]
    rw [markRemoval_of_marked hmk, setN_getN_self hget]
    rw [ih b cur n hget hdata hnone hmk]
    rfl

theorem deleteLoop_inert_start (f : Nat) (k : Int) (ks : List Int)
    (b : BowlT) (cur : Nat) (n : Node)
    (hget : b.getN cur = some n) (hdata : n.data = [])
    (hnone : ∀ i : Nat, n.nextNodes.getD i none = none) :
    deleteLoop (f + 1) b cur (k :: ks) =
      some (b.setN cur n.MarkRemoval,
        (k :: ks).map fun _ => some Err.NodeIsEmpty) := by
  rw [deleteLoop, getCorrectNode_inert k f b cur n hget hdata hnone]
  dsimp only
  rw [hget]
  dsimp only
  have hd : n.Delete k = (n, some Err.NodeIsEmpty) := by
    unfold Node.Delete
    rw [if_pos (by simp [hdata])]
  rw [hd]
  dsimp only
  rw [setN_getN_self hget]
  rw [if_pos (by simp [Node.GetCount, hdata])]
  have hget2 : (b.setN cur n.MarkRemoval).getN cur = some n.MarkRemoval :=
    getN_setN_self _ (getN_some_lt hget)
  rw [deleteLoop_marked f ks (b.setN cur n.MarkRemoval) cur n.MarkRemoval hget2
    (by rw [Node.MarkRemoval]; exact hdata)
    (fun i => by rw [Node.MarkRemoval]; exact hnone i) rfl]
  rfl

theorem map_map_const {α β γ : Type} (c : γ) (f : α → β) : ∀ l : List α,
    (l.map f).map (fun _ => c) = l.map (fun _ => c) := by
  intro l
  induction l with
  | nil => rfl
  | cons a t ih =>
    simp only [List.map_cons]
    rw [ih]

/-- C10: `Get`, `Update` and `Delete` with a non-empty batch on an empty
list are not read-only — each allocates a fresh empty node with the height
drawn from the random source, links it from head at every level below that
height (and at no higher level), and leaves it in the list; for `Delete`
the fresh node is additionally MARKED_REMOVED before the batch completes. -/
theorem claim_C10_empty_list_mutation (h : Nat) (hh1 : 1 ≤ h) (hh2 : h ≤ MAX_HEIGHT)
    (k0 : Int) (ks : List Int) (default : Int) (f : Nat) :
    (∃ bG, bowlGet (NewBOWL [h]) (k0 :: ks) default (f + 1) =
        some (bG, (k0 :: ks).map fun _ => default) ∧
      bG.nodes.length = 2 ∧ bG.getN 1 = some (NewEmptyNode h 0) ∧
      (∀ i, i < h → ptrAt bG 0 i = some (some 1)) ∧
      (∀ i, h ≤ i → ptrAt bG 0 i = some none)) ∧
    (∃ bU, bowlUpdate (NewBOWL [h]) ((k0 :: ks).map fun k => ⟨k, default⟩) (f + 1) =
        some (bU, (k0 :: ks).map fun _ => some Err.NodeIsEmpty) ∧
      bU.nodes.length = 2 ∧ bU.getN 1 = some (NewEmptyNode h 0) ∧
      (∀ i, i < h → ptrAt bU 0 i = some (some 1)) ∧
      (∀ i, h ≤ i → ptrAt bU 0 i = some none)) ∧
    (∃ bD, bowlDelete (NewBOWL [h]) (k0 :: ks) (f + 1) =
        some (bD, (k0 :: ks).map fun _ => some Err.NodeIsEmpty) ∧
      bD.nodes.length = 2 ∧ bD.getN 1 = some ((NewEmptyNode h 0).MarkRemoval) ∧
      (∀ i, i < h → ptrAt bD 0 i = some (some 1)) ∧
      (∀ i, h ≤ i → ptrAt bD 0 i = some none)) := by
  have hnodeNone : ∀ i : Nat, (NewEmptyNode h 0).nextNodes.getD i none = none := by
    intro i
    rcases Nat.lt_or_ge i h with hi | hi
    · rw [NewEmptyNode, List.getD_eq_getElem _ none (by simpa using hi)]
      simp
    · rw [List.getD_eq_default _ none (by simpa [NewEmptyNode] using hi)]
  have hnodeData : (NewEmptyNode h 0).data = [] := rfl
  refine ⟨?_, ?_, ?_⟩
  · -- Get
    obtain ⟨bC, hrun, hlen2, hget1, hch, hd', h0, hdat, hht, hlo, hhi⟩ :=
      gnnfh_empty_list h k0 (f + 1) hh1 hh2
    refine ⟨bC, ?_, hlen2, hget1, ?_, ?_⟩
    · rw [bowlGet, hrun]
      dsimp only
      rw [getLoop_inert default f (k0 :: ks) bC 1 (NewEmptyNode h 0) hget1
        hnodeData hnodeNone]
    · intro i hi
      rw [ptrAt, h0]
      exact congrArg some (hlo i hi)
    · intro i hi
      rw [ptrAt, h0]
      exact congrArg some (hhi i hi)
  · -- Update
    obtain ⟨bC, hrun, hlen2, hget1, hch, hd', h0, hdat, hht, hlo, hhi⟩ :=
      gnnfh_empty_list h k0 (f + 1) hh1 hh2
    refine ⟨bC, ?_, hlen2, hget1, ?_, ?_⟩
    · rw [List.map_cons, bowlUpdate]
      dsimp only
      rw [hrun]
      dsimp only
      rw [← List.map_cons (fun k => (⟨k, default⟩ : Item)) k0 ks]
      rw [updateLoop_inert f ((k0 :: ks).map fun k => ⟨k, default⟩) bC 1
        (NewEmptyNode h 0) hget1 hnodeData hnodeNone]
      rw [map_map_const]
    · intro i hi
      rw [ptrAt, h0]
      exact congrArg some (hlo i hi)
    · intro i hi
      rw [ptrAt, h0]
      exact congrArg some (hhi i hi)
  · -- Delete
    obtain ⟨bC, hrun, hlen2, hget1, hch, hd', h0, hdat, hht, hlo, hhi⟩ :=
      gnnfh_empty_list h k0 (f + 1) hh1 hh2
    refine ⟨bC.setN 1 ((NewEmptyNode h 0).MarkRemoval), ?_, ?_, ?_, ?_, ?_⟩
    · rw [bowlDelete, hrun]
      dsimp only
      rw [deleteLoop_inert_start f k0 ks bC 1 (NewEmptyNode h 0) hget1
        hnodeData hnodeNone]
    · rw [BowlT.setN]
      simp [List.length_set, hlen2]
    · exact getN_setN_self _ (getN_some_lt hget1)
    · intro i hi
      rw [ptrAt, getN_setN_ne _ (by omega), h0]
      exact congrArg some (hlo i hi)
    · intro i hi
      rw [ptrAt, getN_setN_ne _ (by omega), h0]
      exact congrArg some (hhi i hi)

theorem claim_C10_empty_list_mutation_witness :
    (bowlDelete (NewBOWL [2]) [7] (99 + 1)).elim False (fun r =>
      r.1.getN 1 = some ((NewEmptyNode 2 0).MarkRemoval) ∧
      ptrAt r.1 0 0 = some (some 1) ∧ ptrAt r.1 0 1 = some (some 1) ∧
      ptrAt r.1 0 2 = some none) := by
  obtain ⟨_, _, bD, hrun, _, hget1, hlo, hhi⟩ :=
    claim_C10_empty_list_mutation 2 (by omega) (by decide) 7 [] 0 99
  rw [hrun]
  exact ⟨hget1, hlo 0 (by omega), hlo 1 (by omega), hhi 2 (by omega)⟩

/-!
## Chain-segment infrastructure (claim C1)
-/

theorem chainSeg_unique {ns : List Node} : ∀ {o : Option Nat} {ids ids' : List Nat},
    ChainSeg ns o ids none → ChainSeg ns o ids' none → ids = ids' := by
  intro o ids
  induction ids generalizing o with
  | nil =>
    intro ids' h1 h2
    cases h1
    cases h2
    rfl
  | cons i rest ih =>
    intro ids' h1 h2
    cases h1 with
    | cons hget htail =>
      cases h2 with
      | cons hget2 htail2 =>
        rw [hget] at hget2
        cases hget2
        rw [ih htail htail2]

theorem chainSeg_mem_get {ns : List Node} :
    ∀ {o : Option Nat} {ids : List Nat} {o' : Option Nat},
    ChainSeg ns o ids o' → ∀ j ∈ ids, ∃ n, ns.get? j = some n := by
  intro o ids
  induction ids generalizing o with
  | nil => intro o' h j hj; cases hj
  | cons i rest ih =>
    intro o' h j hj
    cases h with
    | cons hget htail =>
      rcases List.mem_cons.mp hj with rfl | hj2
      · exact ⟨_, hget⟩
      · exact ih htail j hj2

theorem chainSeg_append_iff {ns : List Node} {xs : List Nat} :
    ∀ {o o' : Option Nat} {ys : List Nat},
    ChainSeg ns o (xs ++ ys) o' ↔
      ∃ m, ChainSeg ns o xs m ∧ ChainSeg ns m ys o' := by
  induction xs with
  | nil =>
    intro o o' ys
    constructor
    · intro h; exact ⟨o, ChainSeg.nil o, h⟩
    · rintro ⟨m, h1, h2⟩; cases h1; exact h2
  | cons x rest ih =>
    intro o o' ys
    constructor
    · intro h
      cases h with
      | cons hget htail =>
        rcases ih.mp htail with ⟨m, hm1, hm2⟩
        exact ⟨m, ChainSeg.cons hget hm1, hm2⟩
    · rintro ⟨m, h1, h2⟩
      cases h1 with
      | cons hget htail =>
        exact ChainSeg.cons hget (ih.mpr ⟨m, htail, h2⟩)

theorem chainSeg_nodup {ns : List Node} : ∀ {ids : List Nat} {o : Option Nat},
    ChainSeg ns o ids none → ids.Nodup := by
  intro ids
  induction ids with
  | nil => intro o _; exact List.nodup_nil
  | cons i rest ih =>
    intro o h
    cases h with
    | cons hget htail =>
      refine List.nodup_cons.mpr ⟨?_, ih htail⟩
      intro hmem
      rcases List.append_of_mem hmem with ⟨u, v, huv⟩
      rw [huv] at htail
      rcases chainSeg_append_iff.mp htail with ⟨m, _, hm2⟩
      cases hm2 with
      | cons hget2 htail2 =>
        rw [hget] at hget2
        cases hget2
        have heq := chainSeg_unique htail htail2
        have : (u ++ i :: v).length = v.length := congrArg List.length heq
        simp only [List.length_append, List.length_cons] at this
        omega

theorem chainSeg_zero_not_mem {ns : List Node} :
    ∀ {ids : List Nat} {o : Option Nat},
    ChainSeg ns o ids none →
    (∀ t, o = some t → t ≠ 0) →
    (∀ j n (lvl : Nat), ns.get? j = some n → n.nextNodes.getD lvl none ≠ some 0) →
    0 ∉ ids := by
  intro ids
  induction ids with
  | nil => intro o _ _ _; exact List.not_mem_nil 0
  | cons i rest ih =>
    intro o h ho hp
    cases h with
    | cons hget htail =>
      intro hmem
      rcases List.mem_cons.mp hmem with rfl | hmem2
      · exact ho 0 rfl rfl
      · refine ih htail ?_ hp hmem2
        intro t ht h0
        subst h0
        exact hp i _ 0 hget ht

theorem chainSeg_congr {ns ns' : List Node} :
    ∀ {ids : List Nat} {o o' : Option Nat},
    ChainSeg ns o ids o' →
    (∀ j ∈ ids, ∀ n, ns.get? j = some n →
      ∃ n', ns'.get? j = some n' ∧ next0 n' = next0 n) →
    ChainSeg ns' o ids o' := by
  intro ids
  induction ids with
  | nil => intro o o' h _; cases h; exact ChainSeg.nil o
  | cons i rest ih =>
    intro o o' h hc
    cases h with
    | cons hget htail =>
      rcases hc i (List.mem_cons_self i rest) _ hget with ⟨n', hn1, hn2⟩
      refine ChainSeg.cons hn1 ?_
      rw [hn2]
      exact ih htail (fun j hj => hc j (List.mem_cons_of_mem i hj))

theorem chainItems_append (ns : List Node) :
    ∀ (xs ys : List Nat),
    chainItems ns (xs ++ ys) = chainItems ns xs ++ chainItems ns ys := by
  intro xs ys
  induction xs with
  | nil => simp [chainItems]
  | cons x rest ih => simp [chainItems, ih]

theorem chainItems_congr {ns ns' : List Node} :
    ∀ {ids : List Nat},
    (∀ j ∈ ids, dataAt ns' j = dataAt ns j) →
    chainItems ns' ids = chainItems ns ids := by
  intro ids
  induction ids with
  | nil => intro _; rfl
  | cons i rest ih =>
    intro h
    simp only [chainItems]
    rw [h i (List.mem_cons_self i rest), ih (fun j hj => h j (List.mem_cons_of_mem i hj))]

theorem sortedItems_iff_pairwise {l : List Item} :
    sortedItems l ↔ l.Pairwise (fun a b => a.key < b.key) := by
  haveI : IsTrans Item (fun a b => a.key < b.key) :=
    ⟨fun _ _ _ hab hbc => lt_trans hab hbc⟩
  exact List.chain'_iff_pairwise

theorem sortedItems_sublist {l l' : List Item} (hsub : List.Sublist l' l)
    (h : sortedItems l) : sortedItems l' :=
  sortedItems_iff_pairwise.mpr ((sortedItems_iff_pairwise.mp h).sublist hsub)

theorem storePres_refl (b : BowlT) : storePres b b := by
  intro j n h
  exact ⟨n, h, rfl, rfl, rfl, rfl⟩

theorem storePres_trans {a b c : BowlT} (h1 : storePres a b) (h2 : storePres b c) :
    storePres a c := by
  intro j n h
  rcases h1 j n h with ⟨n1, hn1, e1, e2, e3, e4⟩
  rcases h2 j n1 hn1 with ⟨n2, hn2, f1, f2, f3, f4⟩
  exact ⟨n2, hn2, by rw [f1, e1], by rw [f2, e2], by rw [f3, e3], by rw [f4, e4]⟩

theorem storePres_dataAt {b b' : BowlT} (h : storePres b b') {j : Nat}
    (hj : ∃ n, b.getN j = some n) : dataAt b'.nodes j = dataAt b.nodes j := by
  rcases hj with ⟨n, hn⟩
  rcases h j n hn with ⟨n', hn', e1, _, _, _⟩
  unfold dataAt
  have hg : b.nodes.get? j = some n := hn
  have hg' : b'.nodes.get? j = some n' := hn'
  rw [hg, hg']
  exact e1

theorem storePres_chainItems {b b' : BowlT} (h : storePres b b')
    {ids : List Nat} (hids : ∀ j ∈ ids, ∃ n, b.getN j = some n) :
    chainItems b'.nodes ids = chainItems b.nodes ids :=
  chainItems_congr (fun j hj => storePres_dataAt h (hids j hj))

/-!
## Effect of the pointer-edit helpers (claim C1)
-/

theorem connectIgnore_ne {b : BowlT} {id : Nat} (h : Int) (nx : Option Nat)
    {j : Nat} (hne : j ≠ id) : (b.connectIgnore id h nx).getN j = b.getN j := by
  rw [BowlT.connectIgnore]
  cases hg : b.getN id
  · rfl
  · exact getN_setN_ne _ (fun hc => hne hc.symm)

theorem connectIgnore_self {b : BowlT} {id : Nat} {n : Node}
    (hg : b.getN id = some n) (h : Int) (nx : Option Nat) :
    ∃ m, (b.connectIgnore id h nx).getN id = some m ∧
      m.data = n.data ∧ m.marked = n.marked ∧ m.height = n.height ∧
      m.nextNodes.length = n.nextNodes.length ∧
      ((0 ≤ h ∧ h < (n.height : Int) ∧
        m.nextNodes = n.nextNodes.set h.toNat nx) ∨ m = n) := by
  rw [BowlT.connectIgnore, hg]
  dsimp only
  unfold Node.ConnectNode
  by_cases hc : h < 0 ∨ (n.height : Int) ≤ h
  · rw [if_pos hc]
    show ∃ m, (b.setN id n).getN id = some m ∧ _
    rw [setN_getN_self hg]
    exact ⟨n, hg, rfl, rfl, rfl, rfl, Or.inr rfl⟩
  · rw [if_neg hc]
    push_neg at hc
    show ∃ m, (b.setN id { n with nextNodes := n.nextNodes.set h.toNat nx }).getN id
      = some m ∧ _
    refine ⟨_, getN_setN_self _ (getN_some_lt hg), rfl, rfl, rfl, by
      simp [List.length_set], Or.inl ⟨hc.1, hc.2, rfl⟩⟩

theorem connectIgnore_latest (b : BowlT) (id : Nat) (h : Int) (nx : Option Nat) :
    (b.connectIgnore id h nx).latest = b.latest := by
  rw [BowlT.connectIgnore]
  cases hg : b.getN id <;> rfl

theorem connectIgnore_ch (b : BowlT) (id : Nat) (h : Int) (nx : Option Nat) :
    (b.connectIgnore id h nx).ch = b.ch := by
  rw [BowlT.connectIgnore]
  cases hg : b.getN id <;> rfl

theorem connectIgnore_length (b : BowlT) (id : Nat) (h : Int) (nx : Option Nat) :
    (b.connectIgnore id h nx).nodes.length = b.nodes.length := by
  rw [BowlT.connectIgnore]
  cases hg : b.getN id
  · rfl
  · simp [BowlT.setN, List.length_set]

theorem disconnectIgnore_ne {b : BowlT} {id : Nat} (h : Int)
    {j : Nat} (hne : j ≠ id) : (b.disconnectIgnore id h).getN j = b.getN j := by
  rw [BowlT.disconnectIgnore]
  cases hg : b.getN id
  · rfl
  · exact getN_setN_ne _ (fun hc => hne hc.symm)

theorem disconnectIgnore_self {b : BowlT} {id : Nat} {n : Node}
    (hg : b.getN id = some n) (h : Int) :
    ∃ m, (b.disconnectIgnore id h).getN id = some m ∧
      m.data = n.data ∧ m.marked = n.marked ∧ m.height = n.height ∧
      m.nextNodes.length = n.nextNodes.length ∧
      ((0 ≤ h ∧ h < (n.height : Int) ∧
        m.nextNodes = n.nextNodes.set h.toNat none) ∨ m = n) := by
  rw [BowlT.disconnectIgnore, hg]
  dsimp only
  unfold Node.DisconnectNode
  by_cases hc : h < 0 ∨ (n.height : Int) ≤ h
  · rw [if_pos hc]
    show ∃ m, (b.setN id n).getN id = some m ∧ _
    rw [setN_getN_self hg]
    exact ⟨n, hg, rfl, rfl, rfl, rfl, Or.inr rfl⟩
  · rw [if_neg hc]
    push_neg at hc
    show ∃ m, (b.setN id { n with nextNodes := n.nextNodes.set h.toNat none }).getN id
      = some m ∧ _
    refine ⟨_, getN_setN_self _ (getN_some_lt hg), rfl, rfl, rfl, by
      simp [List.length_set], Or.inl ⟨hc.1, hc.2, rfl⟩⟩

theorem disconnectIgnore_latest (b : BowlT) (id : Nat) (h : Int) :
    (b.disconnectIgnore id h).latest = b.latest := by
  rw [BowlT.disconnectIgnore]
  cases hg : b.getN id <;> rfl

theorem disconnectIgnore_ch (b : BowlT) (id : Nat) (h : Int) :
    (b.disconnectIgnore id h).ch = b.ch := by
  rw [BowlT.disconnectIgnore]
  cases hg : b.getN id <;> rfl

theorem disconnectIgnore_length (b : BowlT) (id : Nat) (h : Int) :
    (b.disconnectIgnore id h).nodes.length = b.nodes.length := by
  rw [BowlT.disconnectIgnore]
  cases hg : b.getN id
  · rfl
  · simp [BowlT.setN, List.length_set]

theorem setLatest_getN (b : BowlT) (nid : Nat) (j : Nat) :
    (setLatestPointingNodes b nid).getN j = b.getN j := by
  rw [setLatestPointingNodes]
  cases hg : b.getN nid <;> rfl

theorem setLatest_nodes (b : BowlT) (nid : Nat) :
    (setLatestPointingNodes b nid).nodes = b.nodes := by
  rw [setLatestPointingNodes]
  cases hg : b.getN nid <;> rfl

theorem setLatest_ch (b : BowlT) (nid : Nat) :
    (setLatestPointingNodes b nid).ch = b.ch := by
  rw [setLatestPointingNodes]
  cases hg : b.getN nid <;> rfl

/-- The scan loops' level-0 walker is the generic one at level 0. -/
theorem scanNext_eq_chase (prev : Nat) : ∀ (fuel : Nat) (b : BowlT) (next : Nat),
    scanNextNodeNotMarkedRemoval prev fuel b next =
      getNextNodeAtHeightNotMarkedRemoval 0 prev fuel b next := by
  intro fuel
  induction fuel with
  | zero => intro b next; rfl
  | succ f ih =>
    intro b next
    rw [scanNextNodeNotMarkedRemoval, getNextNodeAtHeightNotMarkedRemoval]
    cases hg : b.getN next with
    | none => rfl
    | some nn =>
      dsimp only
      by_cases hm : nn.MarkedRemoval
      · rw [if_pos hm, if_pos hm]
        cases hnx : (nn.GetNextNodeAt 0).1 with
        | none => rfl
        | some afterNext =>
          dsimp only
          exact ih _ _
      · rw [if_neg hm, if_neg hm]

theorem getNextNodeAt_in_range {n : Node} {h : Int} (h0 : 0 ≤ h)
    (h1 : h < (n.height : Int)) :
    n.GetNextNodeAt h = (n.nextNodes.getD h.toNat none, none) := by
  unfold Node.GetNextNodeAt
  rw [if_neg (by omega)]

theorem getNextNodeAt_zero {n : Node} (h1 : 1 ≤ n.height) :
    (n.GetNextNodeAt 0).1 = next0 n := by
  have hlt : (0 : Int) < (n.height : Int) := by exact_mod_cast h1
  rw [getNextNodeAt_in_range (by omega) hlt]
  rfl

theorem connectIgnore_in_range {b : BowlT} {id : Nat} {n : Node}
    (hg : b.getN id = some n) {h : Int} (h0 : 0 ≤ h) (h1 : h < (n.height : Int))
    (nx : Option Nat) :
    b.connectIgnore id h nx =
      b.setN id { n with nextNodes := n.nextNodes.set h.toNat nx } := by
  rw [BowlT.connectIgnore, hg]
  dsimp only
  unfold Node.ConnectNode
  rw [if_neg (by omega)]

theorem disconnectIgnore_in_range {b : BowlT} {id : Nat} {n : Node}
    (hg : b.getN id = some n) {h : Int} (h0 : 0 ≤ h) (h1 : h < (n.height : Int)) :
    b.disconnectIgnore id h =
      b.setN id { n with nextNodes := n.nextNodes.set h.toNat none } := by
  rw [BowlT.disconnectIgnore, hg]
  dsimp only
  unfold Node.DisconnectNode
  rw [if_neg (by omega)]

theorem nodeShapeEq_refl (n : Node) : nodeShapeEq n n := ⟨rfl, rfl, rfl, rfl⟩

theorem nodeShapeEq_trans {a b c : Node} (h1 : nodeShapeEq a b)
    (h2 : nodeShapeEq b c) : nodeShapeEq a c := by
  obtain ⟨e1, e2, e3, e4⟩ := h1
  obtain ⟨f1, f2, f3, f4⟩ := h2
  exact ⟨by rw [f1, e1], by rw [f2, e2], by rw [f3, e3], by rw [f4, e4]⟩

theorem mem_drop_one_append_cons {ctx l : List Nat} {x j : Nat}
    (h : j ∈ (ctx ++ l).drop 1) : j ∈ (ctx ++ x :: l).drop 1 := by
  cases ctx with
  | nil =>
    simp only [List.nil_append, List.drop_one] at h ⊢
    exact List.mem_of_mem_tail h
  | cons c cs =>
    simp only [List.cons_append, List.drop_one, List.tail_cons] at h ⊢
    rcases List.mem_append.mp h with h1 | h1
    · exact List.mem_append.mpr (Or.inl h1)
    · exact List.mem_append.mpr (Or.inr (List.mem_cons_of_mem x h1))

theorem sublist_append_middle {α : Type} (l1 l2 l3 : List α) :
    List.Sublist (l1 ++ l3) (l1 ++ (l2 ++ l3)) :=
  (List.sublist_append_right l2 l3).append_left l1

/-- `0` is never on the chain of a well-formed state. -/
theorem inv_zero_not_mem {b : BowlT} {hd : Node} {ids : List Nat}
    (hinv : InvAt b hd ids) : 0 ∉ ids := by
  refine chainSeg_zero_not_mem hinv.chain ?_ ?_
  · intro t ht h0
    subst h0
    exact hinv.no_ptr_zero 0 hd 0 hinv.hhd ht
  · intro j n lvl hg
    exact hinv.no_ptr_zero j n lvl hg

theorem chainSeg_nil_inv {ns : List Node} {o o' : Option Nat}
    (h : ChainSeg ns o [] o') : o = o' := by
  cases h
  rfl

theorem chainSeg_cons_inv {ns : List Node} {o o' : Option Nat} {i : Nat}
    {rest : List Nat} (h : ChainSeg ns o (i :: rest) o') :
    o = some i ∧ ∃ n, ns.get? i = some n ∧ ChainSeg ns (next0 n) rest o' := by
  cases h with
  | cons hget htail => exact ⟨rfl, _, hget, htail⟩

theorem setN_length (b : BowlT) (i : Nat) (n : Node) :
    (b.setN i n).nodes.length = b.nodes.length := by
  simp [BowlT.setN, List.length_set]

/-- Behaviour of the level-0 marked-removal walk (the while-loop of
`getNextNodeAtHeightNotMarkedRemoval` at height 0): starting from `prev`
(which points at `next`, the head of the chain suffix `sfx`), it splices a
marked prefix out of the chain, preserves the structural invariant, and
stops at the first non-marked node (`ok = true`) or at a marked node
without level-0 successor (`ok = false`). -/
theorem chase0_spec (ctx : List Nat) (prev : Nat)
    (hroot : (prev = 0 ∧ ctx = []) ∨ ∃ ctx0, ctx = ctx0 ++ [prev]) :
    ∀ (fuel : Nat) (b : BowlT) (hd : Node) (sfx : List Nat) (next : Nat)
      (res : BowlT × Bool × Nat),
    InvAt b hd (ctx ++ sfx) →
    ChainSeg b.nodes (next0 hd) ctx (some next) →
    ChainSeg b.nodes (some next) sfx none →
    getNextNodeAtHeightNotMarkedRemoval 0 prev fuel b next = some res →
    ∃ hd' sfx',
      InvAt res.1 hd' (ctx ++ sfx') ∧
      nodeShapeEq hd hd' ∧
      storePres b res.1 ∧
      res.1.nodes.length = b.nodes.length ∧
      res.1.ch = b.ch ∧
      ChainSeg res.1.nodes (next0 hd') ctx (some res.2.2) ∧
      ChainSeg res.1.nodes (some res.2.2) sfx' none ∧
      (chainItems res.1.nodes sfx').IsSuffix (chainItems b.nodes sfx) ∧
      (res.2.1 = true → ∃ nn rest', res.1.getN res.2.2 = some nn ∧
        nn.marked = false ∧ sfx' = res.2.2 :: rest') ∧
      (res.2.1 = false → ∃ nn, res.1.getN res.2.2 = some nn ∧
        nn.marked = true ∧ sfx' = [res.2.2]) := by
  intro fuel
  induction fuel with
  | zero =>
    intro b hd sfx next res _ _ _ hrun
    exact Option.noConfusion hrun
  | succ f ih =>
    intro b hd sfx next res hinv hctx hsfx hrun
    cases hsfx with
    | cons hgetnext htailsfx =>
      rename_i nt rest
      have hgN : b.getN next = some nt := hgetnext
      rw [getNextNodeAtHeightNotMarkedRemoval, hgN] at hrun
      dsimp only at hrun
      by_cases hm : nt.MarkedRemoval
      · -- marked: step past it
        rw [if_pos hm] at hrun
        have hnt_ht := (hinv.node_ht next nt hgN).1
        rw [getNextNodeAt_zero hnt_ht] at hrun
        cases hnx : next0 nt with
        | none =>
          rw [hnx] at hrun
          rw [hnx] at htailsfx
          have hrest : rest = [] := by
            cases htailsfx
            rfl
          subst hrest
          cases hrun
          refine ⟨hd, [next], hinv, nodeShapeEq_refl hd, storePres_refl b, rfl, rfl,
            hctx, ChainSeg.cons hgetnext (by rw [hnx]; exact ChainSeg.nil none),
            List.suffix_refl _, ?_, ?_⟩
          · intro htrue
            exact absurd htrue (by simp)
          · intro _
            refine ⟨nt, hgN, ?_, rfl⟩
            simpa [Node.MarkedRemoval] using hm
        | some a =>
          rw [hnx] at hrun
          dsimp only at hrun
          rw [hnx] at htailsfx
          cases htailsfx with
          | cons hgeta htail2 =>
            rename_i na rest2
            -- ambient facts
            have hids_nodup : (ctx ++ next :: a :: rest2).Nodup :=
              chainSeg_nodup hinv.chain
            have hdisj := List.nodup_append.mp hids_nodup
            have h0nm : 0 ∉ ctx ++ next :: a :: rest2 := inv_zero_not_mem hinv
            have hnext_mem : next ∈ ctx ++ next :: a :: rest2 := by simp
            have hnext0 : next ≠ 0 := by
              rintro rfl
              exact h0nm hnext_mem
            have ha0 : a ≠ 0 := by
              rintro rfl
              exact hinv.no_ptr_zero next nt 0 hgN hnx
            -- the node at prev
            obtain ⟨pn, hgprev, hpn0, hprev_hd⟩ :
                ∃ pn, b.getN prev = some pn ∧ next0 pn = some next ∧
                  (prev = 0 → pn = hd) := by
              rcases hroot with ⟨hp0, hctxnil⟩ | ⟨ctx0, hctx0⟩
              · subst hp0
                subst hctxnil
                have := chainSeg_nil_inv hctx
                exact ⟨hd, hinv.hhd, this, fun _ => rfl⟩
              · subst hctx0
                rcases chainSeg_append_iff.mp hctx with ⟨m, hc0, hc1⟩
                rcases chainSeg_cons_inv hc1 with ⟨hm_eq, pn, hgp, htl⟩
                refine ⟨pn, hgp, chainSeg_nil_inv htl, ?_⟩
                · intro hp0
                  exfalso
                  apply h0nm
                  rw [← hp0]
                  exact List.mem_append.mpr (Or.inl (List.mem_append.mpr
                    (Or.inr (List.mem_singleton.mpr rfl))))
            have hprev_notin : prev ∉ (next :: a :: rest2 : List Nat) := by
              rcases hroot with ⟨hp0, _⟩ | ⟨ctx0, hctx0⟩
              · subst hp0
                intro hmem
                exact h0nm (List.mem_append.mpr (Or.inr hmem))
              · intro hmem
                refine hdisj.2.2 ?_ hmem
                rw [hctx0]
                exact List.mem_append.mpr (Or.inr (List.mem_singleton.mpr rfl))
            have hprev_ne_next : prev ≠ next := by
              intro hc
              refine hprev_notin ?_
              rw [hc]
              exact List.mem_cons_self next (a :: rest2)
            have hsfx_nodup := hdisj.2.1
            have hnext_notin : next ∉ (a :: rest2 : List Nat) :=
              (List.nodup_cons.mp hsfx_nodup).1
            -- the spliced state b2
            have hpn_ht := (hinv.node_ht prev pn hgprev).1
            have hpn_len := hinv.node_len prev pn hgprev
            have hnt_len := hinv.node_len next nt hgN
            have hpn_htZ : (0 : Int) < (pn.height : Int) := by exact_mod_cast hpn_ht
            have hnt_htZ : (0 : Int) < (nt.height : Int) := by exact_mod_cast hnt_ht
            have hb1 : b.connectIgnore prev 0 (some a) =
                b.setN prev { pn with nextNodes := pn.nextNodes.set 0 (some a) } :=
              connectIgnore_in_range hgprev (by omega) hpn_htZ (some a)
            have hgN1 : (b.setN prev { pn with
                nextNodes := pn.nextNodes.set 0 (some a) }).getN next = some nt := by
              rw [getN_setN_ne _ hprev_ne_next]
              exact hgN
            have hb2 : (b.setN prev { pn with
                nextNodes := pn.nextNodes.set 0 (some a) }).disconnectIgnore next 0 =
                (b.setN prev { pn with nextNodes := pn.nextNodes.set 0 (some a) }).setN
                  next { nt with nextNodes := nt.nextNodes.set 0 none } :=
              disconnectIgnore_in_range hgN1 (by omega) hnt_htZ
            rw [hb1, hb2] at hrun
            set pn2 : Node := { pn with nextNodes := pn.nextNodes.set 0 (some a) }
              with hpn2def
            set nt2 : Node := { nt with nextNodes := nt.nextNodes.set 0 none }
              with hnt2def
            set b2 : BowlT := (b.setN prev pn2).setN next nt2 with hb2def
            -- reads in b2
            have hg2prev : b2.getN prev = some pn2 := by
              rw [hb2def, getN_setN_ne _ (Ne.symm hprev_ne_next)]
              exact getN_setN_self pn2 (getN_some_lt hgprev)
            have hg2next : b2.getN next = some nt2 := by
              rw [hb2def]
              refine getN_setN_self nt2 ?_
              rw [setN_length]
              exact getN_some_lt hgN
            have hg2other : ∀ j, j ≠ prev → j ≠ next → b2.getN j = b.getN j := by
              intro j h1 h2
              rw [hb2def, getN_setN_ne _ (Ne.symm h2), getN_setN_ne _ (Ne.symm h1)]
            have hlen2 : b2.nodes.length = b.nodes.length := by
              rw [hb2def, setN_length, setN_length]
            have hch2 : b2.ch = b.ch := rfl
            -- shape preservation both ways
            have hpres : storePres b b2 := by
              intro j n hg
              by_cases hjp : j = prev
              · subst hjp
                rw [hgprev] at hg
                cases hg
                exact ⟨pn2, hg2prev, rfl, rfl, rfl, by
                  rw [hpn2def]; simp [List.length_set]⟩
              · by_cases hjn : j = next
                · subst hjn
                  rw [hgN] at hg
                  cases hg
                  exact ⟨nt2, hg2next, rfl, rfl, rfl, by
                    rw [hnt2def]; simp [List.length_set]⟩
                · exact ⟨n, by rw [hg2other j hjp hjn]; exact hg,
                    rfl, rfl, rfl, rfl⟩
            have hback : ∀ j n2, b2.getN j = some n2 →
                ∃ n1, b.getN j = some n1 ∧ n2.data = n1.data ∧
                  n2.marked = n1.marked ∧ n2.height = n1.height ∧
                  n2.nextNodes.length = n1.nextNodes.length := by
              intro j n2 hg
              by_cases hjp : j = prev
              · subst hjp
                rw [hg2prev] at hg
                cases hg
                exact ⟨pn, hgprev, rfl, rfl, rfl, by
                  rw [hpn2def]; simp [List.length_set]⟩
              · by_cases hjn : j = next
                · subst hjn
                  rw [hg2next] at hg
                  cases hg
                  exact ⟨nt, hgN, rfl, rfl, rfl, by
                    rw [hnt2def]; simp [List.length_set]⟩
                · exact ⟨n2, by rw [← hg2other j hjp hjn]; exact hg,
                    rfl, rfl, rfl, rfl⟩
            -- the new head and the context chain in b2
            have hnext0pn2 : next0 pn2 = some a := by
              rw [hpn2def]
              unfold next0
              exact getD_set_self (by omega)
            obtain ⟨hd2, hg2hd, hshape_hd2, hroot2⟩ :
                ∃ hd2, b2.getN 0 = some hd2 ∧ nodeShapeEq hd hd2 ∧
                  ChainSeg b2.nodes (next0 hd2) ctx (some a) := by
              rcases hroot with ⟨hp0, hctxnil⟩ | ⟨ctx0, hctx0⟩
              · subst hp0
                subst hctxnil
                have hpnhd : pn = hd := by
                  have := hinv.hhd
                  rw [hgprev] at this
                  exact (Option.some.injEq _ _).mp this
                refine ⟨pn2, hg2prev, ?_, ?_⟩
                · subst hpnhd
                  exact ⟨rfl, rfl, rfl, by rw [hpn2def]; simp [List.length_set]⟩
                · rw [hnext0pn2]
                  exact ChainSeg.nil (some a)
              · subst hctx0
                have h0p : (0 : Nat) ≠ prev := by
                  intro hc
                  apply h0nm
                  rw [hc]
                  exact List.mem_append.mpr (Or.inl (List.mem_append.mpr
                    (Or.inr (List.mem_singleton.mpr rfl))))
                refine ⟨hd, ?_, nodeShapeEq_refl hd, ?_⟩
                · rw [hg2other 0 h0p (Ne.symm hnext0)]
                  exact hinv.hhd
                · rcases chainSeg_append_iff.mp hctx with ⟨m, hc0, hc1⟩
                  rcases chainSeg_cons_inv hc1 with ⟨hm_eq, pn', hgp', htl'⟩
                  subst hm_eq
                  have hpn'pn : pn' = pn := by
                    have hgp'' : b.getN prev = some pn' := hgp'
                    rw [hgprev] at hgp''
                    exact ((Option.some.injEq _ _).mp hgp'').symm
                  subst hpn'pn
                  have hprev_notin0 : prev ∉ ctx0 := by
                    have := hdisj.1
                    rcases List.nodup_append.mp this with ⟨_, _, hdj⟩
                    intro hmem
                    exact hdj hmem (List.mem_singleton.mpr rfl)
                  have hc0' : ChainSeg b2.nodes (next0 hd) ctx0 (some prev) := by
                    refine chainSeg_congr hc0 ?_
                    intro j hj n hgj
                    refine ⟨n, ?_, rfl⟩
                    have hjp : j ≠ prev := fun hc => hprev_notin0 (hc ▸ hj)
                    have hjn : j ≠ next := by
                      intro hc
                      refine hdisj.2.2 (List.mem_append.mpr (Or.inl hj)) ?_
                      rw [hc]
                      exact List.mem_cons_self next (a :: rest2)
                    have := hg2other j hjp hjn
                    rw [BowlT.getN, BowlT.getN] at this
                    rw [this]
                    exact hgj
                  refine chainSeg_append_iff.mpr ⟨some prev, hc0', ?_⟩
                  refine ChainSeg.cons hg2prev ?_
                  rw [hnext0pn2]
                  exact ChainSeg.nil (some a)
            -- the suffix chain in b2
            have hsfx2 : ChainSeg b2.nodes (some a) (a :: rest2) none := by
              refine chainSeg_congr (ChainSeg.cons hgeta htail2) ?_
              intro j hj n hgj
              refine ⟨n, ?_, rfl⟩
              have hjp : j ≠ prev := by
                intro hc
                exact hprev_notin (hc ▸ List.mem_cons_of_mem next hj)
              have hjn : j ≠ next := fun hc => hnext_notin (hc ▸ hj)
              have := hg2other j hjp hjn
              rw [BowlT.getN, BowlT.getN] at this
              rw [this]
              exact hgj
            -- memberships
            have hmem_ids2 : ∀ j, j ∈ ctx ++ a :: rest2 →
                j ∈ ctx ++ next :: a :: rest2 := by
              intro j hj
              rcases List.mem_append.mp hj with h1 | h1
              · exact List.mem_append.mpr (Or.inl h1)
              · exact List.mem_append.mpr (Or.inr (List.mem_cons_of_mem next h1))
            have hmemget2 : ∀ j, j ∈ ctx ++ a :: rest2 → ∃ n, b.getN j = some n := by
              intro j hj
              exact chainSeg_mem_get hinv.chain j (hmem_ids2 j hj)
            -- the invariant for b2
            have hinv2 : InvAt b2 hd2 (ctx ++ a :: rest2) := by
              refine ⟨hg2hd, ?_, ?_, ?_, ?_, ?_, ?_, ?_, ?_, ?_, ?_, ?_, ?_, ?_⟩
              · rw [hshape_hd2.2.2.1]
                exact hinv.hd_height
              · rw [hshape_hd2.1]
                exact hinv.hd_data
              · rw [hshape_hd2.2.1]
                exact hinv.hd_marked
              · exact chainSeg_append_iff.mpr ⟨some a, hroot2, hsfx2⟩
              · intro j n hg
                obtain ⟨n1, hg1, e1, e2, e3, e4⟩ := hback j n hg
                rw [e3, e4]
                exact hinv.node_len j n1 hg1
              · intro j n hg
                obtain ⟨n1, hg1, e1, e2, e3, e4⟩ := hback j n hg
                rw [e3]
                exact hinv.node_ht j n1 hg1
              · intro j n hg
                obtain ⟨n1, hg1, e1, e2, e3, e4⟩ := hback j n hg
                rw [e1]
                exact hinv.node_sorted j n1 hg1
              · intro j n hg hmk
                obtain ⟨n1, hg1, e1, e2, e3, e4⟩ := hback j n hg
                rw [e2] at hmk
                rcases hinv.active_in_chain j n1 hg1 hmk with h0 | hmem
                · exact Or.inl h0
                · right
                  rcases List.mem_append.mp hmem with h1 | h1
                  · exact List.mem_append.mpr (Or.inl h1)
                  · rcases List.mem_cons.mp h1 with rfl | h2
                    · exfalso
                      rw [hgN] at hg1
                      cases hg1
                      have : nt.MarkedRemoval = true := hm
                      rw [Node.MarkedRemoval] at this
                      rw [this] at hmk
                      exact Bool.noConfusion hmk
                    · exact List.mem_append.mpr (Or.inr h2)
              · intro j n lvl hg
                by_cases hjp : j = prev
                · subst hjp
                  rw [hg2prev] at hg
                  cases hg
                  rw [hpn2def]
                  by_cases hl : lvl = 0
                  · subst hl
                    rw [getD_set_self (by omega)]
                    intro hc
                    exact ha0 ((Option.some.injEq _ _).mp hc)
                  · rw [getD_set_ne (fun hc => hl hc.symm)]
                    exact hinv.no_ptr_zero _ pn lvl hgprev
                · by_cases hjn : j = next
                  · subst hjn
                    rw [hg2next] at hg
                    cases hg
                    rw [hnt2def]
                    by_cases hl : lvl = 0
                    · subst hl
                      rw [getD_set_self (by omega)]
                      exact Option.noConfusion
                    · rw [getD_set_ne (fun hc => hl hc.symm)]
                      exact hinv.no_ptr_zero _ nt lvl hgN
                  · rw [hg2other j hjp hjn] at hg
                    exact hinv.no_ptr_zero j n lvl hg
              · intro j hj n hg hmk
                obtain ⟨n1, hg1, e1, e2, e3, e4⟩ := hback j n hg
                rw [e2] at hmk
                rw [e1]
                exact hinv.marked_tail_empty j (mem_drop_one_append_cons hj) n1 hg1 hmk
              · intro j hj n hg hmk hdat
                obtain ⟨n1, hg1, e1, e2, e3, e4⟩ := hback j n hg
                rw [e2] at hmk
                rw [e1] at hdat
                have hsole := hinv.empty_active_sole j (hmem_ids2 j hj) n1 hg1 hmk hdat
                exfalso
                have : next ∈ ctx ++ next :: a :: rest2 := hnext_mem
                rw [hsole] at this
                have hjn : next = j := List.mem_singleton.mp this
                rw [hjn] at hgN
                rw [hgN] at hg1
                cases hg1
                have hmm : nt.MarkedRemoval = true := hm
                rw [Node.MarkedRemoval] at hmm
                rw [hmm] at hmk
                exact Bool.noConfusion hmk
              · intro h hh
                exact hinv.ch_ok h hh
              · have heqc : chainItems b2.nodes (ctx ++ a :: rest2) =
                    chainItems b.nodes (ctx ++ a :: rest2) :=
                  storePres_chainItems hpres hmemget2
                rw [heqc]
                refine sortedItems_sublist ?_ hinv.items_sorted
                rw [chainItems_append, chainItems_append]
                have : chainItems b.nodes (next :: a :: rest2) =
                    dataAt b.nodes next ++ chainItems b.nodes (a :: rest2) := rfl
                rw [this]
                exact sublist_append_middle _ _ _
            -- recurse
            obtain ⟨hd3, sfx3, hinv3, hshape3, hpres3, hlen3, hch3, hctx3, hsfx3,
              hsuffix3, htrue3, hfalse3⟩ :=
              ih b2 hd2 (a :: rest2) a res hinv2 hroot2 hsfx2 hrun
            have heqc2 : chainItems b2.nodes (a :: rest2) =
                chainItems b.nodes (a :: rest2) := by
              refine storePres_chainItems hpres ?_
              intro j hj
              exact hmemget2 j (List.mem_append.mpr (Or.inr hj))
            refine ⟨hd3, sfx3, hinv3, nodeShapeEq_trans hshape_hd2 hshape3,
              storePres_trans hpres hpres3, by rw [hlen3, hlen2],
              by rw [hch3, hch2], hctx3, hsfx3, ?_, htrue3, hfalse3⟩
            refine List.IsSuffix.trans ?_ (⟨dataAt b.nodes next, rfl⟩ :
              (chainItems b.nodes (a :: rest2)).IsSuffix
                (chainItems b.nodes (next :: a :: rest2)))
            rw [← heqc2]
            exact hsuffix3
      · -- not marked: stop here
        rw [if_neg hm] at hrun
        cases hrun
        refine ⟨hd, next :: rest, hinv, nodeShapeEq_refl hd, storePres_refl b,
          rfl, rfl, hctx, ChainSeg.cons hgetnext htailsfx, List.suffix_refl _,
          ?_, ?_⟩
        · intro _
          refine ⟨nt, rest, hgN, ?_, rfl⟩
          simpa [Node.MarkedRemoval] using hm
        · intro hfalse
          exact absurd hfalse (by simp)

theorem getNextNodeAt_some {n : Node} {h : Int} {a : Nat}
    (hg : (n.GetNextNodeAt h).1 = some a) :
    n.nextNodes.getD h.toNat none = some a ∧ 0 ≤ h ∧ h < (n.height : Int) := by
  unfold Node.GetNextNodeAt at hg
  by_cases hc : h < 0 ∨ (n.height : Int) ≤ h
  · rw [if_pos hc] at hg
    exact Option.noConfusion hg
  · rw [if_neg hc] at hg
    push_neg at hc
    exact ⟨hg, hc.1, hc.2⟩

theorem storePres_back {b b2 : BowlT} (hp : storePres b b2)
    (hlen : b2.nodes.length = b.nodes.length) :
    ∀ j n2, b2.getN j = some n2 → ∃ n1, b.getN j = some n1 ∧
      n2.data = n1.data ∧ n2.marked = n1.marked ∧ n2.height = n1.height ∧
      n2.nextNodes.length = n1.nextNodes.length := by
  intro j n2 hg2
  cases hg1 : b.getN j with
  | none =>
    exfalso
    have hj : j < b.nodes.length := by
      rw [← hlen]
      exact getN_some_lt hg2
    have hne : b.getN j ≠ none := by
      rw [BowlT.getN, List.get?_eq_getElem?, List.getElem?_eq_getElem hj]
      exact fun hc => Option.noConfusion hc
    exact hne hg1
  | some n1 =>
    rcases hp j n1 hg1 with ⟨n2', hg2', e1, e2, e3, e4⟩
    have hn : n2' = n2 := by
      rw [hg2'] at hg2
      exact (Option.some.injEq _ _).mp hg2
    subst hn
    exact ⟨n1, rfl, e1, e2, e3, e4⟩

theorem connectIgnore_storePres (b : BowlT) (id : Nat) (h : Int) (nx : Option Nat) :
    storePres b (b.connectIgnore id h nx) := by
  intro j n hg
  by_cases hj : j = id
  · subst hj
    obtain ⟨m, hgm, e1, e2, e3, e4, _⟩ := connectIgnore_self hg h nx
    exact ⟨m, hgm, e1, e2, e3, e4⟩
  · exact ⟨n, by rw [connectIgnore_ne h nx hj]; exact hg, rfl, rfl, rfl, rfl⟩

theorem disconnectIgnore_storePres (b : BowlT) (id : Nat) (h : Int) :
    storePres b (b.disconnectIgnore id h) := by
  intro j n hg
  by_cases hj : j = id
  · subst hj
    obtain ⟨m, hgm, e1, e2, e3, e4, _⟩ := disconnectIgnore_self hg h
    exact ⟨m, hgm, e1, e2, e3, e4⟩
  · exact ⟨n, by rw [disconnectIgnore_ne h hj]; exact hg, rfl, rfl, rfl, rfl⟩

theorem connectIgnore_next0 {b : BowlT} {id : Nat} {h : Int} (hh : 1 ≤ h)
    (nx : Option Nat) : ∀ j n n', b.getN j = some n →
    (b.connectIgnore id h nx).getN j = some n' → next0 n' = next0 n := by
  intro j n n' hg hg'
  by_cases hj : j = id
  · subst hj
    obtain ⟨m, hgm, _, _, _, _, hdis⟩ := connectIgnore_self hg h nx
    rw [hgm] at hg'
    cases hg'
    rcases hdis with ⟨_, _, hset⟩ | hmn
    · unfold next0
      rw [hset]
      exact getD_set_ne (by omega)
    · rw [hmn]
  · rw [connectIgnore_ne h nx hj] at hg'
    rw [hg] at hg'
    cases hg'
    rfl

theorem disconnectIgnore_next0 {b : BowlT} {id : Nat} {h : Int} (hh : 1 ≤ h) :
    ∀ j n n', b.getN j = some n →
    (b.disconnectIgnore id h).getN j = some n' → next0 n' = next0 n := by
  intro j n n' hg hg'
  by_cases hj : j = id
  · subst hj
    obtain ⟨m, hgm, _, _, _, _, hdis⟩ := disconnectIgnore_self hg h
    rw [hgm] at hg'
    cases hg'
    rcases hdis with ⟨_, _, hset⟩ | hmn
    · unfold next0
      rw [hset]
      exact getD_set_ne (by omega)
    · rw [hmn]
  · rw [disconnectIgnore_ne h hj] at hg'
    rw [hg] at hg'
    cases hg'
    rfl

theorem connectIgnore_pz {b : BowlT} {id : Nat} {h : Int} {nx : Option Nat}
    (hnx : ∀ t, nx = some t → t ≠ 0)
    (hpz : ∀ j n (lvl : Nat), b.getN j = some n →
      n.nextNodes.getD lvl none ≠ some 0) :
    ∀ j n (lvl : Nat), (b.connectIgnore id h nx).getN j = some n →
      n.nextNodes.getD lvl none ≠ some 0 := by
  intro j n lvl hg
  by_cases hj : j = id
  · subst hj
    cases hg0 : b.getN j with
    | none =>
      rw [BowlT.connectIgnore, hg0] at hg
      exact hpz j n lvl hg
    | some n0 =>
      obtain ⟨m, hgm, _, _, _, _, hdis⟩ := connectIgnore_self hg0 h nx
      rw [hgm] at hg
      cases hg
      rcases hdis with ⟨_, _, hset⟩ | hmn
      · rw [hset]
        by_cases hl : lvl = h.toNat
        · subst hl
          by_cases hlt : h.toNat < n0.nextNodes.length
          · rw [getD_set_self hlt]
            intro hc
            rcases nx with _ | t
            · exact Option.noConfusion hc
            · exact hnx t rfl ((Option.some.injEq _ _).mp hc)
          · rw [List.set_eq_of_length_le (by omega)]
            exact hpz j n0 h.toNat hg0
        · rw [getD_set_ne (fun hc => hl hc.symm)]
          exact hpz j n0 lvl hg0
      · rw [hmn]
        exact hpz j n0 lvl hg0
  · rw [connectIgnore_ne h nx hj] at hg
    exact hpz j n lvl hg

theorem disconnectIgnore_pz {b : BowlT} {id : Nat} {h : Int}
    (hpz : ∀ j n (lvl : Nat), b.getN j = some n →
      n.nextNodes.getD lvl none ≠ some 0) :
    ∀ j n (lvl : Nat), (b.disconnectIgnore id h).getN j = some n →
      n.nextNodes.getD lvl none ≠ some 0 := by
  intro j n lvl hg
  by_cases hj : j = id
  · subst hj
    cases hg0 : b.getN j with
    | none =>
      rw [BowlT.disconnectIgnore, hg0] at hg
      exact hpz j n lvl hg
    | some n0 =>
      obtain ⟨m, hgm, _, _, _, _, hdis⟩ := disconnectIgnore_self hg0 h
      rw [hgm] at hg
      cases hg
      rcases hdis with ⟨_, _, hset⟩ | hmn
      · rw [hset]
        by_cases hl : lvl = h.toNat
        · subst hl
          by_cases hlt : h.toNat < n0.nextNodes.length
          · rw [getD_set_self hlt]
            exact fun hc => Option.noConfusion hc
          · rw [List.set_eq_of_length_le (by omega)]
            exact hpz j n0 h.toNat hg0
        · rw [getD_set_ne (fun hc => hl hc.symm)]
          exact hpz j n0 lvl hg0
      · rw [hmn]
        exact hpz j n0 lvl hg0
  · rw [disconnectIgnore_ne h hj] at hg
    exact hpz j n lvl hg

/-- Transport of the structural invariant across a state change that
preserves every node's shape and level-0 pointer and introduces no pointer
to the head. -/
theorem invAt_transport {b b2 : BowlT} {hd : Node} {ids : List Nat}
    (hinv : InvAt b hd ids)
    (hpres : storePres b b2)
    (hlen : b2.nodes.length = b.nodes.length)
    (hch : b2.ch = b.ch)
    (hnext0 : ∀ j n n', b.getN j = some n → b2.getN j = some n' →
      next0 n' = next0 n)
    (hpz : ∀ j n (lvl : Nat), b2.getN j = some n →
      n.nextNodes.getD lvl none ≠ some 0) :
    ∃ hd', InvAt b2 hd' ids ∧ nodeShapeEq hd hd' ∧ next0 hd' = next0 hd ∧
      chainItems b2.nodes ids = chainItems b.nodes ids := by
  obtain ⟨hd', hghd', e1, e2, e3, e4⟩ := hpres 0 hd hinv.hhd
  have hhd0 : next0 hd' = next0 hd := hnext0 0 hd hd' hinv.hhd hghd'
  have hback := storePres_back hpres hlen
  have hitems : chainItems b2.nodes ids = chainItems b.nodes ids :=
    storePres_chainItems hpres (fun j hj => chainSeg_mem_get hinv.chain j hj)
  refine ⟨hd', ⟨hghd', by rw [e3]; exact hinv.hd_height,
    by rw [e1]; exact hinv.hd_data, by rw [e2]; exact hinv.hd_marked,
    ?_, ?_, ?_, ?_, ?_, hpz, ?_, ?_, by rw [hch]; exact hinv.ch_ok,
    by rw [hitems]; exact hinv.items_sorted⟩, ⟨e1, e2, e3, e4⟩, hhd0, hitems⟩
  · rw [hhd0]
    refine chainSeg_congr hinv.chain ?_
    intro j hj n hgj
    obtain ⟨n', hgj', f1, f2, f3, f4⟩ := hpres j n hgj
    exact ⟨n', hgj', hnext0 j n n' hgj hgj'⟩
  · intro j n hg
    obtain ⟨n1, hg1, f1, f2, f3, f4⟩ := hback j n hg
    rw [f3, f4]
    exact hinv.node_len j n1 hg1
  · intro j n hg
    obtain ⟨n1, hg1, f1, f2, f3, f4⟩ := hback j n hg
    rw [f3]
    exact hinv.node_ht j n1 hg1
  · intro j n hg
    obtain ⟨n1, hg1, f1, f2, f3, f4⟩ := hback j n hg
    rw [f1]
    exact hinv.node_sorted j n1 hg1
  · intro j n hg hmk
    obtain ⟨n1, hg1, f1, f2, f3, f4⟩ := hback j n hg
    rw [f2] at hmk
    exact hinv.active_in_chain j n1 hg1 hmk
  · intro j hj n hg hmk
    obtain ⟨n1, hg1, f1, f2, f3, f4⟩ := hback j n hg
    rw [f2] at hmk
    rw [f1]
    exact hinv.marked_tail_empty j hj n1 hg1 hmk
  · intro j hj n hg hmk hdat
    obtain ⟨n1, hg1, f1, f2, f3, f4⟩ := hback j n hg
    rw [f2] at hmk
    rw [f1] at hdat
    exact hinv.empty_active_sole j hj n1 hg1 hmk hdat

/-- The marked-removal walk at a level `h ≥ 1` never touches the level-0
chain: it preserves the invariant over the same ids and stops at a
non-head node, non-marked when `ok`. -/
theorem chaseH_spec {h : Int} (hh : 1 ≤ h) (prev : Nat) :
    ∀ (fuel : Nat) (b : BowlT) (hd : Node) (ids : List Nat) (next : Nat)
      (res : BowlT × Bool × Nat),
    InvAt b hd ids →
    next ≠ 0 →
    getNextNodeAtHeightNotMarkedRemoval h prev fuel b next = some res →
    ∃ hd', InvAt res.1 hd' ids ∧
      nodeShapeEq hd hd' ∧
      storePres b res.1 ∧
      res.1.nodes.length = b.nodes.length ∧
      res.1.ch = b.ch ∧
      chainItems res.1.nodes ids = chainItems b.nodes ids ∧
      res.2.2 ≠ 0 ∧
      (res.2.1 = true → ∃ nn, res.1.getN res.2.2 = some nn ∧
        nn.marked = false) := by
  intro fuel
  induction fuel with
  | zero =>
    intro b hd ids next res _ _ hrun
    exact Option.noConfusion hrun
  | succ f ih =>
    intro b hd ids next res hinv hnext0 hrun
    rw [getNextNodeAtHeightNotMarkedRemoval] at hrun
    cases hgN : b.getN next with
    | none =>
      rw [hgN] at hrun
      exact Option.noConfusion hrun
    | some nt =>
      rw [hgN] at hrun
      dsimp only at hrun
      by_cases hm : nt.MarkedRemoval
      · rw [if_pos hm] at hrun
        cases hnx : (nt.GetNextNodeAt h).1 with
        | none =>
          rw [hnx] at hrun
          cases hrun
          exact ⟨hd, hinv, nodeShapeEq_refl hd, storePres_refl b, rfl, rfl,
            rfl, hnext0, fun htrue => absurd htrue (by simp)⟩
        | some a =>
          rw [hnx] at hrun
          dsimp only at hrun
          obtain ⟨hgeta, _, _⟩ := getNextNodeAt_some hnx
          have ha0 : a ≠ 0 := by
            intro hc
            subst hc
            exact hinv.no_ptr_zero next nt h.toNat hgN hgeta
          -- the one-step spliced state
          have hpres1 := connectIgnore_storePres b prev h (some a)
          have hpres2 := disconnectIgnore_storePres
            (b.connectIgnore prev h (some a)) next h
          have hpres12 := storePres_trans hpres1 hpres2
          have hlen12 : ((b.connectIgnore prev h (some a)).disconnectIgnore
              next h).nodes.length = b.nodes.length := by
            rw [disconnectIgnore_length, connectIgnore_length]
          have hch12 : ((b.connectIgnore prev h (some a)).disconnectIgnore
              next h).ch = b.ch := by
            rw [disconnectIgnore_ch, connectIgnore_ch]
          have hnext0_12 : ∀ j n n', b.getN j = some n →
              ((b.connectIgnore prev h (some a)).disconnectIgnore next h).getN j
                = some n' → next0 n' = next0 n := by
            intro j n n' hg hg'
            obtain ⟨n1, hg1, _, _, _, _⟩ := hpres1 j n hg
            have e1 := connectIgnore_next0 hh (some a) j n n1 hg hg1
            have e2 := disconnectIgnore_next0 hh j n1 n' hg1 hg'
            rw [e2, e1]
          have hpz12 : ∀ j n (lvl : Nat),
              ((b.connectIgnore prev h (some a)).disconnectIgnore next h).getN j
                = some n → n.nextNodes.getD lvl none ≠ some 0 := by
            refine disconnectIgnore_pz ?_
            refine connectIgnore_pz ?_ ?_
            · intro t ht
              cases ht
              exact ha0
            · intro j n lvl hg
              exact hinv.no_ptr_zero j n lvl hg
          obtain ⟨hd2, hinv2, hshape2, hn02, hitems2⟩ :=
            invAt_transport hinv hpres12 hlen12 hch12 hnext0_12 hpz12
          obtain ⟨hd3, hinv3, hshape3, hpres3, hlen3, hch3, hitems3, hres0, htrue3⟩ :=
            ih _ hd2 ids a res hinv2 ha0 hrun
          exact ⟨hd3, hinv3, nodeShapeEq_trans hshape2 hshape3,
            storePres_trans hpres12 hpres3, by rw [hlen3, hlen12],
            by rw [hch3, hch12], by rw [hitems3, hitems2], hres0, htrue3⟩
      · rw [if_neg hm] at hrun
        cases hrun
        refine ⟨hd, hinv, nodeShapeEq_refl hd, storePres_refl b, rfl, rfl,
          rfl, hnext0, ?_⟩
        intro _
        refine ⟨nt, hgN, ?_⟩
        simpa [Node.MarkedRemoval] using hm

theorem checkMin_err_iff (n : Node) (key : Int) :
    (n.CheckKeyStrictlyLessThanMin key).2.isSome = true ↔ n.data = [] := by
  unfold Node.CheckKeyStrictlyLessThanMin
  by_cases h : n.data.length = 0
  · rw [if_pos h]
    simp [List.eq_nil_of_length_eq_zero h]
  · rw [if_neg h]
    simp
    intro hc
    rw [hc] at h
    exact h rfl

theorem checkMin_true {n : Node} {key : Int}
    (h : (n.CheckKeyStrictlyLessThanMin key).1 = true) :
    n.data.length ≠ 0 ∧ key < (n.data.getD 0 dfltItem).key := by
  unfold Node.CheckKeyStrictlyLessThanMin at h
  by_cases hl : n.data.length = 0
  · rw [if_pos hl] at h
    exact Bool.noConfusion h
  · rw [if_neg hl] at h
    refine ⟨hl, ?_⟩
    have := of_decide_eq_true h
    exact cmpInt_eq_negOne.mp this

theorem checkMin_false {n : Node} {key : Int} (hl : n.data.length ≠ 0)
    (h : (n.CheckKeyStrictlyLessThanMin key).1 = false) :
    (n.data.getD 0 dfltItem).key ≤ key := by
  unfold Node.CheckKeyStrictlyLessThanMin at h
  rw [if_neg hl] at h
  have := of_decide_eq_false h
  rw [cmpInt_eq_negOne] at this
  omega

theorem checkMax_true {n : Node} {key : Int}
    (h : (n.CheckKeyStrictlyLessThanMax key).1 = true) :
    n.data.length ≠ 0 ∧ key < (n.data.getD (n.data.length - 1) dfltItem).key := by
  unfold Node.CheckKeyStrictlyLessThanMax at h
  by_cases hl : n.data.length = 0
  · rw [if_pos hl] at h
    exact Bool.noConfusion h
  · rw [if_neg hl] at h
    exact ⟨hl, cmpInt_eq_negOne.mp (of_decide_eq_true h)⟩

theorem checkMax_false {n : Node} {key : Int} (hl : n.data.length ≠ 0)
    (h : (n.CheckKeyStrictlyLessThanMax key).1 = false) :
    (n.data.getD (n.data.length - 1) dfltItem).key ≤ key := by
  unfold Node.CheckKeyStrictlyLessThanMax at h
  rw [if_neg hl] at h
  have := of_decide_eq_false h
  rw [cmpInt_eq_negOne] at this
  omega

theorem invAt_of_nodes_ch_eq {b b2 : BowlT} {hd : Node} {ids : List Nat}
    (hn : b2.nodes = b.nodes) (hc : b2.ch = b.ch) (hinv : InvAt b hd ids) :
    InvAt b2 hd ids := by
  have hg : ∀ j, b2.getN j = b.getN j := by
    intro j
    rw [BowlT.getN, BowlT.getN, hn]
  refine ⟨?_, hinv.hd_height, hinv.hd_data, hinv.hd_marked, ?_, ?_, ?_, ?_, ?_,
    ?_, ?_, ?_, ?_, ?_⟩
  · rw [hg]
    exact hinv.hhd
  · rw [hn]
    exact hinv.chain
  · intro j n h
    rw [hg] at h
    exact hinv.node_len j n h
  · intro j n h
    rw [hg] at h
    exact hinv.node_ht j n h
  · intro j n h
    rw [hg] at h
    exact hinv.node_sorted j n h
  · intro j n h
    rw [hg] at h
    exact hinv.active_in_chain j n h
  · intro j n lvl h
    rw [hg] at h
    exact hinv.no_ptr_zero j n lvl h
  · intro j hj n h
    rw [hg] at h
    exact hinv.marked_tail_empty j hj n h
  · intro j hj n h
    rw [hg] at h
    exact hinv.empty_active_sole j hj n h
  · rw [hc]
    exact hinv.ch_ok
  · rw [hn]
    exact hinv.items_sorted

theorem invAt_setLatest {b : BowlT} {hd : Node} {ids : List Nat} (nid : Nat)
    (hinv : InvAt b hd ids) : InvAt (setLatestPointingNodes b nid) hd ids :=
  invAt_of_nodes_ch_eq (setLatest_nodes b nid) (setLatest_ch b nid) hinv

/-- The level loop of `getNextNodeFromHead`: the invariant survives over
the same chain, and a returned start node is the sole chain node. -/
theorem gnnfhLoop_spec (key : Int) (fuel : Nat) :
    ∀ (lvl : Nat) (b : BowlT) (hd : Node) (ids : List Nat) (res : BowlT × Option Nat),
    InvAt b hd ids →
    gnnfhLoop key fuel b lvl = some res →
    ∃ hd', InvAt res.1 hd' ids ∧
      ∀ nx, res.2 = some nx → ids = [nx] := by
  intro lvl
  induction lvl with
  | zero =>
    intro b hd ids res hinv hrun
    rw [gnnfhLoop] at hrun
    cases hrun
    exact ⟨hd, hinv, fun nx h => Option.noConfusion h⟩
  | succ lvl ih =>
    intro b hd ids res hinv hrun
    rw [gnnfhLoop, hinv.hhd] at hrun
    dsimp only at hrun
    cases hnx : (hd.GetNextNodeAt ((lvl + 1 : Nat) : Int)).1 with
    | none =>
      rw [hnx] at hrun
      exact ih b hd ids res hinv hrun
    | some nx =>
      rw [hnx] at hrun
      dsimp only at hrun
      obtain ⟨hgd, _, _⟩ := getNextNodeAt_some hnx
      have hnx0 : nx ≠ 0 := by
        intro hc
        subst hc
        exact hinv.no_ptr_zero 0 hd _ hinv.hhd hgd
      cases hchase : getNextNodeAtHeightNotMarkedRemoval ((lvl + 1 : Nat) : Int)
          0 fuel b nx with
      | none =>
        rw [hchase] at hrun
        exact Option.noConfusion hrun
      | some trip =>
        rw [hchase] at hrun
        obtain ⟨b2, ok, nx2⟩ := trip
        dsimp only at hrun
        have hcast : (1 : Int) ≤ ((lvl + 1 : Nat) : Int) := by
          exact_mod_cast Nat.le_add_left 1 lvl
        obtain ⟨hd2, hinv2, hshape2, hpres2, hlen2, hch2, hitems2, hnx20, htrue2⟩ :=
          chaseH_spec hcast 0 fuel b hd ids nx (b2, ok, nx2) hinv hnx0 hchase
        by_cases hok : ok
        · rw [hok] at hrun
          simp only [Bool.not_true, Bool.false_eq_true, if_false] at hrun
          cases hgnn : b2.getN nx2 with
          | none =>
            rw [hgnn] at hrun
            exact Option.noConfusion hrun
          | some nn =>
            rw [hgnn] at hrun
            dsimp only at hrun
            by_cases hcond : ((nn.CheckKeyStrictlyLessThanMin key).2.isSome ∧
                (nn.CheckKeyStrictlyLessThanMin key).1 = false)
            · rw [if_pos hcond] at hrun
              cases hrun
              refine ⟨hd2, invAt_setLatest nx2 hinv2, ?_⟩
              intro nx3 hx
              have hx2 : nx2 = nx3 := (Option.some.injEq _ _).mp hx
              subst hx2
              obtain ⟨nn', hgnn', hmk'⟩ := htrue2 hok
              have hnn : nn' = nn := by
                rw [hgnn] at hgnn'
                exact ((Option.some.injEq _ _).mp hgnn').symm
              rw [hnn] at hmk'
              have hdat : nn.data = [] := (checkMin_err_iff nn key).mp hcond.1
              rcases hinv2.active_in_chain nx2 nn hgnn hmk' with h0 | hmem
              · exact absurd h0 hnx20
              · exact hinv2.empty_active_sole nx2 hmem nn hgnn hmk' hdat
            · rw [if_neg hcond] at hrun
              obtain ⟨hd3, hinv3, hlast⟩ := ih b2 hd2 ids res hinv2 hrun
              exact ⟨hd3, hinv3, hlast⟩
        · have hok' : ok = false := Bool.eq_false_iff.mpr hok
          rw [hok'] at hrun
          simp only [Bool.not_false, if_true] at hrun
          exact ih b2 hd2 ids res hinv2 hrun

theorem get?_append_singleton_ne {α : Type} (l : List α) (x : α) (j : Nat)
    (hne : j ≠ l.length) : (l ++ [x]).get? j = l.get? j := by
  rcases Nat.lt_or_ge j l.length with hj | hj
  · exact List.get?_append hj
  · rw [List.get?_eq_none.mpr (by simp; omega), List.get?_eq_none.mpr hj]

theorem getD_replicate_none (h i : Nat) :
    (List.replicate h (none : Option Nat)).getD i none = none := by
  rcases Nat.lt_or_ge i h with hi | hi
  · rw [List.getD_eq_getElem _ _ (by simpa using hi)]
    simp
  · rw [List.getD_eq_default _ _ (by simpa using hi)]

theorem sortedItems_nil : sortedItems [] := List.chain'_nil

/-- `getNextNodeFromHead` preserves the invariant and returns the first
node of the (possibly just-created) chain. -/
theorem gnnfh_spec (key : Int) (fuel : Nat) (b : BowlT) (hd : Node)
    (ids : List Nat) (res : BowlT × Nat) (hinv : InvAt b hd ids)
    (hrun : getNextNodeFromHead b key fuel = some res) :
    ∃ hd' post, InvAt res.1 hd' (res.2 :: post) := by
  rw [getNextNodeFromHead] at hrun
  cases hloop : gnnfhLoop key fuel b (MAX_HEIGHT - 1) with
  | none =>
    rw [hloop] at hrun
    exact Option.noConfusion hrun
  | some pair =>
    rw [hloop] at hrun
    obtain ⟨b2, onid⟩ := pair
    obtain ⟨hd2, hinv2, hsole⟩ := gnnfhLoop_spec key fuel (MAX_HEIGHT - 1) b hd ids
      (b2, onid) hinv hloop
    cases onid with
    | some nid =>
      dsimp only at hrun
      cases hrun
      have : ids = [nid] := hsole nid rfl
      rw [this] at hinv2
      exact ⟨hd2, [], hinv2⟩
    | none =>
      dsimp only at hrun
      replace hinv2 : InvAt b2 hd2 ids := hinv2
      rw [hinv2.hhd] at hrun
      dsimp only at hrun
      have hhd2ht : 1 ≤ hd2.height := by
        rw [hinv2.hd_height]
        decide
      rw [getNextNodeAt_zero hhd2ht] at hrun
      cases hn0 : next0 hd2 with
      | some n =>
        rw [hn0] at hrun
        cases hrun
        have hchain := hinv2.chain
        rw [hn0] at hchain
        cases hchain with
        | cons hgetn htail =>
          rename_i nn rest
          exact ⟨hd2, rest, hinv2⟩
      | none =>
        rw [hn0] at hrun
        have hids_nil : ids = [] := by
          have hchain := hinv2.chain
          rw [hn0] at hchain
          cases hchain
          rfl
        cases hch2 : b2.ch with
        | nil =>
          rw [hch2] at hrun
          exact Option.noConfusion hrun
        | cons nextHeight restCh =>
          rw [hch2] at hrun
          dsimp only at hrun
          have hmemH : nextHeight ∈ b2.ch := by
            rw [hch2]
            exact List.mem_cons_self nextHeight restCh
          have hht := hinv2.ch_ok nextHeight hmemH
          -- the new store
          set E : Node := NewEmptyNode nextHeight 0 with hEdef
          set nid : Nat := b2.nodes.length with hniddef
          set b3 : BowlT := { b2 with nodes := b2.nodes ++ [E], ch := restCh }
            with hb3def
          have hg3 : ∀ j, j ≠ nid → b3.getN j = b2.getN j := by
            intro j hj
            rw [BowlT.getN, BowlT.getN, hb3def]
            exact get?_append_singleton_ne b2.nodes E j hj
          have hg3nid : b3.getN nid = some E := by
            rw [BowlT.getN, hb3def]
            exact List.get?_concat_length b2.nodes E
          have hnid0 : nid ≠ 0 := by
            have := getN_some_lt hinv2.hhd
            omega
          have hg30 : b3.getN 0 = some hd2 := by
            rw [hg3 0 (Ne.symm hnid0)]
            exact hinv2.hhd
          have hhd2len : hd2.nextNodes.length = hd2.height :=
            hinv2.node_len 0 hd2 hinv2.hhd
          obtain ⟨hd4, hg40, hlen4, hother4, hlat4, hch4, hmk4, hdat4, hht4,
            hcmp4, hnlen4, hlo4, hhi4⟩ :=
            connectHeadLevels_spec nextHeight b3 nid hd2 hg30 hhd2len
              (by rw [hinv2.hd_height]; exact hht.2)
          set b4 : BowlT := connectHeadLevels b3 nid nextHeight with hb4def
          set b5 : BowlT := setLatestPointingNodes b4 nid with hb5def
          have hg5 : ∀ j, b5.getN j = b4.getN j := fun j => setLatest_getN b4 nid j
          cases hrun
          -- goal: invariant for b5 with chain [nid]
          have hg5char : ∀ j, b5.getN j =
              if j = 0 then some hd4 else if j = nid then some E
              else b2.getN j := by
            intro j
            rw [hg5]
            by_cases hj0 : j = 0
            · subst hj0
              rw [if_pos rfl]
              exact hg40
            · rw [if_neg hj0]
              by_cases hjn : j = nid
              · subst hjn
                rw [if_pos rfl, hother4 _ hj0]
                exact hg3nid
              · rw [if_neg hjn, hother4 _ hj0]
                exact hg3 j hjn
          have hEnext : ∀ lvl : Nat, E.nextNodes.getD lvl none = none := by
            intro lvl
            rw [hEdef]
            exact getD_replicate_none nextHeight lvl
          have hnext0hd4 : next0 hd4 = some nid := by
            unfold next0
            exact hlo4 0 (by omega)
          refine ⟨hd4, [], ⟨?_, ?_, ?_, ?_, ?_, ?_, ?_, ?_, ?_, ?_, ?_, ?_, ?_, ?_⟩⟩
          · rw [hg5char]
            simp
          · rw [hht4]
            exact hinv2.hd_height
          · rw [hdat4]
            exact hinv2.hd_data
          · rw [hmk4]
            exact hinv2.hd_marked
          · rw [hnext0hd4]
            have hget5nid : b5.nodes.get? nid = some E := by
              have := hg5char nid
              rw [if_neg hnid0, if_pos rfl] at this
              exact this
            have hnE : next0 E = none := hEnext 0
            have htail5 : ChainSeg b5.nodes (next0 E) [] none := by
              rw [hnE]
              exact ChainSeg.nil none
            exact ChainSeg.cons hget5nid htail5
          · intro j n hg
            rw [hg5char] at hg
            by_cases hj0 : j = 0
            · rw [if_pos hj0] at hg
              cases hg
              rw [hnlen4, hhd2len, hht4]
            · rw [if_neg hj0] at hg
              by_cases hjn : j = nid
              · rw [if_pos hjn] at hg
                cases hg
                rw [hEdef]
                simp [NewEmptyNode]
              · rw [if_neg hjn] at hg
                exact hinv2.node_len j n hg
          · intro j n hg
            rw [hg5char] at hg
            by_cases hj0 : j = 0
            · rw [if_pos hj0] at hg
              cases hg
              rw [hht4, hinv2.hd_height]
              exact ⟨by decide, le_refl _⟩
            · rw [if_neg hj0] at hg
              by_cases hjn : j = nid
              · rw [if_pos hjn] at hg
                cases hg
                rw [hEdef]
                exact hht
              · rw [if_neg hjn] at hg
                exact hinv2.node_ht j n hg
          · intro j n hg
            rw [hg5char] at hg
            by_cases hj0 : j = 0
            · rw [if_pos hj0] at hg
              cases hg
              rw [hdat4, hinv2.hd_data]
              exact sortedItems_nil
            · rw [if_neg hj0] at hg
              by_cases hjn : j = nid
              · rw [if_pos hjn] at hg
                cases hg
                rw [hEdef]
                exact sortedItems_nil
              · rw [if_neg hjn] at hg
                exact hinv2.node_sorted j n hg
          · intro j n hg hmk
            rw [hg5char] at hg
            by_cases hj0 : j = 0
            · exact Or.inl hj0
            · rw [if_neg hj0] at hg
              by_cases hjn : j = nid
              · right
                rw [hjn]
                exact List.mem_singleton.mpr rfl
              · rw [if_neg hjn] at hg
                rcases hinv2.active_in_chain j n hg hmk with h0 | hmem
                · exact Or.inl h0
                · rw [hids_nil] at hmem
                  exact absurd hmem (List.not_mem_nil j)
          · intro j n lvl hg
            rw [hg5char] at hg
            by_cases hj0 : j = 0
            · rw [if_pos hj0] at hg
              cases hg
              rcases Nat.lt_or_ge lvl nextHeight with hl | hl
              · rw [hlo4 lvl hl]
                intro hc
                exact hnid0 ((Option.some.injEq _ _).mp hc)
              · rw [hhi4 lvl hl]
                exact hinv2.no_ptr_zero 0 hd2 lvl hinv2.hhd
            · rw [if_neg hj0] at hg
              by_cases hjn : j = nid
              · rw [if_pos hjn] at hg
                cases hg
                rw [hEnext lvl]
                exact fun hc => Option.noConfusion hc
              · rw [if_neg hjn] at hg
                exact hinv2.no_ptr_zero j n lvl hg
          · intro j hj n hg hmk
            simp at hj
          · intro j hj n hg hmk hdat
            have : j = nid := List.mem_singleton.mp hj
            rw [this]
          · intro h hh
            have hch5 : b5.ch = restCh := by
              rw [hb5def, setLatest_ch, hb4def, hch4, hb3def]
            rw [hch5] at hh
            exact hinv2.ch_ok h (by rw [hch2]; exact List.mem_cons_of_mem _ hh)
          · show sortedItems (chainItems b5.nodes [nid])
            have : dataAt b5.nodes nid = [] := by
              unfold dataAt
              have := hg5char nid
              rw [if_neg hnid0, if_pos rfl] at this
              rw [BowlT.getN] at this
              rw [this, hEdef]
              rfl
            rw [chainItems, chainItems, this]
            exact sortedItems_nil

theorem sorted_append_lt {A B : List Item} (hs : sortedItems (A ++ B)) :
    ∀ a ∈ A, ∀ b ∈ B, a.key < b.key := by
  have hp := sortedItems_iff_pairwise.mp hs
  rw [List.pairwise_append] at hp
  exact hp.2.2

theorem sorted_cons_all_gt {x : Item} {rest : List Item} {k : Int}
    (hs : sortedItems (x :: rest)) (hk : k < x.key) :
    ∀ it ∈ x :: rest, k < it.key := by
  intro it hit
  rcases List.mem_cons.mp hit with rfl | hmem
  · exact hk
  · have hp := sortedItems_iff_pairwise.mp hs
    have := (List.pairwise_cons.mp hp).1 it hmem
    omega

theorem getD_zero_mem {l : List Item} (h : l ≠ []) : l.getD 0 dfltItem ∈ l := by
  cases l with
  | nil => exact absurd rfl h
  | cons x rest => exact List.mem_cons_self x rest

theorem mem_drop_one_of_mem_post {pre post : List Nat} {cur j : Nat}
    (hj : j ∈ post) : j ∈ (pre ++ cur :: post).drop 1 := by
  cases pre with
  | nil =>
    simp only [List.nil_append, List.drop_one, List.tail_cons]
    exact hj
  | cons p ps =>
    simp only [List.cons_append, List.drop_one, List.tail_cons]
    exact List.mem_append.mpr (Or.inr (List.mem_cons_of_mem cur hj))

theorem append_cons_eq_singleton {pre post : List Nat} {x y : Nat}
    (h : pre ++ x :: post = [y]) : pre = [] ∧ x = y ∧ post = [] := by
  cases pre with
  | nil =>
    simp only [List.nil_append, List.cons.injEq] at h
    exact ⟨rfl, h.1, h.2⟩
  | cons p ps =>
    simp only [List.cons_append, List.cons.injEq] at h
    exfalso
    have := congrArg List.length h.2
    simp at this

theorem sortedItems_isSuffix {l l' : List Item} (h : List.IsSuffix l' l)
    (hs : sortedItems l) : sortedItems l' :=
  sortedItems_sublist h.sublist hs

theorem append_singleton_assoc {α : Type} (pre : List α) (c : α) (X : List α) :
    (pre ++ [c]) ++ X = pre ++ c :: X := by
  simp

/-- Landing analysis for a move: a non-marked move target that fails the
strictly-below-min check sits at a chain position whose predecessors all
hold keys below `key`. -/
theorem move_landing {b2 : BowlT} {hd2 : Node} {ids2 : List Nat} {nx2 : Nat}
    {nn : Node} {key : Int}
    (hinv2 : InvAt b2 hd2 ids2)
    (hgnn : b2.getN nx2 = some nn)
    (hmk : nn.marked = false)
    (hnx20 : nx2 ≠ 0)
    (hmin : (nn.CheckKeyStrictlyLessThanMin key).1 = false) :
    ∃ pre2 post2, ids2 = pre2 ++ nx2 :: post2 ∧
      (∀ it ∈ chainItems b2.nodes pre2, it.key < key) := by
  have hmem : nx2 ∈ ids2 := by
    rcases hinv2.active_in_chain nx2 nn hgnn hmk with h0 | hm
    · exact absurd h0 hnx20
    · exact hm
  by_cases hdat : nn.data = []
  · have hsole := hinv2.empty_active_sole nx2 hmem nn hgnn hmk hdat
    refine ⟨[], [], by rw [hsole]; rfl, ?_⟩
    intro it hit
    simp [chainItems] at hit
  · obtain ⟨pre2, post2, hdec⟩ := List.append_of_mem hmem
    refine ⟨pre2, post2, hdec, ?_⟩
    have hlen0 : nn.data.length ≠ 0 := by
      intro hc
      exact hdat (List.eq_nil_of_length_eq_zero hc)
    have hminle := checkMin_false hlen0 hmin
    have hs : sortedItems (chainItems b2.nodes pre2 ++
        chainItems b2.nodes (nx2 :: post2)) := by
      rw [← chainItems_append, ← hdec]
      exact hinv2.items_sorted
    intro it hit
    have hminmem : nn.data.getD 0 dfltItem ∈
        chainItems b2.nodes (nx2 :: post2) := by
      show _ ∈ dataAt b2.nodes nx2 ++ chainItems b2.nodes post2
      refine List.mem_append.mpr (Or.inl ?_)
      unfold dataAt
      rw [show b2.nodes.get? nx2 = some nn from hgnn]
      exact getD_zero_mem hdat
    have := sorted_append_lt hs it hit _ hminmem
    omega

/-- Landing analysis for a stay: when the first candidate after a chain
position holds only keys strictly above `key`, so does everything after
that position. -/
theorem after_gt_of_min {b2 : BowlT} {hd2 : Node} {A post2 : List Nat}
    {nx2 : Nat} {nn : Node} {key : Int}
    (hinv2 : InvAt b2 hd2 (A ++ nx2 :: post2))
    (hgnn : b2.getN nx2 = some nn)
    (hmin : (nn.CheckKeyStrictlyLessThanMin key).1 = true) :
    ∀ it ∈ chainItems b2.nodes (nx2 :: post2), key < it.key := by
  obtain ⟨hlen0, hklt⟩ := checkMin_true hmin
  have hsuf : sortedItems (chainItems b2.nodes (nx2 :: post2)) := by
    refine sortedItems_isSuffix ⟨chainItems b2.nodes A, ?_⟩ hinv2.items_sorted
    rw [← chainItems_append]
  have hdatne : nn.data ≠ [] := by
    intro hc
    rw [hc] at hlen0
    exact hlen0 rfl
  have hchain_eq : chainItems b2.nodes (nx2 :: post2) =
      nn.data ++ chainItems b2.nodes post2 := by
    show dataAt b2.nodes nx2 ++ _ = _
    unfold dataAt
    rw [show b2.nodes.get? nx2 = some nn from hgnn]
  cases hdd : nn.data with
  | nil => exact absurd hdd hdatne
  | cons d0 drest =>
    rw [hchain_eq, hdd]
    intro it hit
    have hs2 : sortedItems (d0 :: (drest ++ chainItems b2.nodes post2)) := by
      rw [hchain_eq, hdd] at hsuf
      simpa using hsuf
    have hkd0 : key < d0.key := by
      rw [hdd] at hklt
      simpa using hklt
    exact sorted_cons_all_gt hs2 hkd0 it (by simpa using hit)

/-- The inner level loop of `getCorrectNode`: starting from a cursor on the
chain whose chain predecessors all hold keys below `key`, it either stays
(and, provided it examined level 0, everything after the cursor is above
`key`) or moves to a chain node whose predecessors are all below `key`. -/
theorem gcnInner_spec (key : Int) (fuel : Nat) :
    ∀ (hp : Nat) (b : BowlT) (cur : Nat) (flag : Bool) (hd : Node)
      (pre post : List Nat) (res : BowlT × Bool × Option (Nat × Nat)),
    InvAt b hd (pre ++ cur :: post) →
    cur ≠ 0 →
    (∀ it ∈ chainItems b.nodes pre, it.key < key) →
    gcnInner key fuel b cur hp flag = some res →
    ∃ hd',
      storePres b res.1 ∧
      (res.2.2 = none →
        ∃ post2, InvAt res.1 hd' (pre ++ cur :: post2) ∧
          (∀ it ∈ chainItems res.1.nodes pre, it.key < key) ∧
          (1 ≤ hp → ∀ it ∈ chainItems res.1.nodes post2, key < it.key)) ∧
      (∀ nxp, res.2.2 = some nxp →
        ∃ pre2 post2, InvAt res.1 hd' (pre2 ++ nxp.1 :: post2) ∧ nxp.1 ≠ 0 ∧
          nxp.2 ≠ 0 ∧
          (∃ nn, res.1.getN nxp.1 = some nn ∧ nn.marked = false) ∧
          (∀ it ∈ chainItems res.1.nodes pre2, it.key < key)) := by
  intro hp
  induction hp with
  | zero =>
    intro b cur flag hd pre post res hinv hcur0 hbefore hrun
    rw [gcnInner] at hrun
    cases hrun
    refine ⟨hd, storePres_refl b, ?_, ?_⟩
    · intro _
      exact ⟨post, hinv, hbefore, fun h1 => absurd h1 (by omega)⟩
    · intro nxp hx
      exact Option.noConfusion hx
  | succ hp ih =>
    intro b cur flag hd pre post res hinv hcur0 hbefore hrun
    obtain ⟨m, hcpre, hccur⟩ := chainSeg_append_iff.mp hinv.chain
    obtain ⟨hm_eq, cn, hgcur', htl⟩ := chainSeg_cons_inv hccur
    subst hm_eq
    have hgcur : b.getN cur = some cn := hgcur'
    rw [gcnInner, hgcur] at hrun
    dsimp only at hrun
    have hcn_ht := (hinv.node_ht cur cn hgcur).1
    cases hnx : (cn.GetNextNodeAt (hp : Int)).1 with
    | none =>
      rw [hnx] at hrun
      by_cases hhp : hp = 0
      · subst hhp
        rw [gcnInner] at hrun
        cases hrun
        have hn0 : next0 cn = none := by
          have hz := getNextNodeAt_zero hcn_ht
          rw [Nat.cast_zero] at hnx
          rw [hz] at hnx
          exact hnx
        have hpost : post = [] := by
          rw [hn0] at htl
          cases htl
          rfl
        subst hpost
        refine ⟨hd, storePres_refl b, ?_, ?_⟩
        · intro _
          refine ⟨[], hinv, hbefore, fun _ it hit => ?_⟩
          simp [chainItems] at hit
        · intro nxp hx
          exact Option.noConfusion hx
      · obtain ⟨hd3, hsp3, h1, h2⟩ := ih b cur flag hd pre post res hinv hcur0
          hbefore hrun
        refine ⟨hd3, hsp3, ?_, h2⟩
        intro hnone
        obtain ⟨post2, ha, hb, hc⟩ := h1 hnone
        exact ⟨post2, ha, hb, fun _ => hc (by omega)⟩
    | some nx =>
      rw [hnx] at hrun
      dsimp only at hrun
      obtain ⟨hgdnx, _, _⟩ := getNextNodeAt_some hnx
      have hnx0 : nx ≠ 0 := by
        intro hc
        subst hc
        exact hinv.no_ptr_zero cur cn _ hgcur hgdnx
      by_cases hhp : hp = 0
      · -- the level-0 chase splices the chain
        subst hhp
        rw [Nat.cast_zero] at hrun
        have hn0 : next0 cn = some nx := by
          have hz := getNextNodeAt_zero hcn_ht
          rw [Nat.cast_zero] at hnx
          rw [hz] at hnx
          exact hnx
        rw [hn0] at htl
        cases hchase : getNextNodeAtHeightNotMarkedRemoval 0 cur fuel b nx with
        | none =>
          rw [hchase] at hrun
          exact Option.noConfusion hrun
        | some trip =>
          rw [hchase] at hrun
          obtain ⟨b2, ok, nx2⟩ := trip
          dsimp only at hrun
          have hctxseg : ChainSeg b.nodes (next0 hd) (pre ++ [cur]) (some nx) := by
            refine chainSeg_append_iff.mpr ⟨some cur, hcpre, ?_⟩
            refine ChainSeg.cons hgcur' ?_
            rw [hn0]
            exact ChainSeg.nil (some nx)
          have hinv' : InvAt b hd ((pre ++ [cur]) ++ post) := by
            rw [append_singleton_assoc]
            exact hinv
          obtain ⟨hd2, sfx', hinv2, hshape2, hpres2, hlen2, hch2, hctx2, hsfx2,
            hsuffix2, htrue2, hfalse2⟩ :=
            chase0_spec (pre ++ [cur]) cur (Or.inr ⟨pre, rfl⟩) fuel b hd post nx
              (b2, ok, nx2) hinv' hctxseg htl hchase
          have hpre_mem : ∀ j ∈ pre, ∃ n, b.getN j = some n := by
            intro j hj
            refine chainSeg_mem_get hinv.chain j ?_
            exact List.mem_append.mpr (Or.inl hj)
          have hbefore2 : ∀ it ∈ chainItems b2.nodes pre, it.key < key := by
            rw [storePres_chainItems hpres2 hpre_mem]
            exact hbefore
          have hinv2' : InvAt b2 hd2 (pre ++ cur :: sfx') := by
            rw [← append_singleton_assoc]
            exact hinv2
          by_cases hok : ok
          · rw [hok] at hrun
            simp only [Bool.not_true, Bool.false_eq_true, if_false] at hrun
            obtain ⟨nn, rest', hgnn, hmknn, hsfx'eq⟩ := htrue2 hok
            rw [hgnn] at hrun
            dsimp only at hrun
            by_cases hmin : (nn.CheckKeyStrictlyLessThanMin key).1
            · -- stay with flag = true
              rw [if_pos hmin] at hrun
              rw [gcnInner] at hrun
              cases hrun
              refine ⟨hd2, hpres2, ?_, ?_⟩
              · intro _
                refine ⟨sfx', hinv2', hbefore2, fun _ => ?_⟩
                rw [hsfx'eq]
                rw [hsfx'eq] at hinv2
                exact after_gt_of_min hinv2 hgnn hmin
              · intro nxp hx
                exact Option.noConfusion hx
            · -- move to nx2
              have hmin' : (nn.CheckKeyStrictlyLessThanMin key).1 = false :=
                Bool.eq_false_iff.mpr hmin
              rw [Bool.eq_false_iff.mpr hmin] at hrun
              simp only [Bool.false_eq_true, if_false] at hrun
              cases hrun
              refine ⟨hd2, hpres2, ?_, ?_⟩
              · intro hx
                exact Option.noConfusion hx
              · intro nxp hx
                have hnxp : nxp = (nx2, 0 + 1) := (Option.some.injEq _ _).mp hx.symm
                subst hnxp
                have hnx20 : nx2 ≠ 0 := by
                  intro hc
                  subst hc
                  rw [hsfx'eq] at hinv2'
                  refine inv_zero_not_mem hinv2' ?_
                  refine List.mem_append.mpr (Or.inr ?_)
                  exact List.mem_cons_of_mem cur (List.mem_cons_self 0 rest')
                obtain ⟨pre2, post2, hdec, hbefore3⟩ :=
                  move_landing hinv2' hgnn hmknn hnx20 hmin'
                rw [hdec] at hinv2'
                exact ⟨pre2, post2, hinv2', hnx20, by omega, ⟨nn, hgnn, hmknn⟩,
                  hbefore3⟩
          · have hok' : ok = false := Bool.eq_false_iff.mpr hok
            rw [hok'] at hrun
            simp only [Bool.not_false, if_true] at hrun
            rw [gcnInner] at hrun
            cases hrun
            obtain ⟨nn, hgnn, hmknn, hsfx'eq⟩ := hfalse2 hok'
            refine ⟨hd2, hpres2, ?_, ?_⟩
            · intro _
              refine ⟨sfx', hinv2', hbefore2, fun _ it hit => ?_⟩
              -- sfx' = [nx2] with nx2 marked and non-first, hence empty
              exfalso
              rw [hsfx'eq] at hit hinv2'
              have hmemdrop : nx2 ∈ (pre ++ cur :: [nx2]).drop 1 :=
                mem_drop_one_of_mem_post (List.mem_singleton.mpr rfl)
              have hempty := hinv2'.marked_tail_empty nx2 hmemdrop nn hgnn hmknn
              simp only [chainItems] at hit
              unfold dataAt at hit
              rw [show b2.nodes.get? nx2 = some nn from hgnn] at hit
              dsimp only at hit
              rw [hempty] at hit
              simp at hit
            · intro nxp hx
              exact Option.noConfusion hx
      · -- a level hp ≥ 1 chase leaves the chain alone
        have hhp1 : (1 : Int) ≤ (hp : Int) := by
          exact_mod_cast Nat.one_le_iff_ne_zero.mpr hhp
        cases hchase : getNextNodeAtHeightNotMarkedRemoval (hp : Int) cur fuel b nx with
        | none =>
          rw [hchase] at hrun
          exact Option.noConfusion hrun
        | some trip =>
          rw [hchase] at hrun
          obtain ⟨b2, ok, nx2⟩ := trip
          dsimp only at hrun
          obtain ⟨hd2, hinv2, hshape2, hpres2, hlen2, hch2, hitems2, hnx20,
            htrue2⟩ :=
            chaseH_spec hhp1 cur fuel b hd (pre ++ cur :: post) nx
              (b2, ok, nx2) hinv hnx0 hchase
          have hpre_mem : ∀ j ∈ pre, ∃ n, b.getN j = some n := by
            intro j hj
            refine chainSeg_mem_get hinv.chain j ?_
            exact List.mem_append.mpr (Or.inl hj)
          have hbefore2 : ∀ it ∈ chainItems b2.nodes pre, it.key < key := by
            rw [storePres_chainItems hpres2 hpre_mem]
            exact hbefore
          by_cases hok : ok
          · rw [hok] at hrun
            simp only [Bool.not_true, Bool.false_eq_true, if_false] at hrun
            obtain ⟨nn, hgnn, hmknn⟩ := htrue2 hok
            rw [hgnn] at hrun
            dsimp only at hrun
            by_cases hmin : (nn.CheckKeyStrictlyLessThanMin key).1
            · rw [if_pos hmin] at hrun
              obtain ⟨hd3, hsp3, h1, h2⟩ := ih b2 cur true hd2 pre post res hinv2
                hcur0 hbefore2 hrun
              refine ⟨hd3, storePres_trans hpres2 hsp3, ?_, h2⟩
              intro hnone
              obtain ⟨post2, ha, hb, hc⟩ := h1 hnone
              exact ⟨post2, ha, hb, fun _ => hc (by omega)⟩
            · have hmin' : (nn.CheckKeyStrictlyLessThanMin key).1 = false :=
                Bool.eq_false_iff.mpr hmin
              rw [hmin'] at hrun
              simp only [Bool.false_eq_true, if_false] at hrun
              cases hrun
              refine ⟨hd2, hpres2, ?_, ?_⟩
              · intro hx
                exact Option.noConfusion hx
              · intro nxp hx
                have hnxp : nxp = (nx2, hp + 1) := (Option.some.injEq _ _).mp hx.symm
                subst hnxp
                obtain ⟨pre2, post2, hdec, hbefore3⟩ :=
                  move_landing hinv2 hgnn hmknn hnx20 hmin'
                rw [hdec] at hinv2
                exact ⟨pre2, post2, hinv2, hnx20, by omega, ⟨nn, hgnn, hmknn⟩,
                  hbefore3⟩
          · have hok' : ok = false := Bool.eq_false_iff.mpr hok
            rw [hok'] at hrun
            simp only [Bool.not_false, if_true] at hrun
            obtain ⟨hd3, hsp3, h1, h2⟩ := ih b2 cur flag hd2 pre post res hinv2
              hcur0 hbefore2 hrun
            refine ⟨hd3, storePres_trans hpres2 hsp3, ?_, h2⟩
            intro hnone
            obtain ⟨post2, ha, hb, hc⟩ := h1 hnone
            exact ⟨post2, ha, hb, fun _ => hc (by omega)⟩

theorem getD_last_mem {l : List Item} (h : l ≠ []) :
    l.getD (l.length - 1) dfltItem ∈ l := by
  have hlen : 0 < l.length := List.length_pos.mpr h
  rw [List.getD_eq_getElem l dfltItem (by omega)]
  exact List.getElem_mem _

/-- The outer loop of `getCorrectNode`: from a chain cursor whose
predecessors are below `key`, it lands on a chain cursor whose
predecessors are below `key` and whose successors are above `key`. -/
theorem gcnOuter_spec (key : Int) (fuel : Nat) :
    ∀ (f : Nat) (b : BowlT) (cur hp : Nat) (hd : Node) (pre post : List Nat)
      (res : BowlT × Nat),
    InvAt b hd (pre ++ cur :: post) →
    cur ≠ 0 →
    (∀ it ∈ chainItems b.nodes pre, it.key < key) →
    (hp = 0 → ∀ it ∈ chainItems b.nodes post, key < it.key) →
    gcnOuter key fuel f b cur hp = some res →
    ∃ hd' pre2 post2, InvAt res.1 hd' (pre2 ++ res.2 :: post2) ∧ res.2 ≠ 0 ∧
      (∀ it ∈ chainItems res.1.nodes pre2, it.key < key) ∧
      (∀ it ∈ chainItems res.1.nodes post2, key < it.key) ∧
      storePres b res.1 ∧
      ((∃ nn, res.1.getN res.2 = some nn ∧ nn.marked = false) ∨
        (res.2 = cur ∧ pre2 = pre)) := by
  intro f
  induction f with
  | zero =>
    intro b cur hp hd pre post res _ _ _ _ hrun
    exact Option.noConfusion hrun
  | succ f ihf =>
    intro b cur hp hd pre post res hinv hcur0 hbefore hhp0 hrun
    obtain ⟨m, hcpre, hccur⟩ := chainSeg_append_iff.mp hinv.chain
    obtain ⟨hm_eq, cn, hgcur', htl⟩ := chainSeg_cons_inv hccur
    have hgcur : b.getN cur = some cn := hgcur'
    rw [gcnOuter, hgcur] at hrun
    dsimp only at hrun
    by_cases hmax : (cn.CheckKeyStrictlyLessThanMax key).1
    · rw [if_pos hmax] at hrun
      cases hrun
      obtain ⟨hlen0, hkmax⟩ := checkMax_true hmax
      have hdatne : cn.data ≠ [] := by
        intro hc
        rw [hc] at hlen0
        exact hlen0 rfl
      have hspl : storePres b (setLatestPointingNodes b cur) := by
        intro j n hg
        refine ⟨n, ?_, rfl, rfl, rfl, rfl⟩
        rw [setLatest_getN]
        exact hg
      refine ⟨hd, pre, post, ?_, hcur0, ?_, ?_, hspl, Or.inr ⟨rfl, rfl⟩⟩
      · exact invAt_setLatest cur hinv
      · rw [setLatest_nodes]
        exact hbefore
      · rw [setLatest_nodes]
        -- every item after cur is above key since key < max(cur)
        have hs : sortedItems ((chainItems b.nodes pre ++ cn.data) ++
            chainItems b.nodes post) := by
          have heq : chainItems b.nodes (pre ++ cur :: post) =
              (chainItems b.nodes pre ++ cn.data) ++ chainItems b.nodes post := by
            rw [chainItems_append]
            show _ ++ (dataAt b.nodes cur ++ _) = _
            unfold dataAt
            rw [show b.nodes.get? cur = some cn from hgcur]
            rw [List.append_assoc]
          rw [← heq]
          exact hinv.items_sorted
        intro it hit
        have hmaxmem : cn.data.getD (cn.data.length - 1) dfltItem ∈
            chainItems b.nodes pre ++ cn.data :=
          List.mem_append.mpr (Or.inr (getD_last_mem hdatne))
        have := sorted_append_lt hs _ hmaxmem it hit
        omega
    · rw [if_neg hmax] at hrun
      by_cases hhp : hp = 0
      · subst hhp
        rw [gcnInner] at hrun
        dsimp only at hrun
        simp only [Bool.false_eq_true, if_false] at hrun
        cases hrun
        exact ⟨hd, pre, post, hinv, hcur0, hbefore, hhp0 rfl, storePres_refl b,
          Or.inr ⟨rfl, rfl⟩⟩
      · cases hinner : gcnInner key fuel b cur hp false with
        | none =>
          rw [hinner] at hrun
          exact Option.noConfusion hrun
        | some trip =>
          rw [hinner] at hrun
          obtain ⟨b2, flag2, mv⟩ := trip
          obtain ⟨hd2, hspin, hstay, hmove⟩ := gcnInner_spec key fuel hp b cur
            false hd pre post (b2, flag2, mv) hinv hcur0 hbefore hinner
          cases mv with
          | some nxp =>
            dsimp only at hrun
            obtain ⟨nx, hp'⟩ := nxp
            obtain ⟨pre2, post2, hinv2, hnx0, hhp'0, hnnmk, hbefore2⟩ :=
              hmove (nx, hp') rfl
            have hinv3 : InvAt (setLatestPointingNodes b2 nx) hd2
                (pre2 ++ nx :: post2) := invAt_setLatest nx hinv2
            have hspl2 : storePres b2 (setLatestPointingNodes b2 nx) := by
              intro j n hg
              refine ⟨n, ?_, rfl, rfl, rfl, rfl⟩
              rw [setLatest_getN]
              exact hg
            obtain ⟨hd4, pre4, post4, hinv4, hr0, hbef4, haft4, hsp4, hdisj4⟩ :=
              ihf (setLatestPointingNodes b2 nx) nx hp' hd2 pre2 post2 res
                hinv3 hnx0 (by rw [setLatest_nodes]; exact hbefore2)
                (fun hc => absurd hc hhp'0) hrun
            refine ⟨hd4, pre4, post4, hinv4, hr0, hbef4, haft4,
              storePres_trans hspin (storePres_trans hspl2 hsp4), ?_⟩
            left
            rcases hdisj4 with hleft | ⟨hrnx, _⟩
            · exact hleft
            · obtain ⟨nn, hgnn2, hmk2⟩ := hnnmk
              have hgnn3 : (setLatestPointingNodes b2 nx).getN nx = some nn := by
                rw [setLatest_getN]
                exact hgnn2
              obtain ⟨nn4, hgnn4, e1, e2, e3, e4⟩ := hsp4 nx nn hgnn3
              rw [hrnx]
              exact ⟨nn4, hgnn4, by rw [e2]; exact hmk2⟩
          | none =>
            dsimp only at hrun
            obtain ⟨post2, hinv2, hbefore2, hafter2⟩ := hstay rfl
            have hafter2' := hafter2 (by omega)
            by_cases hflag : flag2
            · rw [hflag] at hrun
              simp only [if_true] at hrun
              obtain ⟨hd4, pre4, post4, hinv4, hr0, hbef4, haft4, hsp4, hdisj4⟩ :=
                ihf b2 cur 0 hd2 pre post2 res hinv2 hcur0 hbefore2
                  (fun _ => hafter2') hrun
              exact ⟨hd4, pre4, post4, hinv4, hr0, hbef4, haft4,
                storePres_trans hspin hsp4, hdisj4⟩
            · have hflag' : flag2 = false := Bool.eq_false_iff.mpr hflag
              rw [hflag'] at hrun
              simp only [Bool.false_eq_true, if_false] at hrun
              cases hrun
              exact ⟨hd2, pre, post2, hinv2, hcur0, hbefore2, hafter2', hspin,
                Or.inr ⟨rfl, rfl⟩⟩

/-- `getCorrectNode` preserves the invariant and lands on a chain cursor
whose chain predecessors hold keys below `key` and whose chain successors
hold keys above `key`. -/
theorem getCorrectNode_spec (key : Int) (fuel : Nat) (b : BowlT) (cur : Nat)
    (hd : Node) (pre post : List Nat) (res : BowlT × Nat)
    (hinv : InvAt b hd (pre ++ cur :: post)) (hcur0 : cur ≠ 0)
    (hbefore : ∀ it ∈ chainItems b.nodes pre, it.key < key)
    (hrun : getCorrectNode b key cur fuel = some res) :
    ∃ hd' pre2 post2, InvAt res.1 hd' (pre2 ++ res.2 :: post2) ∧ res.2 ≠ 0 ∧
      (∀ it ∈ chainItems res.1.nodes pre2, it.key < key) ∧
      (∀ it ∈ chainItems res.1.nodes post2, key < it.key) ∧
      storePres b res.1 ∧
      ((∃ nn, res.1.getN res.2 = some nn ∧ nn.marked = false) ∨
        (res.2 = cur ∧ pre2 = pre)) := by
  rw [getCorrectNode] at hrun
  have hmem : cur ∈ pre ++ cur :: post :=
    List.mem_append.mpr (Or.inr (List.mem_cons_self cur post))
  obtain ⟨cn, hgcur⟩ := chainSeg_mem_get hinv.chain cur hmem
  rw [show b.getN cur = some cn from hgcur] at hrun
  dsimp only at hrun
  exact gcnOuter_spec key fuel fuel b cur (cn.height + 1) hd pre post res hinv
    hcur0 hbefore (fun hc => absurd hc (by omega)) hrun

theorem list_set_get_self_gen {α : Type} : ∀ (l : List α) (i : Nat) (x : α),
    l.get? i = some x → l.set i x = l := by
  intro l
  induction l with
  | nil => intro i x h; exact Option.noConfusion h
  | cons y ys ih =>
    intro i x h
    cases i with
    | zero =>
      have : y = x := (Option.some.injEq _ _).mp h
      rw [List.set_cons_zero, this]
    | succ i =>
      rw [List.set_cons_succ, ih i x h]

theorem sortedItems_iff_keys {l : List Item} :
    sortedItems l ↔ List.Chain' (fun a b : Int => a < b) (l.map Item.key) := by
  unfold sortedItems
  rw [List.chain'_map]

/-- Successful `Node.Insert` on sorted data: the key was absent and the new
data is the sorted insertion; all other node fields are untouched. -/
theorem node_insert_ok {n : Node} {ih : Item} (hs : sortedItems n.data)
    (hsucc : (n.Insert ih).2 = none) :
    (n.Insert ih).1.data =
      (n.data.takeWhile fun it => decide (it.key < ih.key)) ++
        ih :: (n.data.dropWhile fun it => decide (it.key < ih.key)) ∧
    (∀ it ∈ n.data, it.key ≠ ih.key) ∧
    (n.Insert ih).1.marked = n.marked ∧
    (n.Insert ih).1.height = n.height ∧
    (n.Insert ih).1.nextNodes = n.nextNodes := by
  unfold Node.Insert at hsucc ⊢
  by_cases h1 : n.GetPositionExact ih.key ≠ -1
  · rw [if_pos h1] at hsucc
    exact Option.noConfusion hsucc
  · rw [if_neg h1] at hsucc ⊢
    push_neg at h1
    have habs : ∀ it ∈ n.data, it.key ≠ ih.key := by
      rcases @getPositionExact_spec _ ih.key hs with ⟨_, hnone⟩ |
        ⟨i, _, hidx, _⟩
      · exact hnone
      · rw [h1] at hidx
        exact absurd hidx.symm (by omega)
    by_cases h2 : n.data.length = NODE_SIZE
    · rw [if_pos h2] at hsucc
      exact Option.noConfusion hsucc
    · rw [if_neg h2] at hsucc ⊢
      dsimp only at hsucc ⊢
      have hpos := posLEAux_spec ih.key n.data 0
      by_cases hall : ∀ it ∈ n.data, it.key < ih.key
      · have hidx2 : n.GetPositionLessThanEqual ih.key = -1 := by
          rw [Node.GetPositionLessThanEqual, hpos, if_pos hall]
        rw [hidx2]
        rw [if_pos (rfl : (-1 : Int) = -1)]
        refine ⟨?_, habs, rfl, rfl, rfl⟩
        have hdw : n.data.dropWhile (fun it => decide (it.key < ih.key)) = [] := by
          rw [List.dropWhile_eq_nil_iff]
          intro x hx
          simp [hall x hx]
        have htw : n.data.takeWhile (fun it => decide (it.key < ih.key)) =
            n.data := by
          have := List.takeWhile_append_dropWhile
            (p := fun it => decide (it.key < ih.key)) (l := n.data)
          rw [hdw, List.append_nil] at this
          exact this
        rw [htw, hdw]
      · have hidx2 : n.GetPositionLessThanEqual ih.key =
            ((n.data.takeWhile fun it => decide (it.key < ih.key)).length : Int) := by
          rw [Node.GetPositionLessThanEqual, hpos, if_neg hall]
          omega
        rw [hidx2]
        rw [if_neg (by intro hc; omega)]
        refine ⟨?_, habs, rfl, rfl, rfl⟩
        rw [Int.toNat_natCast]
        rw [take_length_takeWhile, drop_length_takeWhile]

/-- Erroring `Node.Insert` leaves the node untouched. -/
theorem node_insert_err {n : Node} {ih : Item} {e : Err}
    (h : (n.Insert ih).2 = some e) : (n.Insert ih).1 = n := by
  unfold Node.Insert at h ⊢
  by_cases h1 : n.GetPositionExact ih.key ≠ -1
  · rw [if_pos h1]
  · rw [if_neg h1] at h ⊢
    by_cases h2 : n.data.length = NODE_SIZE
    · rw [if_pos h2]
    · rw [if_neg h2] at h ⊢
      by_cases h3 : n.GetPositionLessThanEqual ih.key = -1
      · rw [if_pos h3] at h
        exact Option.noConfusion h
      · rw [if_neg h3] at h
        exact Option.noConfusion h

/-- A `NodeIsFull` error means the key was absent and the node is full. -/
theorem node_insert_full {n : Node} {ih : Item} (hs : sortedItems n.data)
    (h : (n.Insert ih).2 = some Err.NodeIsFull) :
    n.data.length = NODE_SIZE ∧ (∀ it ∈ n.data, it.key ≠ ih.key) := by
  unfold Node.Insert at h
  by_cases h1 : n.GetPositionExact ih.key ≠ -1
  · rw [if_pos h1] at h
    have : Err.KeyAlreadyExist = Err.NodeIsFull := by
      have := (Option.some.injEq _ _).mp h
      exact this
    exact Err.noConfusion this
  · rw [if_neg h1] at h
    push_neg at h1
    have habs : ∀ it ∈ n.data, it.key ≠ ih.key := by
      rcases @getPositionExact_spec _ ih.key hs with ⟨_, hnone⟩ |
        ⟨i, _, hidx, _⟩
      · exact hnone
      · rw [h1] at hidx
        exact absurd hidx.symm (by omega)
    by_cases h2 : n.data.length = NODE_SIZE
    · exact ⟨h2, habs⟩
    · rw [if_neg h2] at h
      by_cases h3 : n.GetPositionLessThanEqual ih.key = -1
      · rw [if_pos h3] at h
        exact Option.noConfusion h
      · rw [if_neg h3] at h
        exact Option.noConfusion h

/-- Sortedness of the per-node insertion produced by `node_insert_ok`. -/
theorem sorted_insert_item {l : List Item} {ih : Item} (hs : sortedItems l)
    (hne : ∀ it ∈ l, it.key ≠ ih.key) :
    sortedItems ((l.takeWhile fun it => decide (it.key < ih.key)) ++
      ih :: (l.dropWhile fun it => decide (it.key < ih.key))) := by
  rw [sortedItems_iff_pairwise, List.pairwise_append]
  have hpl := sortedItems_iff_pairwise.mp hs
  refine ⟨hpl.sublist (List.takeWhile_sublist _), ?_, ?_⟩
  · rw [List.pairwise_cons]
    refine ⟨sortedItems_dropWhile_gt hs hne, hpl.sublist (List.dropWhile_sublist _)⟩
  · intro a ha y hy
    have hak : a.key < ih.key := by
      have := List.mem_takeWhile_imp ha
      simpa using this
    rcases List.mem_cons.mp hy with rfl | hmem
    · exact hak
    · have : ih.key < y.key := sortedItems_dropWhile_gt hs hne y hmem
      omega

theorem mem_insert_item {l : List Item} {ih x : Item}
    (hx : x ∈ (l.takeWhile fun it => decide (it.key < ih.key)) ++
      ih :: (l.dropWhile fun it => decide (it.key < ih.key))) :
    x ∈ l ∨ x = ih := by
  rcases List.mem_append.mp hx with h | h
  · exact Or.inl ((List.takeWhile_sublist _).mem h)
  · rcases List.mem_cons.mp h with rfl | h2
    · exact Or.inr rfl
    · exact Or.inl ((List.dropWhile_sublist _).mem h2)

/-- Replacing the middle block of a sorted concatenation by a sorted block
drawn from the old block plus one item strictly between the sides. -/
theorem sorted_concat_insert {A D P D' : List Item} {k : Int} {it0 : Item}
    (hall : sortedItems (A ++ (D ++ P)))
    (hsD' : sortedItems D')
    (hmem : ∀ x ∈ D', x ∈ D ∨ x = it0)
    (hkey : it0.key = k)
    (hA : ∀ a ∈ A, a.key < k)
    (hP : ∀ p ∈ P, k < p.key) :
    sortedItems (A ++ (D' ++ P)) := by
  rw [sortedItems_iff_pairwise, List.pairwise_append] at hall ⊢
  obtain ⟨hpA, hDP, hcross⟩ := hall
  rw [List.pairwise_append] at hDP
  obtain ⟨hpD, hpP, hcrossDP⟩ := hDP
  refine ⟨hpA, ?_, ?_⟩
  · rw [List.pairwise_append]
    refine ⟨sortedItems_iff_pairwise.mp hsD', hpP, ?_⟩
    intro x hx p hp
    rcases hmem x hx with hxD | hxe
    · exact hcrossDP x hxD p hp
    · rw [hxe, hkey]
      exact hP p hp
  · intro a ha y hy
    rcases List.mem_append.mp hy with hyD' | hyP
    · rcases hmem y hyD' with hyD | hye
      · exact hcross a ha y (List.mem_append.mpr (Or.inl hyD))
      · rw [hye, hkey]
        exact hA a ha
    · exact hcross a ha y (List.mem_append.mpr (Or.inr hyP))

/-- `Node.Delete` keeps a sublist of the data and the other fields. -/
theorem node_delete_shape (n : Node) (k : Int) :
    List.Sublist (n.Delete k).1.data n.data ∧
    (n.Delete k).1.marked = n.marked ∧
    (n.Delete k).1.height = n.height ∧
    (n.Delete k).1.nextNodes = n.nextNodes := by
  unfold Node.Delete
  by_cases h1 : n.data.length = 0
  · rw [if_pos h1]
    exact ⟨List.Sublist.refl _, rfl, rfl, rfl⟩
  · rw [if_neg h1]
    by_cases h2 : n.GetPositionExact k = -1
    · rw [if_pos h2]
      exact ⟨List.Sublist.refl _, rfl, rfl, rfl⟩
    · rw [if_neg h2]
      refine ⟨?_, rfl, rfl, rfl⟩
      have hsub1 : List.Sublist
          (n.data.drop ((n.GetPositionExact k).toNat + 1))
          (n.data.drop (n.GetPositionExact k).toNat) := by
        have hdd : n.data.drop ((n.GetPositionExact k).toNat + 1) =
            List.drop 1 (n.data.drop (n.GetPositionExact k).toNat) := by
          rw [List.drop_drop]
        rw [hdd, List.drop_one]
        exact List.tail_sublist _
      have hsub2 := List.Sublist.append_left hsub1
        (n.data.take (n.GetPositionExact k).toNat)
      have hsub3 : List.Sublist
          (n.data.take (n.GetPositionExact k).toNat ++
            n.data.drop (n.GetPositionExact k).toNat) n.data := by
        rw [List.take_append_drop]
      exact hsub2.trans hsub3

/-- `Node.Update` keeps the key sequence and the other fields. -/
theorem node_update_shape {n : Node} (d : Item) (hs : sortedItems n.data) :
    (n.Update d).1.data.map Item.key = n.data.map Item.key ∧
    (n.Update d).1.marked = n.marked ∧
    (n.Update d).1.height = n.height ∧
    (n.Update d).1.nextNodes = n.nextNodes := by
  unfold Node.Update
  by_cases h1 : n.data.length = 0
  · rw [if_pos h1]
    exact ⟨rfl, rfl, rfl, rfl⟩
  · rw [if_neg h1]
    by_cases h2 : n.GetPositionExact d.key = -1
    · rw [if_pos h2]
      exact ⟨rfl, rfl, rfl, rfl⟩
    · rw [if_neg h2]
      refine ⟨?_, rfl, rfl, rfl⟩
      show (n.data.set _ _).map Item.key = n.data.map Item.key
      rcases @getPositionExact_spec _ d.key hs with ⟨habs, _⟩ |
        ⟨i, hilen, hidx, hikey⟩
      · exact absurd habs h2
      · rw [hidx, Int.toNat_natCast, List.map_set]
        refine list_set_get_self_gen _ i _ ?_
        rw [List.get?_eq_getElem?, List.getElem?_map,
          List.getElem?_eq_getElem hilen]
        rw [List.getD_eq_getElem n.data dfltItem hilen] at hikey
        show some ((n.data[i]).key) = some d.key
        rw [hikey]

theorem sorted_le_max {l : List Item} (hs : sortedItems l) :
    ∀ it ∈ l, it.key ≤ (l.getD (l.length - 1) dfltItem).key := by
  intro it hit
  rcases List.mem_iff_getElem.mp hit with ⟨i, hilen, hig⟩
  have := sortedItems_mono hs (i := i) (j := l.length - 1) (by omega) (by omega)
  rw [List.getD_eq_getElem l dfltItem (by omega : i < l.length), hig] at this
  exact this

/-- Everything on the chain after a node whose max exceeds `key` is above
`key`. -/
theorem after_gt_of_max {b : BowlT} {hd : Node} {A post : List Nat} {cur : Nat}
    {cn : Node} {key : Int}
    (hinv : InvAt b hd (A ++ cur :: post))
    (hgcur : b.getN cur = some cn)
    (hmax : (cn.CheckKeyStrictlyLessThanMax key).1 = true) :
    ∀ it ∈ chainItems b.nodes post, key < it.key := by
  obtain ⟨hlen0, hkmax⟩ := checkMax_true hmax
  have hdatne : cn.data ≠ [] := by
    intro hc
    rw [hc] at hlen0
    exact hlen0 rfl
  have hs : sortedItems ((chainItems b.nodes A ++ cn.data) ++
      chainItems b.nodes post) := by
    have heq : chainItems b.nodes (A ++ cur :: post) =
        (chainItems b.nodes A ++ cn.data) ++ chainItems b.nodes post := by
      rw [chainItems_append]
      show _ ++ (dataAt b.nodes cur ++ _) = _
      unfold dataAt
      rw [show b.nodes.get? cur = some cn from hgcur]
      rw [List.append_assoc]
    rw [← heq]
    exact hinv.items_sorted
  intro it hit
  have hmaxmem : cn.data.getD (cn.data.length - 1) dfltItem ∈
      chainItems b.nodes A ++ cn.data :=
    List.mem_append.mpr (Or.inr (getD_last_mem hdatne))
  have := sorted_append_lt hs _ hmaxmem it hit
  omega

theorem dataAt_setN_ne {b : BowlT} {cur : Nat} (n2 : Node) {j : Nat}
    (hne : j ≠ cur) : dataAt (b.setN cur n2).nodes j = dataAt b.nodes j := by
  unfold dataAt
  have : (b.setN cur n2).getN j = b.getN j := getN_setN_ne n2 (Ne.symm hne)
  rw [BowlT.getN, BowlT.getN] at this
  rw [this]

theorem chainItems_setN_not_mem {b : BowlT} {cur : Nat} (n2 : Node)
    {l : List Nat} (hnm : cur ∉ l) :
    chainItems (b.setN cur n2).nodes l = chainItems b.nodes l :=
  chainItems_congr (fun j hj => dataAt_setN_ne n2 (fun hc => hnm (hc ▸ hj)))

/-- Replacing the node at a chain position by one of the same state, height
and pointers, with sorted data that keeps the whole chain sorted, preserves
the invariant (the two side conditions guard the marked/empty corner
cases). -/
theorem invAt_set_node {b : BowlT} {hd : Node} {pre post : List Nat} {cur : Nat}
    {cn n2 : Node}
    (hinv : InvAt b hd (pre ++ cur :: post))
    (hcur0 : cur ≠ 0)
    (hgcur : b.getN cur = some cn)
    (hht : n2.height = cn.height)
    (hnn : n2.nextNodes = cn.nextNodes)
    (hsort : sortedItems n2.data)
    (hitems : sortedItems (chainItems b.nodes pre ++
      (n2.data ++ chainItems b.nodes post)))
    (hP9 : n2.marked = false → n2.data = [] → pre ++ cur :: post = [cur])
    (hP7 : cur ∈ (pre ++ cur :: post).drop 1 → n2.marked = true →
      n2.data = []) :
    InvAt (b.setN cur n2) hd (pre ++ cur :: post) := by
  have hnodup : (pre ++ cur :: post).Nodup := chainSeg_nodup hinv.chain
  have hcur_pre : cur ∉ pre := by
    intro hmem
    rcases List.nodup_append.mp hnodup with ⟨_, _, hdj⟩
    exact hdj hmem (List.mem_cons_self cur post)
  have hcur_post : cur ∉ post := by
    rcases List.nodup_append.mp hnodup with ⟨_, hnd2, _⟩
    exact (List.nodup_cons.mp hnd2).1
  have hgset : ∀ j, (b.setN cur n2).getN j =
      if j = cur then some n2 else b.getN j := by
    intro j
    by_cases hj : j = cur
    · subst hj
      rw [if_pos rfl]
      exact getN_setN_self n2 (getN_some_lt hgcur)
    · rw [if_neg hj]
      exact getN_setN_ne n2 (Ne.symm hj)
  have h0cur : (0 : Nat) ≠ cur := Ne.symm hcur0
  refine ⟨?_, hinv.hd_height, hinv.hd_data, hinv.hd_marked, ?_, ?_, ?_, ?_, ?_,
    ?_, ?_, ?_, ?_, ?_⟩
  · rw [hgset, if_neg h0cur]
    exact hinv.hhd
  · refine chainSeg_congr hinv.chain ?_
    intro j hj n hgj
    by_cases hjc : j = cur
    · subst hjc
      refine ⟨n2, ?_, ?_⟩
      · have := hgset j
        rw [if_pos rfl] at this
        exact this
      · have hn : n = cn := by
          have : b.getN j = some n := hgj
          rw [hgcur] at this
          exact ((Option.some.injEq _ _).mp this).symm
        subst hn
        unfold next0
        rw [hnn]
    · refine ⟨n, ?_, rfl⟩
      have := hgset j
      rw [if_neg hjc] at this
      rw [BowlT.getN] at this
      rw [this]
      exact hgj
  · intro j n hg
    rw [hgset] at hg
    by_cases hjc : j = cur
    · rw [if_pos hjc] at hg
      cases hg
      rw [hnn, hht]
      exact hinv.node_len cur cn hgcur
    · rw [if_neg hjc] at hg
      exact hinv.node_len j n hg
  · intro j n hg
    rw [hgset] at hg
    by_cases hjc : j = cur
    · rw [if_pos hjc] at hg
      cases hg
      rw [hht]
      exact hinv.node_ht cur cn hgcur
    · rw [if_neg hjc] at hg
      exact hinv.node_ht j n hg
  · intro j n hg
    rw [hgset] at hg
    by_cases hjc : j = cur
    · rw [if_pos hjc] at hg
      cases hg
      exact hsort
    · rw [if_neg hjc] at hg
      exact hinv.node_sorted j n hg
  · intro j n hg hmkj
    rw [hgset] at hg
    by_cases hjc : j = cur
    · subst hjc
      right
      exact List.mem_append.mpr (Or.inr (List.mem_cons_self j post))
    · rw [if_neg hjc] at hg
      exact hinv.active_in_chain j n hg hmkj
  · intro j n lvl hg
    rw [hgset] at hg
    by_cases hjc : j = cur
    · rw [if_pos hjc] at hg
      cases hg
      rw [hnn]
      exact hinv.no_ptr_zero cur cn lvl hgcur
    · rw [if_neg hjc] at hg
      exact hinv.no_ptr_zero j n lvl hg
  · intro j hj n hg hmkj
    rw [hgset] at hg
    by_cases hjc : j = cur
    · subst hjc
      rw [if_pos rfl] at hg
      cases hg
      exact hP7 hj hmkj
    · rw [if_neg hjc] at hg
      exact hinv.marked_tail_empty j hj n hg hmkj
  · intro j hj n hg hmkj hdatj
    rw [hgset] at hg
    by_cases hjc : j = cur
    · subst hjc
      rw [if_pos rfl] at hg
      cases hg
      exact hP9 hmkj hdatj
    · rw [if_neg hjc] at hg
      have hsole := hinv.empty_active_sole j hj n hg hmkj hdatj
      exfalso
      have : cur ∈ pre ++ cur :: post :=
        List.mem_append.mpr (Or.inr (List.mem_cons_self cur post))
      rw [hsole] at this
      exact hjc (List.mem_singleton.mp this).symm
  · intro h hh
    exact hinv.ch_ok h hh
  · have heq : chainItems (b.setN cur n2).nodes (pre ++ cur :: post) =
        chainItems b.nodes pre ++ (n2.data ++ chainItems b.nodes post) := by
      rw [chainItems_append]
      rw [chainItems_setN_not_mem n2 hcur_pre]
      congr 1
      show dataAt _ cur ++ _ = _
      rw [chainItems_setN_not_mem n2 hcur_post]
      congr 1
      unfold dataAt
      have := hgset cur
      rw [if_pos rfl] at this
      rw [BowlT.getN] at this
      rw [this]
    rw [heq]
    exact hitems

theorem sortedItems_of_map_key_eq {l l' : List Item}
    (h : l'.map Item.key = l.map Item.key) (hs : sortedItems l) :
    sortedItems l' := by
  rw [sortedItems_iff_keys] at hs ⊢
  rw [h]
  exact hs

theorem setN_setN (b : BowlT) (i : Nat) (x y : Node) :
    (b.setN i x).setN i y = b.setN i y := by
  simp [BowlT.setN, List.set_set]

theorem node_delete_empty {n : Node} (k : Int) (h : n.data.length = 0) :
    n.Delete k = (n, some Err.NodeIsEmpty) := by
  unfold Node.Delete
  rw [if_pos h]

/-- The chain decomposition of the whole-items list at a cursor. -/
theorem chainItems_decomp {b : BowlT} {pre post : List Nat} {cur : Nat}
    {cn : Node} (hgcur : b.getN cur = some cn) :
    chainItems b.nodes (pre ++ cur :: post) =
      chainItems b.nodes pre ++ (cn.data ++ chainItems b.nodes post) := by
  rw [chainItems_append]
  congr 1
  show dataAt b.nodes cur ++ _ = _
  unfold dataAt
  rw [show b.nodes.get? cur = some cn from hgcur]

/-- The per-item loop of `Update` preserves the invariant. -/
theorem updateLoop_spec (fuel : Nat) :
    ∀ (items : List Item) (b : BowlT) (cur : Nat) (hd : Node)
      (pre post : List Nat) (res : BowlT × List (Option Err)),
    InvAt b hd (pre ++ cur :: post) →
    cur ≠ 0 →
    (∀ it ∈ chainItems b.nodes pre, ∀ ih ∈ items, it.key < ih.key) →
    (items.map Item.key).Chain' (· ≤ ·) →
    updateLoop fuel b cur items = some res →
    ∃ hd2 ids2, InvAt res.1 hd2 ids2 := by
  intro items
  induction items with
  | nil =>
    intro b cur hd pre post res hinv _ _ _ hrun
    rw [updateLoop] at hrun
    cases hrun
    exact ⟨hd, pre ++ cur :: post, hinv⟩
  | cons ih rest ihr =>
    intro b cur hd pre post res hinv hcur0 hbefore hchain hrun
    rw [updateLoop] at hrun
    cases hgc : getCorrectNode b ih.key cur fuel with
    | none =>
      rw [hgc] at hrun
      exact Option.noConfusion hrun
    | some pair =>
      rw [hgc] at hrun
      obtain ⟨b1, cur1⟩ := pair
      dsimp only at hrun
      obtain ⟨hd1, pre1, post1, hinv1, hcur10, hbef1, haft1, hsp1, hdisj1⟩ :=
        getCorrectNode_spec ih.key fuel b cur hd pre post (b1, cur1) hinv hcur0
          (fun it hit => hbefore it hit ih (List.mem_cons_self ih rest)) hgc
      obtain ⟨cn1, hgcur1⟩ := chainSeg_mem_get hinv1.chain cur1
        (List.mem_append.mpr (Or.inr (List.mem_cons_self cur1 post1)))
      have hgcur1' : b1.getN cur1 = some cn1 := hgcur1
      rw [hgcur1'] at hrun
      dsimp only at hrun
      have hs1 : sortedItems cn1.data := hinv1.node_sorted cur1 cn1 hgcur1'
      obtain ⟨hkeys, hmk, hht, hnn⟩ := node_update_shape ih hs1
      have hdateq : (cn1.Update ih).1.data = [] ↔ cn1.data = [] := by
        constructor
        · intro hc
          have := hkeys
          rw [hc] at this
          exact List.map_eq_nil.mp this.symm
        · intro hc
          have := hkeys
          rw [hc] at this
          simp only [List.map_nil] at this
          exact List.map_eq_nil.mp this
      have hinv2 : InvAt (b1.setN cur1 (cn1.Update ih).1) hd1
          (pre1 ++ cur1 :: post1) := by
        refine invAt_set_node hinv1 hcur10 hgcur1' hht hnn ?_ ?_ ?_ ?_
        · exact sortedItems_of_map_key_eq hkeys hs1
        · have hall : sortedItems (chainItems b1.nodes pre1 ++
              (cn1.data ++ chainItems b1.nodes post1)) := by
            rw [← chainItems_decomp hgcur1']
            exact hinv1.items_sorted
          refine sortedItems_of_map_key_eq ?_ hall
          rw [List.map_append, List.map_append, List.map_append, List.map_append,
            hkeys]
        · intro hmkf hdat
          rw [hmk] at hmkf
          exact hinv1.empty_active_sole cur1
            (List.mem_append.mpr (Or.inr (List.mem_cons_self cur1 post1)))
            cn1 hgcur1' hmkf (hdateq.mp hdat)
        · intro hdrop hmkt
          rw [hmk] at hmkt
          exact hdateq.mpr (hinv1.marked_tail_empty cur1 hdrop cn1 hgcur1' hmkt)
      cases hrec : updateLoop fuel (b1.setN cur1 (cn1.Update ih).1) cur1 rest with
      | none =>
        rw [hrec] at hrun
        exact Option.noConfusion hrun
      | some pr =>
        rw [hrec] at hrun
        obtain ⟨bf, es⟩ := pr
        dsimp only at hrun
        cases hrun
        have hnodup1 : (pre1 ++ cur1 :: post1).Nodup := chainSeg_nodup hinv1.chain
        have hcurpre1 : cur1 ∉ pre1 := by
          intro hmem
          rcases List.nodup_append.mp hnodup1 with ⟨_, _, hdj⟩
          exact hdj hmem (List.mem_cons_self cur1 post1)
        have hbeforeR : ∀ it ∈
            chainItems (b1.setN cur1 (cn1.Update ih).1).nodes pre1,
            ∀ ih2 ∈ rest, it.key < ih2.key := by
          intro it hit ih2 hih2
          rw [chainItems_setN_not_mem _ hcurpre1] at hit
          have h1 := hbef1 it hit
          have h2 : ih.key ≤ ih2.key := by
            have hp := List.chain'_iff_pairwise.mp hchain
            rw [List.map_cons] at hp
            exact (List.pairwise_cons.mp hp).1 ih2.key
              (List.mem_map_of_mem Item.key hih2)
          omega
        obtain ⟨hd2, ids2, hinvf⟩ := ihr (b1.setN cur1 (cn1.Update ih).1) cur1
          hd1 pre1 post1 (bf, es) hinv2 hcur10 hbeforeR
          (List.Chain'.tail hchain) hrec
        exact ⟨hd2, ids2, hinvf⟩

/-- The per-item loop of `Delete` preserves the invariant. -/
theorem deleteLoop_spec (fuel : Nat) :
    ∀ (keys : List Int) (b : BowlT) (cur : Nat) (hd : Node)
      (pre post : List Nat) (res : BowlT × List (Option Err)),
    InvAt b hd (pre ++ cur :: post) →
    cur ≠ 0 →
    (∀ it ∈ chainItems b.nodes pre, ∀ k ∈ keys, it.key < k) →
    keys.Chain' (· ≤ ·) →
    deleteLoop fuel b cur keys = some res →
    ∃ hd2 ids2, InvAt res.1 hd2 ids2 := by
  intro keys
  induction keys with
  | nil =>
    intro b cur hd pre post res hinv _ _ _ hrun
    rw [deleteLoop] at hrun
    cases hrun
    exact ⟨hd, pre ++ cur :: post, hinv⟩
  | cons k rest ihr =>
    intro b cur hd pre post res hinv hcur0 hbefore hchain hrun
    rw [deleteLoop] at hrun
    cases hgc : getCorrectNode b k cur fuel with
    | none =>
      rw [hgc] at hrun
      exact Option.noConfusion hrun
    | some pair =>
      rw [hgc] at hrun
      obtain ⟨b1, cur1⟩ := pair
      dsimp only at hrun
      obtain ⟨hd1, pre1, post1, hinv1, hcur10, hbef1, haft1, hsp1, hdisj1⟩ :=
        getCorrectNode_spec k fuel b cur hd pre post (b1, cur1) hinv hcur0
          (fun it hit => hbefore it hit k (List.mem_cons_self k rest)) hgc
      obtain ⟨cn1, hgcur1⟩ := chainSeg_mem_get hinv1.chain cur1
        (List.mem_append.mpr (Or.inr (List.mem_cons_self cur1 post1)))
      have hgcur1' : b1.getN cur1 = some cn1 := hgcur1
      rw [hgcur1'] at hrun
      dsimp only at hrun
      have hs1 : sortedItems cn1.data := hinv1.node_sorted cur1 cn1 hgcur1'
      obtain ⟨hsubdata, hmk, hht, hnn⟩ := node_delete_shape cn1 k
      have hnodup1 : (pre1 ++ cur1 :: post1).Nodup := chainSeg_nodup hinv1.chain
      have hcurpre1 : cur1 ∉ pre1 := by
        intro hmem
        rcases List.nodup_append.mp hnodup1 with ⟨_, _, hdj⟩
        exact hdj hmem (List.mem_cons_self cur1 post1)
      have hall : sortedItems (chainItems b1.nodes pre1 ++
          (cn1.data ++ chainItems b1.nodes post1)) := by
        rw [← chainItems_decomp hgcur1']
        exact hinv1.items_sorted
      have hitems2 : sortedItems (chainItems b1.nodes pre1 ++
          ((cn1.Delete k).1.data ++ chainItems b1.nodes post1)) := by
        refine sortedItems_sublist ?_ hall
        exact (hsubdata.append_right _).append_left _
      -- the node written back, marked when emptied
      by_cases hcnt : (cn1.Delete k).1.GetCount = 0
      · rw [if_pos hcnt] at hrun
        rw [setN_setN] at hrun
        have hdat0 : (cn1.Delete k).1.data = [] :=
          List.eq_nil_of_length_eq_zero hcnt
        have hinv2 : InvAt (b1.setN cur1 (cn1.Delete k).1.MarkRemoval) hd1
            (pre1 ++ cur1 :: post1) := by
          refine invAt_set_node hinv1 hcur10 hgcur1' hht hnn ?_ ?_ ?_ ?_
          · show sortedItems (cn1.Delete k).1.data
            exact sortedItems_sublist hsubdata hs1
          · show sortedItems (_ ++ ((cn1.Delete k).1.data ++ _))
            exact hitems2
          · intro hmkf _
            exact Bool.noConfusion hmkf
          · intro _ _
            exact hdat0
        cases hrec : deleteLoop fuel
            (b1.setN cur1 (cn1.Delete k).1.MarkRemoval) cur1 rest with
        | none =>
          rw [hrec] at hrun
          exact Option.noConfusion hrun
        | some pr =>
          rw [hrec] at hrun
          obtain ⟨bf, es⟩ := pr
          dsimp only at hrun
          cases hrun
          have hbeforeR : ∀ it ∈
              chainItems (b1.setN cur1 (cn1.Delete k).1.MarkRemoval).nodes pre1,
              ∀ k2 ∈ rest, it.key < k2 := by
            intro it hit k2 hk2
            rw [chainItems_setN_not_mem _ hcurpre1] at hit
            have h1 := hbef1 it hit
            have h2 : k ≤ k2 := by
              have hp := List.chain'_iff_pairwise.mp hchain
              exact (List.pairwise_cons.mp hp).1 k2 hk2
            omega
          obtain ⟨hd2, ids2, hinvf⟩ := ihr _ cur1 hd1 pre1 post1 (bf, es) hinv2
            hcur10 hbeforeR (List.Chain'.tail hchain) hrec
          exact ⟨hd2, ids2, hinvf⟩
      · rw [if_neg hcnt] at hrun
        have hinv2 : InvAt (b1.setN cur1 (cn1.Delete k).1) hd1
            (pre1 ++ cur1 :: post1) := by
          refine invAt_set_node hinv1 hcur10 hgcur1' hht hnn ?_ ?_ ?_ ?_
          · exact sortedItems_sublist hsubdata hs1
          · exact hitems2
          · intro _ hdat
            exfalso
            rw [Node.GetCount, hdat] at hcnt
            exact hcnt rfl
          · intro hdrop hmkt
            exfalso
            rw [hmk] at hmkt
            have hempty := hinv1.marked_tail_empty cur1 hdrop cn1 hgcur1' hmkt
            have hdel := node_delete_empty k (by rw [hempty]; rfl)
            rw [Node.GetCount] at hcnt
            rw [hdel] at hcnt
            dsimp only at hcnt
            rw [hempty] at hcnt
            exact hcnt rfl
        cases hrec : deleteLoop fuel (b1.setN cur1 (cn1.Delete k).1) cur1
            rest with
        | none =>
          rw [hrec] at hrun
          exact Option.noConfusion hrun
        | some pr =>
          rw [hrec] at hrun
          obtain ⟨bf, es⟩ := pr
          dsimp only at hrun
          cases hrun
          have hbeforeR : ∀ it ∈
              chainItems (b1.setN cur1 (cn1.Delete k).1).nodes pre1,
              ∀ k2 ∈ rest, it.key < k2 := by
            intro it hit k2 hk2
            rw [chainItems_setN_not_mem _ hcurpre1] at hit
            have h1 := hbef1 it hit
            have h2 : k ≤ k2 := by
              have hp := List.chain'_iff_pairwise.mp hchain
              exact (List.pairwise_cons.mp hp).1 k2 hk2
            omega
          obtain ⟨hd2, ids2, hinvf⟩ := ihr _ cur1 hd1 pre1 post1 (bf, es) hinv2
            hcur10 hbeforeR (List.Chain'.tail hchain) hrec
          exact ⟨hd2, ids2, hinvf⟩

theorem invAt_ch_tail {b : BowlT} {hd : Node} {ids : List Nat} {h0 : Nat}
    {rest : List Nat} (hch : b.ch = h0 :: rest) (hinv : InvAt b hd ids) :
    InvAt { b with ch := rest } hd ids := by
  refine ⟨hinv.hhd, hinv.hd_height, hinv.hd_data, hinv.hd_marked, hinv.chain,
    hinv.node_len, hinv.node_ht, hinv.node_sorted, hinv.active_in_chain,
    hinv.no_ptr_zero, hinv.marked_tail_empty, hinv.empty_active_sole, ?_,
    hinv.items_sorted⟩
  intro h hh
  refine hinv.ch_ok h ?_
  rw [hch]
  exact List.mem_cons_of_mem h0 hh

/-- What the insert fast path writes: for every level below `j` the current
node points to the new node and the new node inherits the current node's
old successor; nothing else changes. -/
theorem fastpath_spec (cur newId : Nat) (hne : cur ≠ newId) :
    ∀ (j : Nat) (b : BowlT) (c0 e0 : Node),
    b.getN cur = some c0 → b.getN newId = some e0 →
    j ≤ c0.height → j ≤ e0.height →
    c0.nextNodes.length = c0.height → e0.nextNodes.length = e0.height →
    ∃ c1 e1,
      (insertFastPathConnectNewNodeFromCurrent b cur newId j).getN cur
        = some c1 ∧
      (insertFastPathConnectNewNodeFromCurrent b cur newId j).getN newId
        = some e1 ∧
      (∀ m, m ≠ cur → m ≠ newId →
        (insertFastPathConnectNewNodeFromCurrent b cur newId j).getN m
          = b.getN m) ∧
      (insertFastPathConnectNewNodeFromCurrent b cur newId j).nodes.length
        = b.nodes.length ∧
      (insertFastPathConnectNewNodeFromCurrent b cur newId j).latest
        = b.latest ∧
      (insertFastPathConnectNewNodeFromCurrent b cur newId j).ch = b.ch ∧
      c1.data = c0.data ∧ c1.marked = c0.marked ∧ c1.height = c0.height ∧
      c1.nextNodes.length = c0.nextNodes.length ∧
      e1.data = e0.data ∧ e1.marked = e0.marked ∧ e1.height = e0.height ∧
      e1.nextNodes.length = e0.nextNodes.length ∧
      (∀ i, i < j → c1.nextNodes.getD i none = some newId) ∧
      (∀ i, j ≤ i → c1.nextNodes.getD i none = c0.nextNodes.getD i none) ∧
      (∀ i, i < j → e1.nextNodes.getD i none = c0.nextNodes.getD i none) ∧
      (∀ i, j ≤ i → e1.nextNodes.getD i none = e0.nextNodes.getD i none) := by
  intro j
  induction j with
  | zero =>
    intro b c0 e0 hgc hge _ _ _ _
    exact ⟨c0, e0, hgc, hge, fun m _ _ => rfl, rfl, rfl, rfl, rfl, rfl, rfl,
      rfl, rfl, rfl, rfl, rfl, fun i hi => absurd hi (by omega),
      fun i _ => rfl, fun i hi => absurd hi (by omega), fun i _ => rfl⟩
  | succ j ihj =>
    intro b c0 e0 hgc hge hjc hje hlc hle
    obtain ⟨c1, e1, hfc, hfe, hfo, hflen, hflat, hfch, hc1d, hc1m, hc1h, hc1l,
      he1d, he1m, he1h, he1l, hclo, hchi, helo, hehi⟩ :=
      ihj b c0 e0 hgc hge (by omega) (by omega) hlc hle
    rw [insertFastPathConnectNewNodeFromCurrent]
    set bj := insertFastPathConnectNewNodeFromCurrent b cur newId j with hbj
    have hnx : (match bj.getN cur with
        | none => none
        | some cn => (cn.GetNextNodeAt (j : Int)).1) =
        c0.nextNodes.getD j none := by
      rw [hfc]
      dsimp only
      have hrange : (c1.GetNextNodeAt (j : Int)) =
          (c1.nextNodes.getD (j : Int).toNat none, none) := by
        refine getNextNodeAt_in_range (by omega) ?_
        rw [hc1h]
        exact_mod_cast Nat.lt_of_lt_of_le (Nat.lt_succ_self j) hjc
      rw [hrange]
      show c1.nextNodes.getD (Int.toNat (j : Int)) none = _
      rw [Int.toNat_natCast]
      exact hchi j (le_refl j)
    rw [hnx]
    -- connect newId at level j to c0's old successor
    have hje1 : ((j : Int)) < (e1.height : Int) := by
      rw [he1h]
      exact_mod_cast Nat.lt_of_lt_of_le (Nat.lt_succ_self j) hje
    have htn : (j : Int).toNat = j := Int.toNat_natCast j
    have hconn1 : bj.connectIgnore newId (j : Int) (c0.nextNodes.getD j none) =
        bj.setN newId
          { e1 with nextNodes := e1.nextNodes.set j (c0.nextNodes.getD j none) } := by
      rw [connectIgnore_in_range hfe (by omega) hje1, htn]
    rw [hconn1]
    set e2 : Node :=
      { e1 with nextNodes := e1.nextNodes.set j (c0.nextNodes.getD j none) } with he2
    set b2 : BowlT := bj.setN newId e2 with hb2
    have hg2c : b2.getN cur = some c1 := by
      rw [hb2, getN_setN_ne _ (Ne.symm hne)]
      exact hfc
    have hjc1 : ((j : Int)) < (c1.height : Int) := by
      rw [hc1h]
      exact_mod_cast Nat.lt_of_lt_of_le (Nat.lt_succ_self j) hjc
    have hconn2 : b2.connectIgnore cur (j : Int) (some newId) =
        b2.setN cur
          { c1 with nextNodes := c1.nextNodes.set j (some newId) } := by
      rw [connectIgnore_in_range hg2c (by omega) hjc1, htn]
    rw [hconn2]
    set c2 : Node :=
      { c1 with nextNodes := c1.nextNodes.set j (some newId) } with hc2
    refine ⟨c2, e2, ?_, ?_, ?_, ?_, ?_, ?_, hc1d, hc1m, hc1h, ?_, he1d, he1m,
      he1h, ?_, ?_, ?_, ?_, ?_⟩
    · refine getN_setN_self c2 ?_
      rw [hb2, setN_length]
      exact getN_some_lt hfc
    · rw [getN_setN_ne _ hne, hb2]
      exact getN_setN_self e2 (getN_some_lt hfe)
    · intro m hmc hmn
      rw [getN_setN_ne _ (Ne.symm hmc), hb2, getN_setN_ne _ (Ne.symm hmn)]
      exact hfo m hmc hmn
    · rw [setN_length, hb2, setN_length, hflen]
    · show (bj.setN newId e2).latest = b.latest
      rw [BowlT.setN]
      exact hflat
    · show (bj.setN newId e2).ch = b.ch
      rw [BowlT.setN]
      exact hfch
    · rw [hc2]
      simp only [List.length_set]
      exact hc1l
    · rw [he2]
      simp only [List.length_set]
      exact he1l
    · intro i hi
      rw [hc2]
      by_cases hij : i = j
      · subst hij
        refine getD_set_self ?_
        rw [hc1l, hlc]
        omega
      · rw [getD_set_ne (fun hc => hij hc.symm)]
        exact hclo i (by omega)
    · intro i hi
      rw [hc2]
      rw [getD_set_ne (by omega)]
      exact hchi i (by omega)
    · intro i hi
      rw [he2]
      by_cases hij : i = j
      · subst hij
        refine getD_set_self ?_
        rw [he1l, hle]
        omega
      · rw [getD_set_ne (fun hc => hij hc.symm)]
        exact helo i (by omega)
    · intro i hi
      rw [he2]
      rw [getD_set_ne (by omega)]
      exact hehi i (by omega)

/-- The connect-taller loop only rewrites pointers at levels `≥ 1` to a
non-head target: shapes, level-0 pointers and the no-pointer-to-head
property all survive. -/
theorem connectUntilAux_pres (target : Nat) (htg : target ≠ 0) :
    ∀ (steps : Nat) (b : BowlT) (h toH : Int) (b2 : BowlT),
    1 ≤ toH →
    (∀ j n (lvl : Nat), b.getN j = some n → n.nextNodes.getD lvl none ≠ some 0) →
    connectUntilAux target b h toH steps = some b2 →
    storePres b b2 ∧ b2.nodes.length = b.nodes.length ∧ b2.ch = b.ch ∧
    (∀ j n n', b.getN j = some n → b2.getN j = some n' → next0 n' = next0 n) ∧
    (∀ j n (lvl : Nat), b2.getN j = some n →
      n.nextNodes.getD lvl none ≠ some 0) := by
  intro steps
  induction steps with
  | zero =>
    intro b h toH b2 _ hpz hrun
    rw [connectUntilAux] at hrun
    cases hrun
    refine ⟨storePres_refl b, rfl, rfl, ?_, hpz⟩
    intro j n n' hg hg'
    rw [hg] at hg'
    cases hg'
    rfl
  | succ steps ihs =>
    intro b h toH b2 htoH hpz hrun
    rw [connectUntilAux] at hrun
    by_cases hlt : h < toH
    · rw [if_pos hlt] at hrun
      cases hrun
      refine ⟨storePres_refl b, rfl, rfl, ?_, hpz⟩
      intro j n n' hg hg'
      rw [hg] at hg'
      cases hg'
      rfl
    · rw [if_neg hlt] at hrun
      rw [if_neg (by omega)] at hrun
      cases hlid : b.latest.get? h.toNat with
      | none =>
        rw [hlid] at hrun
        exact Option.noConfusion hrun
      | some olid =>
        rw [hlid] at hrun
        cases olid with
        | none =>
          dsimp only at hrun
          exact Option.noConfusion hrun
        | some lid =>
          dsimp only at hrun
          cases hgl : b.getN lid with
          | none =>
            rw [hgl] at hrun
            exact Option.noConfusion hrun
          | some ln =>
            rw [hgl] at hrun
            dsimp only at hrun
            by_cases hoob : h < 0 ∨ (ln.height : Int) ≤ h
            · exfalso
              have : ln.ConnectNode h (some target) =
                  (ln, some Err.HeightOutsideRange) := by
                unfold Node.ConnectNode
                rw [if_pos hoob]
              rw [this] at hrun
              dsimp only at hrun
              simp only [Option.isSome_some, if_true] at hrun
              exact Option.noConfusion hrun
            · have hconn : ln.ConnectNode h (some target) =
                  ({ ln with nextNodes :=
                    ln.nextNodes.set h.toNat (some target) }, none) := by
                unfold Node.ConnectNode
                rw [if_neg hoob]
              rw [hconn] at hrun
              dsimp only at hrun
              simp only [Option.isSome_none, Bool.false_eq_true, if_false]
                at hrun
              push_neg at hoob
              set ln2 : Node :=
                { ln with nextNodes := ln.nextNodes.set h.toNat (some target) }
                with hln2
              have hpres1 : storePres b (b.setN lid ln2) := by
                intro j n hg
                by_cases hj : j = lid
                · subst hj
                  rw [hgl] at hg
                  cases hg
                  refine ⟨ln2, getN_setN_self ln2 (getN_some_lt hgl), ?_, rfl,
                    rfl, ?_⟩
                  · rw [hln2]
                  · rw [hln2]
                    simp [List.length_set]
                · exact ⟨n, by rw [getN_setN_ne _ (Ne.symm hj)]; exact hg,
                    rfl, rfl, rfl, rfl⟩
              have hnext1 : ∀ j n n', b.getN j = some n →
                  (b.setN lid ln2).getN j = some n' → next0 n' = next0 n := by
                intro j n n' hg hg'
                by_cases hj : j = lid
                · subst hj
                  rw [getN_setN_self ln2 (getN_some_lt hgl)] at hg'
                  cases hg'
                  rw [hgl] at hg
                  cases hg
                  rw [hln2]
                  unfold next0
                  exact getD_set_ne (by omega)
                · rw [getN_setN_ne _ (Ne.symm hj)] at hg'
                  rw [hg] at hg'
                  cases hg'
                  rfl
              have hpz1 : ∀ j n (lvl : Nat), (b.setN lid ln2).getN j = some n →
                  n.nextNodes.getD lvl none ≠ some 0 := by
                intro j n lvl hg
                by_cases hj : j = lid
                · subst hj
                  rw [getN_setN_self ln2 (getN_some_lt hgl)] at hg
                  cases hg
                  rw [hln2]
                  by_cases hl : lvl = h.toNat
                  · subst hl
                    by_cases hlen : h.toNat < ln.nextNodes.length
                    · rw [getD_set_self hlen]
                      intro hc
                      exact htg ((Option.some.injEq _ _).mp hc)
                    · rw [List.set_eq_of_length_le (by omega)]
                      exact hpz _ ln _ hgl
                  · rw [getD_set_ne (fun hc => hl hc.symm)]
                    exact hpz _ ln lvl hgl
                · rw [getN_setN_ne _ (Ne.symm hj)] at hg
                  exact hpz j n lvl hg
              obtain ⟨hsp2, hlen2, hch2, hn02, hpz2⟩ :=
                ihs (b.setN lid ln2) (h - 1) toH b2 htoH hpz1 hrun
              refine ⟨storePres_trans hpres1 hsp2, by rw [hlen2, setN_length],
                ?_, ?_, hpz2⟩
              · rw [hch2]
                rfl
              · intro j n n' hg hg'
                obtain ⟨nm, hgm, _, _, _, _⟩ := hpres1 j n hg
                have e1 := hnext1 j n nm hg hgm
                have e2 := hn02 j nm n' hgm hg'
                rw [e2, e1]

theorem mem_mid_insert {pre post : List Nat} {cur newId j : Nat}
    (hj : j ∈ pre ++ cur :: post) : j ∈ pre ++ cur :: newId :: post := by
  rcases List.mem_append.mp hj with h | h
  · exact List.mem_append.mpr (Or.inl h)
  · rcases List.mem_cons.mp h with rfl | h2
    · exact List.mem_append.mpr (Or.inr (List.mem_cons_self j _))
    · exact List.mem_append.mpr (Or.inr (List.mem_cons_of_mem cur
        (List.mem_cons_of_mem newId h2)))

theorem mem_drop_one_mid {pre post : List Nat} {cur newId j : Nat}
    (hj : j ∈ (pre ++ cur :: newId :: post).drop 1) (hne : j ≠ newId) :
    j ∈ (pre ++ cur :: post).drop 1 := by
  cases pre with
  | nil =>
    simp only [List.nil_append, List.drop_one, List.tail_cons] at hj ⊢
    rcases List.mem_cons.mp hj with rfl | h2
    · exact absurd rfl hne
    · exact h2
  | cons p ps =>
    simp only [List.cons_append, List.drop_one, List.tail_cons] at hj ⊢
    rcases List.mem_append.mp hj with h | h
    · exact List.mem_append.mpr (Or.inl h)
    · rcases List.mem_cons.mp h with rfl | h2
      · exact List.mem_append.mpr (Or.inr (List.mem_cons_self j post))
      · rcases List.mem_cons.mp h2 with rfl | h3
        · exact absurd rfl hne
        · exact List.mem_append.mpr (Or.inr (List.mem_cons_of_mem cur h3))

/-- The invariant after a split plus fast-path reconnection: the new node
slots into the chain right after the split node, carrying the upper half of
its items. -/
theorem invAt_split {b bF : BowlT} {hd : Node} {pre post : List Nat}
    {cur newId : Nat} {cn c1 e1 : Node} {newHeight : Nat}
    (hinv : InvAt b hd (pre ++ cur :: post))
    (hcur0 : cur ≠ 0)
    (hgcur : b.getN cur = some cn)
    (hFcur : bF.getN cur = some c1)
    (hFnew : bF.getN newId = some e1)
    (hFother : ∀ m, m ≠ cur → m ≠ newId → bF.getN m = b.getN m)
    (hnewId_len : newId = b.nodes.length)
    (hFlen : bF.nodes.length = b.nodes.length + 1)
    (hFch : bF.ch = b.ch)
    (hc1data : c1.data = cn.data.take (cn.data.length / 2))
    (hc1mk : c1.marked = cn.marked)
    (hc1ht : c1.height = cn.height)
    (hc1len : c1.nextNodes.length = cn.nextNodes.length)
    (hc1lo : c1.nextNodes.getD 0 none = some newId)
    (hc1pz : ∀ i : Nat, c1.nextNodes.getD i none ≠ some 0)
    (he1data : e1.data = cn.data.drop (cn.data.length / 2))
    (he1mk : e1.marked = false)
    (he1ht : e1.height = newHeight)
    (he1len : e1.nextNodes.length = newHeight)
    (he1lo : e1.nextNodes.getD 0 none = cn.nextNodes.getD 0 none)
    (he1pz : ∀ i : Nat, e1.nextNodes.getD i none ≠ some 0)
    (hnh1 : 1 ≤ newHeight) (hnh64 : newHeight ≤ MAX_HEIGHT)
    (hlen32 : cn.data.length = NODE_SIZE) :
    InvAt bF hd (pre ++ cur :: newId :: post) := by
  have hfresh : ∀ j, j ∈ pre ++ cur :: post → j ≠ newId := by
    intro j hj hc
    obtain ⟨n, hgn⟩ := chainSeg_mem_get hinv.chain j hj
    have := getN_some_lt hgn
    omega
  have hnodup : (pre ++ cur :: post).Nodup := chainSeg_nodup hinv.chain
  have hcur_pre : cur ∉ pre := by
    intro hmem
    rcases List.nodup_append.mp hnodup with ⟨_, _, hdj⟩
    exact hdj hmem (List.mem_cons_self cur post)
  have hcur_post : cur ∉ post := by
    rcases List.nodup_append.mp hnodup with ⟨_, hnd2, _⟩
    exact (List.nodup_cons.mp hnd2).1
  have hnewId0 : newId ≠ 0 := by
    have := getN_some_lt hinv.hhd
    omega
  have hcurmem : cur ∈ pre ++ cur :: post :=
    List.mem_append.mpr (Or.inr (List.mem_cons_self cur post))
  have hcur_ne_new : cur ≠ newId := hfresh cur hcurmem
  have hg0 : bF.getN 0 = some hd := by
    rw [hFother 0 (Ne.symm hcur0) (Ne.symm hnewId0)]
    exact hinv.hhd
  have htake_ne : c1.data ≠ [] := by
    rw [hc1data]
    intro hc
    have := congrArg List.length hc
    simp only [List.length_take, List.length_nil] at this
    rw [hlen32] at this
    rw [NODE_SIZE] at this
    omega
  have hdrop_ne : e1.data ≠ [] := by
    rw [he1data]
    intro hc
    have := congrArg List.length hc
    simp only [List.length_drop, List.length_nil] at this
    rw [hlen32] at this
    rw [NODE_SIZE] at this
    omega
  -- decompose the old chain at the cursor
  obtain ⟨m, hcpre, hccur⟩ := chainSeg_append_iff.mp hinv.chain
  obtain ⟨hm_eq, cn', hgcur'', htl⟩ := chainSeg_cons_inv hccur
  subst hm_eq
  have hcn' : cn' = cn := by
    have hx : b.getN cur = some cn' := hgcur''
    rw [hgcur] at hx
    exact ((Option.some.injEq _ _).mp hx.symm)
  rw [hcn'] at htl
  refine ⟨hg0, hinv.hd_height, hinv.hd_data, hinv.hd_marked, ?_, ?_, ?_, ?_,
    ?_, ?_, ?_, ?_, ?_, ?_⟩
  · -- the new chain
    refine chainSeg_append_iff.mpr ⟨some cur, ?_, ?_⟩
    · refine chainSeg_congr hcpre ?_
      intro j hj n hgj
      refine ⟨n, ?_, rfl⟩
      have hjc : j ≠ cur := fun hc => hcur_pre (hc ▸ hj)
      have hjn : j ≠ newId := hfresh j (List.mem_append.mpr (Or.inl hj))
      have := hFother j hjc hjn
      rw [BowlT.getN, BowlT.getN] at this
      rw [this]
      exact hgj
    · refine ChainSeg.cons hFcur ?_
      have hnc1 : next0 c1 = some newId := hc1lo
      rw [hnc1]
      refine ChainSeg.cons hFnew ?_
      have hne1 : next0 e1 = next0 cn := he1lo
      rw [hne1]
      refine chainSeg_congr htl ?_
      intro j hj n hgj
      refine ⟨n, ?_, rfl⟩
      have hjc : j ≠ cur := fun hc => hcur_post (hc ▸ hj)
      have hjn : j ≠ newId := hfresh j
        (List.mem_append.mpr (Or.inr (List.mem_cons_of_mem cur hj)))
      have := hFother j hjc hjn
      rw [BowlT.getN, BowlT.getN] at this
      rw [this]
      exact hgj
  · intro j n hg
    by_cases hjc : j = cur
    · subst hjc
      rw [hFcur] at hg
      cases hg
      rw [hc1len, hc1ht]
      exact hinv.node_len j cn hgcur
    · by_cases hjn : j = newId
      · subst hjn
        rw [hFnew] at hg
        cases hg
        rw [he1len, he1ht]
      · rw [hFother j hjc hjn] at hg
        exact hinv.node_len j n hg
  · intro j n hg
    by_cases hjc : j = cur
    · subst hjc
      rw [hFcur] at hg
      cases hg
      rw [hc1ht]
      exact hinv.node_ht j cn hgcur
    · by_cases hjn : j = newId
      · subst hjn
        rw [hFnew] at hg
        cases hg
        rw [he1ht]
        exact ⟨hnh1, hnh64⟩
      · rw [hFother j hjc hjn] at hg
        exact hinv.node_ht j n hg
  · intro j n hg
    by_cases hjc : j = cur
    · subst hjc
      rw [hFcur] at hg
      cases hg
      rw [hc1data]
      exact sortedItems_sublist (List.take_sublist _ _)
        (hinv.node_sorted j cn hgcur)
    · by_cases hjn : j = newId
      · subst hjn
        rw [hFnew] at hg
        cases hg
        rw [he1data]
        exact sortedItems_sublist (List.drop_sublist _ _)
          (hinv.node_sorted cur cn hgcur)
      · rw [hFother j hjc hjn] at hg
        exact hinv.node_sorted j n hg
  · intro j n hg hmkj
    by_cases hjc : j = cur
    · subst hjc
      right
      exact List.mem_append.mpr (Or.inr (List.mem_cons_self j _))
    · by_cases hjn : j = newId
      · subst hjn
        right
        exact List.mem_append.mpr (Or.inr (List.mem_cons_of_mem cur
          (List.mem_cons_self j post)))
      · rw [hFother j hjc hjn] at hg
        rcases hinv.active_in_chain j n hg hmkj with h0 | hmem
        · exact Or.inl h0
        · exact Or.inr (mem_mid_insert hmem)
  · intro j n lvl hg
    by_cases hjc : j = cur
    · subst hjc
      rw [hFcur] at hg
      cases hg
      exact hc1pz lvl
    · by_cases hjn : j = newId
      · subst hjn
        rw [hFnew] at hg
        cases hg
        exact he1pz lvl
      · rw [hFother j hjc hjn] at hg
        exact hinv.no_ptr_zero j n lvl hg
  · intro j hj n hg hmkj
    by_cases hjc : j = cur
    · subst hjc
      exfalso
      rw [hFcur] at hg
      cases hg
      rw [hc1mk] at hmkj
      -- the split node was marked: it must have been a non-first marked
      -- node, hence empty — contradicting fullness
      have hjdrop : j ∈ (pre ++ j :: post).drop 1 := by
        cases hpre : pre with
        | nil =>
          exfalso
          rw [hpre] at hj
          simp only [List.nil_append, List.drop_one, List.tail_cons] at hj
          rcases List.mem_cons.mp hj with hcc | hcc
          · exact hcur_ne_new hcc
          · exact hcur_post hcc
        | cons p ps =>
          simp only [List.cons_append, List.drop_one, List.tail_cons]
          exact List.mem_append.mpr (Or.inr (List.mem_cons_self j post))
      have hempty := hinv.marked_tail_empty j hjdrop cn hgcur hmkj
      rw [hempty] at hlen32
      rw [NODE_SIZE] at hlen32
      simp at hlen32
    · by_cases hjn : j = newId
      · subst hjn
        rw [hFnew] at hg
        cases hg
        rw [he1mk] at hmkj
        exact Bool.noConfusion hmkj
      · rw [hFother j hjc hjn] at hg
        exact hinv.marked_tail_empty j (mem_drop_one_mid hj hjn) n hg hmkj
  · intro j hj n hg hmkj hdatj
    by_cases hjc : j = cur
    · subst hjc
      rw [hFcur] at hg
      cases hg
      exact absurd hdatj htake_ne
    · by_cases hjn : j = newId
      · subst hjn
        rw [hFnew] at hg
        cases hg
        exact absurd hdatj hdrop_ne
      · rw [hFother j hjc hjn] at hg
        have hsole := hinv.empty_active_sole j (by
          rcases List.mem_append.mp hj with h | h
          · exact List.mem_append.mpr (Or.inl h)
          · rcases List.mem_cons.mp h with rfl | h2
            · exact absurd rfl hjc
            · rcases List.mem_cons.mp h2 with rfl | h3
              · exact absurd rfl hjn
              · exact List.mem_append.mpr (Or.inr (List.mem_cons_of_mem cur h3)))
          n hg hmkj hdatj
        exfalso
        have : cur ∈ pre ++ cur :: post := hcurmem
        rw [hsole] at this
        exact hjc (List.mem_singleton.mp this).symm
  · intro h hh
    rw [hFch] at hh
    exact hinv.ch_ok h hh
  · have heq : chainItems bF.nodes (pre ++ cur :: newId :: post) =
        chainItems b.nodes pre ++
          (c1.data ++ (e1.data ++ chainItems b.nodes post)) := by
      rw [chainItems_append]
      congr 1
      · refine chainItems_congr ?_
        intro j hj
        unfold dataAt
        have hjc : j ≠ cur := fun hc => hcur_pre (hc ▸ hj)
        have hjn : j ≠ newId := hfresh j (List.mem_append.mpr (Or.inl hj))
        have := hFother j hjc hjn
        rw [BowlT.getN, BowlT.getN] at this
        rw [this]
      · show dataAt bF.nodes cur ++ (dataAt bF.nodes newId ++ _) = _
        unfold dataAt
        rw [show bF.nodes.get? cur = some c1 from hFcur,
          show bF.nodes.get? newId = some e1 from hFnew]
        congr 2
        refine chainItems_congr ?_
        intro j hj
        unfold dataAt
        have hjc : j ≠ cur := fun hc => hcur_post (hc ▸ hj)
        have hjn : j ≠ newId := hfresh j
          (List.mem_append.mpr (Or.inr (List.mem_cons_of_mem cur hj)))
        have := hFother j hjc hjn
        rw [BowlT.getN, BowlT.getN] at this
        rw [this]
    rw [heq, hc1data, he1data, ← List.append_assoc
      (cn.data.take (cn.data.length / 2)), List.take_append_drop]
    have hold : chainItems b.nodes (pre ++ cur :: post) =
        chainItems b.nodes pre ++ (cn.data ++ chainItems b.nodes post) :=
      chainItems_decomp hgcur
    rw [← hold]
    exact hinv.items_sorted

theorem chainItems_eq_of_getN {b b' : BowlT} {l : List Nat}
    (h : ∀ j, j ∈ l → b'.getN j = b.getN j) :
    chainItems b'.nodes l = chainItems b.nodes l := by
  refine chainItems_congr ?_
  intro j hj
  unfold dataAt
  have hx := h j hj
  rw [BowlT.getN, BowlT.getN] at hx
  rw [hx]

/-- The per-item loop of `Insert` preserves the invariant, including across
node splits. -/
theorem insertLoop_spec (fuel : Nat) :
    ∀ (items : List Item) (b : BowlT) (cur : Nat) (hd : Node)
      (pre post : List Nat) (res : BowlT × List (Option Err)),
    InvAt b hd (pre ++ cur :: post) →
    cur ≠ 0 →
    (∀ it ∈ chainItems b.nodes pre, ∀ x ∈ items, it.key < x.key) →
    (items.map Item.key).Chain' (· ≤ ·) →
    (∀ cn, b.getN cur = some cn → cn.marked = true → pre = []) →
    insertLoop fuel b cur items = some res →
    ∃ hd2 ids2, InvAt res.1 hd2 ids2 := by
  intro items
  induction items with
  | nil =>
    intro b cur hd pre post res hinv _ _ _ _ hrun
    rw [insertLoop] at hrun
    cases hrun
    exact ⟨hd, pre ++ cur :: post, hinv⟩
  | cons ih rest ihr =>
    intro b cur hd pre post res hinv hcur0 hbefore hchain hmkfirst hrun
    rw [insertLoop] at hrun
    cases hgc : getCorrectNode b ih.key cur fuel with
    | none =>
      rw [hgc] at hrun
      exact Option.noConfusion hrun
    | some pair =>
      rw [hgc] at hrun
      obtain ⟨b1, cur1⟩ := pair
      dsimp only at hrun
      obtain ⟨hd1, pre1, post1, hinv1, hcur10, hbef1, haft1, hsp1, hdisj1⟩ :=
        getCorrectNode_spec ih.key fuel b cur hd pre post (b1, cur1) hinv hcur0
          (fun it hit => hbefore it hit ih (List.mem_cons_self ih rest)) hgc
      replace hinv1 : InvAt b1 hd1 (pre1 ++ cur1 :: post1) := hinv1
      replace hcur10 : cur1 ≠ 0 := hcur10
      replace hbef1 : ∀ it ∈ chainItems b1.nodes pre1, it.key < ih.key := hbef1
      replace haft1 : ∀ it ∈ chainItems b1.nodes post1, ih.key < it.key := haft1
      replace hsp1 : storePres b b1 := hsp1
      replace hdisj1 : (∃ nn, b1.getN cur1 = some nn ∧ nn.marked = false) ∨
        (cur1 = cur ∧ pre1 = pre) := hdisj1
      obtain ⟨cn1, hgcur1⟩ := chainSeg_mem_get hinv1.chain cur1
        (List.mem_append.mpr (Or.inr (List.mem_cons_self cur1 post1)))
      have hgcur1' : b1.getN cur1 = some cn1 := hgcur1
      rw [hgcur1'] at hrun
      dsimp only at hrun
      have hs1sorted : sortedItems cn1.data := hinv1.node_sorted cur1 cn1 hgcur1'
      have hnodup1 : (pre1 ++ cur1 :: post1).Nodup := chainSeg_nodup hinv1.chain
      have hcurpre1 : cur1 ∉ pre1 := by
        intro hmem
        rcases List.nodup_append.mp hnodup1 with ⟨_, _, hdj⟩
        exact hdj hmem (List.mem_cons_self cur1 post1)
      have hcurpost1 : cur1 ∉ post1 := by
        rcases List.nodup_append.mp hnodup1 with ⟨_, hnd2, _⟩
        exact (List.nodup_cons.mp hnd2).1
      have hmkfirst1 : cn1.marked = true → pre1 = [] := by
        intro hmk
        rcases hdisj1 with ⟨nn, hgnn, hnmk⟩ | ⟨hcureq, hpreeq⟩
        · rw [hgcur1'] at hgnn
          cases hgnn
          rw [hmk] at hnmk
          exact Bool.noConfusion hnmk
        · obtain ⟨cn0, hgcn0⟩ := chainSeg_mem_get hinv.chain cur
            (List.mem_append.mpr (Or.inr (List.mem_cons_self cur post)))
          have hgcn0' : b.getN cur = some cn0 := hgcn0
          obtain ⟨n', hgn', hd', hm', hh', hl'⟩ := hsp1 cur cn0 hgcn0'
          rw [hcureq] at hgcur1'
          rw [hgn'] at hgcur1'
          have hn' : n' = cn1 := (Option.some.injEq _ _).mp hgcur1'
          rw [hn'] at hm'
          rw [hpreeq]
          exact hmkfirst cn0 hgcn0' (by rw [← hm', hmk])
      have hrestle : ∀ x ∈ rest, ih.key ≤ x.key := by
        intro x hx
        have hp := List.chain'_iff_pairwise.mp hchain
        rw [List.map_cons] at hp
        exact (List.pairwise_cons.mp hp).1 x.key (List.mem_map_of_mem Item.key hx)
      by_cases hfull : (cn1.Insert ih).2 = some Err.NodeIsFull
      · rw [if_pos hfull] at hrun
        rw [node_insert_err hfull] at hrun
        have hb1'eq : b1.setN cur1 cn1 = b1 := by
          rw [BowlT.setN, list_set_get_self_gen _ _ _ hgcur1]
        rw [hb1'eq] at hrun
        obtain ⟨hlen32, habsent⟩ := node_insert_full hs1sorted hfull
        cases hch1 : b1.ch with
        | nil =>
          rw [hch1] at hrun
          exact Option.noConfusion hrun
        | cons newHeight restCh =>
          rw [hch1] at hrun
          dsimp only at hrun
          rw [show ({ b1 with ch := restCh } : BowlT).getN cur1 = some cn1
            from hgcur1'] at hrun
          dsimp only at hrun
          set s1 := (cn1.SplitIntoNewNode newHeight).1 with hs1def
          set s2 := (cn1.SplitIntoNewNode newHeight).2 with hs2def
          set newId := b1.nodes.length with hnewIddef
          set minH := if newHeight > cn1.height then cn1.height else newHeight
            with hminHdef
          set bS : BowlT :=
            { nodes := b1.nodes.set cur1 s1 ++ [s2], latest := b1.latest,
              ch := restCh } with hbSdef
          have hcurlt : cur1 < b1.nodes.length := getN_some_lt hgcur1'
          have hlen0 : 0 < b1.nodes.length := getN_some_lt hinv1.hhd
          have hnewId0 : newId ≠ 0 := by
            rw [hnewIddef]
            omega
          have hcurnew : cur1 ≠ newId := by
            rw [hnewIddef]
            omega
          have hcn1ht := hinv1.node_ht cur1 cn1 hgcur1'
          have hcn1len : cn1.nextNodes.length = cn1.height :=
            hinv1.node_len cur1 cn1 hgcur1'
          have hnh := hinv1.ch_ok newHeight (by
            rw [hch1]
            exact List.mem_cons_self _ _)
          have hfresh1 : ∀ j, j ∈ pre1 ++ cur1 :: post1 → j ≠ newId := by
            intro j hj hc
            obtain ⟨n, hgn⟩ := chainSeg_mem_get hinv1.chain j hj
            have hlt := getN_some_lt (show b1.getN j = some n from hgn)
            rw [hnewIddef] at hc
            omega
          have hminle1 : minH ≤ cn1.height := by
            rw [hminHdef]
            by_cases hx : newHeight > cn1.height
            · rw [if_pos hx]
            · rw [if_neg hx]
              omega
          have hminle2 : minH ≤ newHeight := by
            rw [hminHdef]
            by_cases hx : newHeight > cn1.height
            · rw [if_pos hx]
              omega
            · rw [if_neg hx]
          have hminpos : 0 < minH := by
            rw [hminHdef]
            by_cases hx : newHeight > cn1.height
            · rw [if_pos hx]
              omega
            · rw [if_neg hx]
              omega
          have hs1data : s1.data = cn1.data.take (cn1.data.length / 2) := by
            rw [hs1def, Node.SplitIntoNewNode]
          have hs1mk : s1.marked = cn1.marked := by
            rw [hs1def, Node.SplitIntoNewNode]
          have hs1ht : s1.height = cn1.height := by
            rw [hs1def, Node.SplitIntoNewNode]
          have hs1nn : s1.nextNodes = cn1.nextNodes := by
            rw [hs1def, Node.SplitIntoNewNode]
          have hs2mk : s2.marked = false := by
            rw [hs2def, Node.SplitIntoNewNode]
            rfl
          have hs2ht : s2.height = newHeight := by
            rw [hs2def, Node.SplitIntoNewNode]
            rfl
          have hs2nn : s2.nextNodes = List.replicate newHeight none := by
            rw [hs2def, Node.SplitIntoNewNode]
            rfl
          have hs2data : s2.data = cn1.data.drop (cn1.data.length / 2) := by
            rw [hs2def, Node.SplitIntoNewNode]
            show (cn1.data.drop (cn1.data.length / 2)).take
              (cn1.data.length - cn1.data.length / 2) = _
            rw [show cn1.data.length - cn1.data.length / 2 =
              (cn1.data.drop (cn1.data.length / 2)).length by
                rw [List.length_drop]]
            exact List.take_length _
          have hgSc : bS.getN cur1 = some s1 := by
            rw [hbSdef]
            show (b1.nodes.set cur1 s1 ++ [s2]).get? cur1 = some s1
            rw [get?_append_singleton_ne _ _ _ (by
              rw [List.length_set]
              omega)]
            exact getN_setN_self s1 hcurlt
          have hgSe : bS.getN newId = some s2 := by
            rw [hbSdef]
            show (b1.nodes.set cur1 s1 ++ [s2]).get? newId = some s2
            rw [hnewIddef, show b1.nodes.length = (b1.nodes.set cur1 s1).length
              from (List.length_set _ _ _).symm]
            exact List.get?_concat_length _ _
          have hSother : ∀ m, m ≠ cur1 → m ≠ newId → bS.getN m = b1.getN m := by
            intro m h1 h2
            rw [hbSdef]
            show (b1.nodes.set cur1 s1 ++ [s2]).get? m = b1.nodes.get? m
            rw [get?_append_singleton_ne _ _ _ (by
              rw [List.length_set]
              rw [hnewIddef] at h2
              exact h2)]
            exact getN_setN_ne s1 (Ne.symm h1)
          have hSlen : bS.nodes.length = b1.nodes.length + 1 := by
            rw [hbSdef]
            show (b1.nodes.set cur1 s1 ++ [s2]).length = _
            rw [List.length_append, List.length_set]
            rfl
          obtain ⟨c1, e1, hfc, hfe, hfo, hflen, hflat, hfch, hc1d, hc1m, hc1h,
            hc1l, he1d, he1m, he1h, he1l, hclo, hchi, helo, hehi⟩ :=
            fastpath_spec cur1 newId hcurnew minH bS s1 s2 hgSc hgSe
              (by rw [hs1ht]; exact hminle1) (by rw [hs2ht]; exact hminle2)
              (by rw [hs1nn, hs1ht]; exact hcn1len)
              (by rw [hs2nn, hs2ht]; exact List.length_replicate _ _)
          set bF := insertFastPathConnectNewNodeFromCurrent bS cur1 newId minH
            with hbFdef
          have hinvT : InvAt { b1 with ch := restCh } hd1
              (pre1 ++ cur1 :: post1) := invAt_ch_tail hch1 hinv1
          have hc1data : c1.data = cn1.data.take (cn1.data.length / 2) :=
            hc1d.trans hs1data
          have hc1mk : c1.marked = cn1.marked := hc1m.trans hs1mk
          have hc1ht : c1.height = cn1.height := hc1h.trans hs1ht
          have hc1len : c1.nextNodes.length = cn1.nextNodes.length := by
            rw [hc1l, hs1nn]
          have hc1lo : c1.nextNodes.getD 0 none = some newId := hclo 0 hminpos
          have hc1pz : ∀ i : Nat, c1.nextNodes.getD i none ≠ some 0 := by
            intro i
            rcases Nat.lt_or_ge i minH with hi | hi
            · rw [hclo i hi]
              intro hc
              exact hnewId0 ((Option.some.injEq _ _).mp hc)
            · rw [hchi i hi, hs1nn]
              exact hinv1.no_ptr_zero cur1 cn1 i hgcur1'
          have he1data : e1.data = cn1.data.drop (cn1.data.length / 2) :=
            he1d.trans hs2data
          have he1mk : e1.marked = false := he1m.trans hs2mk
          have he1ht : e1.height = newHeight := he1h.trans hs2ht
          have he1len : e1.nextNodes.length = newHeight := by
            rw [he1l, hs2nn]
            exact List.length_replicate _ _
          have he1lo : e1.nextNodes.getD 0 none =
              cn1.nextNodes.getD 0 none := by
            rw [helo 0 hminpos, hs1nn]
          have he1pz : ∀ i : Nat, e1.nextNodes.getD i none ≠ some 0 := by
            intro i
            rcases Nat.lt_or_ge i minH with hi | hi
            · rw [helo i hi, hs1nn]
              exact hinv1.no_ptr_zero cur1 cn1 i hgcur1'
            · rw [hehi i hi, hs2nn, getD_replicate_none]
              intro hc
              exact Option.noConfusion hc
          have hinvF : InvAt bF hd1 (pre1 ++ cur1 :: newId :: post1) :=
            invAt_split hinvT hcur10 hgcur1' hfc hfe
              (fun m h1 h2 => (hfo m h1 h2).trans (hSother m h1 h2))
              hnewIddef (by rw [hflen, hSlen]) (by rw [hfch, hbSdef])
              hc1data hc1mk hc1ht hc1len hc1lo hc1pz
              he1data he1mk he1ht he1len he1lo he1pz hnh.1 hnh.2 hlen32
          set bL := setLatestPointingNodes bF cur1 with hbLdef
          have hinvL : InvAt bL hd1 (pre1 ++ cur1 :: newId :: post1) :=
            invAt_setLatest cur1 hinvF
          have hgLc : bL.getN cur1 = some c1 := by
            show (setLatestPointingNodes bF cur1).getN cur1 = some c1
            rw [BowlT.getN, setLatest_nodes]
            exact hfc
          have hgLe : bL.getN newId = some e1 := by
            show (setLatestPointingNodes bF cur1).getN newId = some e1
            rw [BowlT.getN, setLatest_nodes]
            exact hfe
          have hpreL : chainItems bL.nodes pre1 = chainItems b1.nodes pre1 := by
            show chainItems (setLatestPointingNodes bF cur1).nodes pre1 = _
            rw [setLatest_nodes]
            refine chainItems_eq_of_getN ?_
            intro j hj
            have hjc : j ≠ cur1 := fun hc => hcurpre1 (hc ▸ hj)
            have hjn : j ≠ newId := hfresh1 j (List.mem_append.mpr (Or.inl hj))
            exact (hfo j hjc hjn).trans (hSother j hjc hjn)
          have hpostL : chainItems bL.nodes post1 =
              chainItems b1.nodes post1 := by
            show chainItems (setLatestPointingNodes bF cur1).nodes post1 = _
            rw [setLatest_nodes]
            refine chainItems_eq_of_getN ?_
            intro j hj
            have hjc : j ≠ cur1 := fun hc => hcurpost1 (hc ▸ hj)
            have hjn : j ≠ newId := hfresh1 j
              (List.mem_append.mpr (Or.inr (List.mem_cons_of_mem cur1 hj)))
            exact (hfo j hjc hjn).trans (hSother j hjc hjn)
          cases hcu : (if newHeight > cn1.height then
              connectUntil bL newId (newHeight : Int) (cn1.height : Int)
            else some bL) with
          | none =>
            rw [hcu] at hrun
            dsimp only at hrun
            exact Option.noConfusion hrun
          | some bC =>
            rw [hcu] at hrun
            dsimp only at hrun
            have hfacts : ∃ hd3, InvAt bC hd3 (pre1 ++ cur1 :: newId :: post1) ∧
                (∃ cn3, bC.getN cur1 = some cn3 ∧ cn3.data = c1.data ∧
                  cn3.marked = c1.marked) ∧
                (∃ nn, bC.getN newId = some nn ∧ nn.data = e1.data ∧
                  nn.marked = e1.marked) ∧
                chainItems bC.nodes pre1 = chainItems bL.nodes pre1 ∧
                chainItems bC.nodes post1 = chainItems bL.nodes post1 := by
              by_cases hgt : newHeight > cn1.height
              · rw [if_pos hgt] at hcu
                rw [connectUntil] at hcu
                obtain ⟨hpresC, hlenC, hchC, hn0C, hpzC⟩ :=
                  connectUntilAux_pres newId hnewId0 _ bL _ _ bC
                    (by exact_mod_cast hcn1ht.1) hinvL.no_ptr_zero hcu
                obtain ⟨hd3, hinvC, _, _, _⟩ :=
                  invAt_transport hinvL hpresC hlenC hchC hn0C hpzC
                obtain ⟨cn3, hgC3, hd3', hm3, _, _⟩ := hpresC cur1 c1 hgLc
                obtain ⟨nn, hgCe3, hde, hme, _, _⟩ := hpresC newId e1 hgLe
                refine ⟨hd3, hinvC, ⟨cn3, hgC3, hd3', hm3⟩,
                  ⟨nn, hgCe3, hde, hme⟩, ?_, ?_⟩
                · exact storePres_chainItems hpresC (fun j hj =>
                    chainSeg_mem_get hinvL.chain j
                      (List.mem_append.mpr (Or.inl hj)))
                · exact storePres_chainItems hpresC (fun j hj =>
                    chainSeg_mem_get hinvL.chain j
                      (List.mem_append.mpr (Or.inr (List.mem_cons_of_mem cur1
                        (List.mem_cons_of_mem newId hj)))))
              · rw [if_neg hgt] at hcu
                obtain rfl : bL = bC := (Option.some.injEq _ _).mp hcu
                exact ⟨hd1, hinvL, ⟨c1, hgLc, rfl, rfl⟩, ⟨e1, hgLe, rfl, rfl⟩,
                  rfl, rfl⟩
            obtain ⟨hd3, hinvC, ⟨cn3', hgC1, hc3d, hc3m⟩,
              ⟨nn', hgCe, hnnd, hnnm⟩, hpreCL, hpostCL⟩ := hfacts
            have hpreC : chainItems bC.nodes pre1 =
                chainItems b1.nodes pre1 := hpreCL.trans hpreL
            have hpostC : chainItems bC.nodes post1 =
                chainItems b1.nodes post1 := hpostCL.trans hpostL
            rw [hgC1] at hrun
            dsimp only at hrun
            have hc3data : cn3'.data = cn1.data.take (cn1.data.length / 2) :=
              hc3d.trans hc1data
            have hc3marked : cn3'.marked = cn1.marked := hc3m.trans hc1mk
            have hnndata : nn'.data = cn1.data.drop (cn1.data.length / 2) :=
              hnnd.trans he1data
            have hnnmarked : nn'.marked = false := hnnm.trans he1mk
            have hlen3 : cn3'.data.length = cn1.data.length / 2 := by
              rw [hc3data, List.length_take,
                Nat.min_eq_left (Nat.div_le_self _ _)]
            have hlen3ne : cn3'.data.length ≠ 0 := by
              rw [hlen3, hlen32]
              decide
            have hc3sub : ∀ x ∈ cn3'.data, x ∈ cn1.data := by
              rw [hc3data]
              exact fun x hx => (List.take_sublist _ _).mem hx
            by_cases hmax : (cn3'.CheckKeyStrictlyLessThanMax ih.key).1 = true
            · rw [if_pos hmax] at hrun
              by_cases hr2 : (cn3'.Insert ih).2.isSome = true
              · rw [if_pos hr2] at hrun
                exact Option.noConfusion hrun
              · rw [if_neg hr2] at hrun
                have hr2n : (cn3'.Insert ih).2 = none :=
                  Option.not_isSome_iff_eq_none.mp hr2
                have hs3sorted : sortedItems cn3'.data :=
                  hinvC.node_sorted cur1 cn3' hgC1
                obtain ⟨hdata2, habs2, hmk2, hht2, hnn2⟩ :=
                  node_insert_ok hs3sorted hr2n
                have haftmax : ∀ it ∈ chainItems bC.nodes (newId :: post1),
                    ih.key < it.key := after_gt_of_max hinvC hgC1 hmax
                have hallC : sortedItems (chainItems bC.nodes pre1 ++
                    (cn3'.data ++ chainItems bC.nodes (newId :: post1))) := by
                  rw [← chainItems_decomp hgC1]
                  exact hinvC.items_sorted
                have hbefC : ∀ it ∈ chainItems bC.nodes pre1,
                    it.key < ih.key := by
                  intro it hit
                  rw [hpreC] at hit
                  exact hbef1 it hit
                have hsD2 : sortedItems (cn3'.Insert ih).1.data := by
                  rw [hdata2]
                  exact sorted_insert_item hs3sorted habs2
                have hmemD2 : ∀ x ∈ (cn3'.Insert ih).1.data,
                    x ∈ cn3'.data ∨ x = ih := by
                  rw [hdata2]
                  exact fun x hx => mem_insert_item hx
                have hitems3 : sortedItems (chainItems bC.nodes pre1 ++
                    ((cn3'.Insert ih).1.data ++
                      chainItems bC.nodes (newId :: post1))) :=
                  sorted_concat_insert hallC hsD2 hmemD2 rfl hbefC haftmax
                have hdatne2 : (cn3'.Insert ih).1.data ≠ [] := by
                  rw [hdata2]
                  intro hc
                  rcases List.append_eq_nil.mp hc with ⟨_, h2⟩
                  exact List.noConfusion h2
                have hinv4 : InvAt (bC.setN cur1 (cn3'.Insert ih).1) hd3
                    (pre1 ++ cur1 :: newId :: post1) := by
                  refine invAt_set_node hinvC hcur10 hgC1 hht2 hnn2 hsD2
                    hitems3 ?_ ?_
                  · intro _ hdat
                    exact absurd hdat hdatne2
                  · intro hdrop hmkt
                    exfalso
                    rw [hmk2, hc3marked] at hmkt
                    have hpre1nil := hmkfirst1 hmkt
                    rw [hpre1nil] at hdrop
                    simp only [List.nil_append, List.drop_one,
                      List.tail_cons] at hdrop
                    rcases List.mem_cons.mp hdrop with hx | hx
                    · exact hcurnew hx
                    · exact hcurpost1 hx
                cases hrec : insertLoop fuel (bC.setN cur1 (cn3'.Insert ih).1)
                    cur1 rest with
                | none =>
                  rw [hrec] at hrun
                  exact Option.noConfusion hrun
                | some pr =>
                  rw [hrec] at hrun
                  obtain ⟨bf, es⟩ := pr
                  dsimp only at hrun
                  cases hrun
                  have hbeforeR : ∀ it ∈
                      chainItems (bC.setN cur1 (cn3'.Insert ih).1).nodes pre1,
                      ∀ x ∈ rest, it.key < x.key := by
                    intro it hit x hx
                    rw [chainItems_setN_not_mem _ hcurpre1, hpreC] at hit
                    have h1 := hbef1 it hit
                    have h2 := hrestle x hx
                    omega
                  have hmkR : ∀ cn,
                      (bC.setN cur1 (cn3'.Insert ih).1).getN cur1 = some cn →
                      cn.marked = true → pre1 = [] := by
                    intro cn hg hmkc
                    rw [getN_setN_self _ (getN_some_lt hgC1)] at hg
                    cases hg
                    rw [hmk2, hc3marked] at hmkc
                    exact hmkfirst1 hmkc
                  exact ihr _ cur1 hd3 pre1 (newId :: post1) (bf, es) hinv4
                    hcur10 hbeforeR (List.Chain'.tail hchain) hmkR hrec
            · rw [if_neg hmax] at hrun
              rw [hgCe] at hrun
              dsimp only at hrun
              by_cases hr2 : (nn'.Insert ih).2.isSome = true
              · rw [if_pos hr2] at hrun
                exact Option.noConfusion hrun
              · rw [if_neg hr2] at hrun
                have hr2n : (nn'.Insert ih).2 = none :=
                  Option.not_isSome_iff_eq_none.mp hr2
                have hnnsorted : sortedItems nn'.data :=
                  hinvC.node_sorted newId nn' hgCe
                obtain ⟨hdata2, habs2, hmk2, hht2, hnn2⟩ :=
                  node_insert_ok hnnsorted hr2n
                have hmaxf : (cn3'.CheckKeyStrictlyLessThanMax ih.key).1 =
                    false := by
                  cases hb : (cn3'.CheckKeyStrictlyLessThanMax ih.key).1 with
                  | false => rfl
                  | true => exact absurd hb hmax
                have hc3lt : ∀ x ∈ cn3'.data, x.key < ih.key := by
                  intro x hx
                  have hle := sorted_le_max
                    (hinvC.node_sorted cur1 cn3' hgC1) x hx
                  have hmaxle := checkMax_false hlen3ne hmaxf
                  have hne := habsent x (hc3sub x hx)
                  omega
                have hinvC' : InvAt bC hd3
                    ((pre1 ++ [cur1]) ++ newId :: post1) := by
                  rw [append_singleton_assoc]
                  exact hinvC
                have hallC : sortedItems
                    (chainItems bC.nodes (pre1 ++ [cur1]) ++
                      (nn'.data ++ chainItems bC.nodes post1)) := by
                  rw [← chainItems_decomp hgCe]
                  exact hinvC'.items_sorted
                have hbefC' : ∀ it ∈ chainItems bC.nodes (pre1 ++ [cur1]),
                    it.key < ih.key := by
                  intro it hit
                  rw [chainItems_append] at hit
                  rcases List.mem_append.mp hit with h | h
                  · rw [hpreC] at h
                    exact hbef1 it h
                  · simp only [chainItems, List.append_nil] at h
                    unfold dataAt at h
                    rw [show bC.nodes.get? cur1 = some cn3' from hgC1] at h
                    dsimp only at h
                    exact hc3lt it h
                have haftC : ∀ it ∈ chainItems bC.nodes post1,
                    ih.key < it.key := by
                  intro it hit
                  rw [hpostC] at hit
                  exact haft1 it hit
                have hsD2 : sortedItems (nn'.Insert ih).1.data := by
                  rw [hdata2]
                  exact sorted_insert_item hnnsorted habs2
                have hmemD2 : ∀ x ∈ (nn'.Insert ih).1.data,
                    x ∈ nn'.data ∨ x = ih := by
                  rw [hdata2]
                  exact fun x hx => mem_insert_item hx
                have hitems3 : sortedItems
                    (chainItems bC.nodes (pre1 ++ [cur1]) ++
                      ((nn'.Insert ih).1.data ++ chainItems bC.nodes post1)) :=
                  sorted_concat_insert hallC hsD2 hmemD2 rfl hbefC' haftC
                have hdatne2 : (nn'.Insert ih).1.data ≠ [] := by
                  rw [hdata2]
                  intro hc
                  rcases List.append_eq_nil.mp hc with ⟨_, h2⟩
                  exact List.noConfusion h2
                have hinv4 : InvAt (bC.setN newId (nn'.Insert ih).1) hd3
                    ((pre1 ++ [cur1]) ++ newId :: post1) := by
                  refine invAt_set_node hinvC' hnewId0 hgCe hht2 hnn2 hsD2
                    hitems3 ?_ ?_
                  · intro _ hdat
                    exact absurd hdat hdatne2
                  · intro _ hmkt
                    exfalso
                    rw [hmk2, hnnmarked] at hmkt
                    exact Bool.noConfusion hmkt
                have hinv5 : InvAt (setLatestPointingNodes
                    (bC.setN newId (nn'.Insert ih).1) newId) hd3
                    ((pre1 ++ [cur1]) ++ newId :: post1) :=
                  invAt_setLatest newId hinv4
                cases hrec : insertLoop fuel (setLatestPointingNodes
                    (bC.setN newId (nn'.Insert ih).1) newId) newId rest with
                | none =>
                  rw [hrec] at hrun
                  exact Option.noConfusion hrun
                | some pr =>
                  rw [hrec] at hrun
                  obtain ⟨bf, es⟩ := pr
                  dsimp only at hrun
                  cases hrun
                  have hnewnm : newId ∉ pre1 ++ [cur1] := by
                    intro hm
                    rcases List.mem_append.mp hm with h | h
                    · exact (hfresh1 newId
                        (List.mem_append.mpr (Or.inl h))) rfl
                    · exact hcurnew (List.mem_singleton.mp h).symm
                  have hbeforeR : ∀ it ∈ chainItems (setLatestPointingNodes
                      (bC.setN newId (nn'.Insert ih).1) newId).nodes
                      (pre1 ++ [cur1]), ∀ x ∈ rest, it.key < x.key := by
                    intro it hit x hx
                    rw [setLatest_nodes] at hit
                    rw [chainItems_setN_not_mem _ hnewnm] at hit
                    have h1 := hbefC' it hit
                    have h2 := hrestle x hx
                    omega
                  have hmkR : ∀ cn, (setLatestPointingNodes
                      (bC.setN newId (nn'.Insert ih).1) newId).getN newId =
                      some cn → cn.marked = true → pre1 ++ [cur1] = [] := by
                    intro cn hg hmkc
                    rw [show (setLatestPointingNodes
                        (bC.setN newId (nn'.Insert ih).1) newId).getN newId =
                        (bC.setN newId (nn'.Insert ih).1).getN newId from by
                      rw [BowlT.getN, BowlT.getN, setLatest_nodes]] at hg
                    rw [getN_setN_self _ (getN_some_lt hgCe)] at hg
                    cases hg
                    rw [hmk2, hnnmarked] at hmkc
                    exact Bool.noConfusion hmkc
                  exact ihr _ newId hd3 (pre1 ++ [cur1]) post1 (bf, es) hinv5
                    hnewId0 hbeforeR (List.Chain'.tail hchain) hmkR hrec
      · rw [if_neg hfull] at hrun
        cases herr : (cn1.Insert ih).2 with
        | some e =>
          rw [node_insert_err herr] at hrun
          have hb1'eq : b1.setN cur1 cn1 = b1 := by
            rw [BowlT.setN, list_set_get_self_gen _ _ _ hgcur1]
          rw [hb1'eq] at hrun
          cases hrec : insertLoop fuel b1 cur1 rest with
          | none =>
            rw [hrec] at hrun
            exact Option.noConfusion hrun
          | some pr =>
            rw [hrec] at hrun
            obtain ⟨bf, es⟩ := pr
            dsimp only at hrun
            cases hrun
            have hbeforeR : ∀ it ∈ chainItems b1.nodes pre1, ∀ x ∈ rest,
                it.key < x.key := by
              intro it hit x hx
              have h1 := hbef1 it hit
              have h2 := hrestle x hx
              omega
            have hmkR : ∀ cn, b1.getN cur1 = some cn → cn.marked = true →
                pre1 = [] := by
              intro cn hg hmk
              rw [hgcur1'] at hg
              cases hg
              exact hmkfirst1 hmk
            exact ihr b1 cur1 hd1 pre1 post1 (bf, es) hinv1 hcur10 hbeforeR
              (List.Chain'.tail hchain) hmkR hrec
        | none =>
          obtain ⟨hdata, habs, hmk, hht, hnn⟩ := node_insert_ok hs1sorted herr
          have hall : sortedItems (chainItems b1.nodes pre1 ++
              (cn1.data ++ chainItems b1.nodes post1)) := by
            rw [← chainItems_decomp hgcur1']
            exact hinv1.items_sorted
          have hsD' : sortedItems (cn1.Insert ih).1.data := by
            rw [hdata]
            exact sorted_insert_item hs1sorted habs
          have hmemD' : ∀ x ∈ (cn1.Insert ih).1.data, x ∈ cn1.data ∨ x = ih := by
            rw [hdata]
            exact fun x hx => mem_insert_item hx
          have hitems2 : sortedItems (chainItems b1.nodes pre1 ++
              ((cn1.Insert ih).1.data ++ chainItems b1.nodes post1)) :=
            sorted_concat_insert hall hsD' hmemD' rfl hbef1 haft1
          have hdatne : (cn1.Insert ih).1.data ≠ [] := by
            rw [hdata]
            intro hc
            rcases List.append_eq_nil.mp hc with ⟨_, h2⟩
            exact List.noConfusion h2
          have hinv2 : InvAt (b1.setN cur1 (cn1.Insert ih).1) hd1
              (pre1 ++ cur1 :: post1) := by
            refine invAt_set_node hinv1 hcur10 hgcur1' hht hnn hsD' hitems2 ?_ ?_
            · intro _ hdat
              exact absurd hdat hdatne
            · intro hdrop hmkt
              exfalso
              rw [hmk] at hmkt
              have hpre1nil := hmkfirst1 hmkt
              rw [hpre1nil] at hdrop
              simp only [List.nil_append, List.drop_one, List.tail_cons] at hdrop
              exact hcurpost1 hdrop
          cases hrec : insertLoop fuel (b1.setN cur1 (cn1.Insert ih).1) cur1
              rest with
          | none =>
            rw [hrec] at hrun
            exact Option.noConfusion hrun
          | some pr =>
            rw [hrec] at hrun
            obtain ⟨bf, es⟩ := pr
            dsimp only at hrun
            cases hrun
            have hbeforeR : ∀ it ∈
                chainItems (b1.setN cur1 (cn1.Insert ih).1).nodes pre1,
                ∀ x ∈ rest, it.key < x.key := by
              intro it hit x hx
              rw [chainItems_setN_not_mem _ hcurpre1] at hit
              have h1 := hbef1 it hit
              have h2 := hrestle x hx
              omega
            have hmkR : ∀ cn,
                (b1.setN cur1 (cn1.Insert ih).1).getN cur1 = some cn →
                cn.marked = true → pre1 = [] := by
              intro cn hg hmkc
              rw [getN_setN_self _ (getN_some_lt hgcur1')] at hg
              cases hg
              rw [hmk] at hmkc
              exact hmkfirst1 hmkc
            exact ihr _ cur1 hd1 pre1 post1 (bf, es) hinv2 hcur10 hbeforeR
              (List.Chain'.tail hchain) hmkR hrec

/-- `Insert` preserves the invariant for a sorted batch. -/
theorem bowlInsert_inv (fuel : Nat) {b : BowlT} {hd : Node} {ids : List Nat}
    {ihs : List Item} {res : BowlT × List (Option Err)}
    (hinv : InvAt b hd ids)
    (hsort : (ihs.map Item.key).Chain' (· ≤ ·))
    (hrun : bowlInsert b ihs fuel = some res) :
    ∃ hd2 ids2, InvAt res.1 hd2 ids2 := by
  cases ihs with
  | nil =>
    rw [bowlInsert] at hrun
    exact Option.noConfusion hrun
  | cons ih0 rest =>
    rw [bowlInsert] at hrun
    have hinvR : InvAt (resetLatestPointingNodes b) hd ids :=
      @invAt_of_nodes_ch_eq b (resetLatestPointingNodes b) hd ids rfl rfl hinv
    cases hg : getNextNodeFromHead (resetLatestPointingNodes b) ih0.key
        fuel with
    | none =>
      rw [hg] at hrun
      exact Option.noConfusion hrun
    | some pair =>
      rw [hg] at hrun
      obtain ⟨b0, cur0⟩ := pair
      dsimp only at hrun
      obtain ⟨hd0, post0, hinv0⟩ :=
        gnnfh_spec ih0.key fuel _ hd ids (b0, cur0) hinvR hg
      replace hinv0 : InvAt b0 hd0 (cur0 :: post0) := hinv0
      have hcur0 : cur0 ≠ 0 := by
        intro hc
        refine inv_zero_not_mem hinv0 ?_
        rw [← hc]
        exact List.mem_cons_self cur0 post0
      refine insertLoop_spec fuel (ih0 :: rest) b0 cur0 hd0 [] post0 res
        ?_ hcur0 ?_ hsort ?_ hrun
      · rw [List.nil_append]
        exact hinv0
      · intro it hit
        simp only [chainItems] at hit
        exact absurd hit (List.not_mem_nil it)
      · intro _ _ _
        rfl

/-- `Update` preserves the invariant for a sorted batch. -/
theorem bowlUpdate_inv (fuel : Nat) {b : BowlT} {hd : Node} {ids : List Nat}
    {ihs : List Item} {res : BowlT × List (Option Err)}
    (hinv : InvAt b hd ids)
    (hsort : (ihs.map Item.key).Chain' (· ≤ ·))
    (hrun : bowlUpdate b ihs fuel = some res) :
    ∃ hd2 ids2, InvAt res.1 hd2 ids2 := by
  cases ihs with
  | nil =>
    rw [bowlUpdate] at hrun
    exact Option.noConfusion hrun
  | cons ih0 rest =>
    rw [bowlUpdate] at hrun
    cases hg : getNextNodeFromHead b ih0.key fuel with
    | none =>
      rw [hg] at hrun
      exact Option.noConfusion hrun
    | some pair =>
      rw [hg] at hrun
      obtain ⟨b0, cur0⟩ := pair
      dsimp only at hrun
      obtain ⟨hd0, post0, hinv0⟩ :=
        gnnfh_spec ih0.key fuel _ hd ids (b0, cur0) hinv hg
      replace hinv0 : InvAt b0 hd0 (cur0 :: post0) := hinv0
      have hcur0 : cur0 ≠ 0 := by
        intro hc
        refine inv_zero_not_mem hinv0 ?_
        rw [← hc]
        exact List.mem_cons_self cur0 post0
      refine updateLoop_spec fuel (ih0 :: rest) b0 cur0 hd0 [] post0 res
        ?_ hcur0 ?_ hsort hrun
      · rw [List.nil_append]
        exact hinv0
      · intro it hit
        simp only [chainItems] at hit
        exact absurd hit (List.not_mem_nil it)

/-- `Delete` preserves the invariant for a sorted batch. -/
theorem bowlDelete_inv (fuel : Nat) {b : BowlT} {hd : Node} {ids : List Nat}
    {keys : List Int} {res : BowlT × List (Option Err)}
    (hinv : InvAt b hd ids)
    (hsort : keys.Chain' (· ≤ ·))
    (hrun : bowlDelete b keys fuel = some res) :
    ∃ hd2 ids2, InvAt res.1 hd2 ids2 := by
  cases keys with
  | nil =>
    rw [bowlDelete] at hrun
    exact Option.noConfusion hrun
  | cons k0 rest =>
    rw [bowlDelete] at hrun
    cases hg : getNextNodeFromHead b k0 fuel with
    | none =>
      rw [hg] at hrun
      exact Option.noConfusion hrun
    | some pair =>
      rw [hg] at hrun
      obtain ⟨b0, cur0⟩ := pair
      dsimp only at hrun
      obtain ⟨hd0, post0, hinv0⟩ :=
        gnnfh_spec k0 fuel _ hd ids (b0, cur0) hinv hg
      replace hinv0 : InvAt b0 hd0 (cur0 :: post0) := hinv0
      have hcur0 : cur0 ≠ 0 := by
        intro hc
        refine inv_zero_not_mem hinv0 ?_
        rw [← hc]
        exact List.mem_cons_self cur0 post0
      refine deleteLoop_spec fuel (k0 :: rest) b0 cur0 hd0 [] post0 res
        ?_ hcur0 ?_ hsort hrun
      · rw [List.nil_append]
        exact hinv0
      · intro it hit
        simp only [chainItems] at hit
        exact absurd hit (List.not_mem_nil it)

/-- Any one batched operation with sorted input preserves the invariant. -/
theorem runOp_inv (fuel : Nat) {b b2 : BowlT} {hd : Node} {ids : List Nat}
    {op : BatchOp} (hinv : InvAt b hd ids) (hs : op.sortedInput)
    (hrun : runOp fuel b op = some b2) :
    ∃ hd2 ids2, InvAt b2 hd2 ids2 := by
  cases op with
  | insert ihs =>
    rw [runOp] at hrun
    cases hx : bowlInsert b ihs fuel with
    | none =>
      rw [hx] at hrun
      exact Option.noConfusion hrun
    | some pr =>
      rw [hx] at hrun
      simp only [Option.map_some' ] at hrun
      cases hrun
      exact bowlInsert_inv fuel hinv hs hx
  | update ihs =>
    rw [runOp] at hrun
    cases hx : bowlUpdate b ihs fuel with
    | none =>
      rw [hx] at hrun
      exact Option.noConfusion hrun
    | some pr =>
      rw [hx] at hrun
      simp only [Option.map_some' ] at hrun
      cases hrun
      exact bowlUpdate_inv fuel hinv hs hx
  | delete keys =>
    rw [runOp] at hrun
    cases hx : bowlDelete b keys fuel with
    | none =>
      rw [hx] at hrun
      exact Option.noConfusion hrun
    | some pr =>
      rw [hx] at hrun
      simp only [Option.map_some' ] at hrun
      cases hrun
      exact bowlDelete_inv fuel hinv hs hx

/-- Any sequence of batched operations with sorted inputs preserves the
invariant. -/
theorem runOps_inv (fuel : Nat) :
    ∀ (ops : List BatchOp) (b : BowlT) (hd : Node) (ids : List Nat)
      (b2 : BowlT),
    InvAt b hd ids → (∀ op ∈ ops, op.sortedInput) →
    runOps fuel b ops = some b2 →
    ∃ hd2 ids2, InvAt b2 hd2 ids2 := by
  intro ops
  induction ops with
  | nil =>
    intro b hd ids b2 hinv _ hrun
    rw [runOps] at hrun
    cases hrun
    exact ⟨hd, ids, hinv⟩
  | cons op ops iho =>
    intro b hd ids b2 hinv hs hrun
    rw [runOps] at hrun
    cases hx : runOp fuel b op with
    | none =>
      rw [hx] at hrun
      exact Option.noConfusion hrun
    | some bm =>
      rw [hx] at hrun
      obtain ⟨hdm, idsm, hinvm⟩ :=
        runOp_inv fuel hinv (hs op (List.mem_cons_self op ops)) hx
      exact iho bm hdm idsm b2 hinvm
        (fun o ho => hs o (List.mem_cons_of_mem op ho)) hrun

/-- The fresh list satisfies the invariant over the empty chain. -/
theorem invAt_newBOWL (ch : List Nat)
    (hch : ∀ h ∈ ch, 1 ≤ h ∧ h ≤ MAX_HEIGHT) :
    InvAt (NewBOWL ch) (NewEmptyNode MAX_HEIGHT 0) [] := by
  have hg0 : (NewBOWL ch).getN 0 = some (NewEmptyNode MAX_HEIGHT 0) := rfl
  have hn0 : next0 (NewEmptyNode MAX_HEIGHT 0) = none := by
    unfold next0 NewEmptyNode
    exact getD_replicate_none _ _
  refine ⟨hg0, rfl, rfl, rfl, ?_, ?_, ?_, ?_, ?_, ?_, ?_, ?_, hch, ?_⟩
  · rw [hn0]
    exact ChainSeg.nil none
  · intro j n hg
    cases j with
    | zero =>
      have hne : NewEmptyNode MAX_HEIGHT 0 = n :=
        (Option.some.injEq _ _).mp hg
      rw [← hne]
      show (List.replicate MAX_HEIGHT (none : Option Nat)).length = MAX_HEIGHT
      exact List.length_replicate _ _
    | succ j => exact Option.noConfusion hg
  · intro j n hg
    cases j with
    | zero =>
      have hne : NewEmptyNode MAX_HEIGHT 0 = n :=
        (Option.some.injEq _ _).mp hg
      rw [← hne]
      show 1 ≤ MAX_HEIGHT ∧ MAX_HEIGHT ≤ MAX_HEIGHT
      exact ⟨by decide, le_refl _⟩
    | succ j => exact Option.noConfusion hg
  · intro j n hg
    cases j with
    | zero =>
      have hne : NewEmptyNode MAX_HEIGHT 0 = n :=
        (Option.some.injEq _ _).mp hg
      rw [← hne]
      exact sortedItems_nil
    | succ j => exact Option.noConfusion hg
  · intro j n hg _
    cases j with
    | zero => exact Or.inl rfl
    | succ j => exact Option.noConfusion hg
  · intro j n lvl hg
    cases j with
    | zero =>
      have hne : NewEmptyNode MAX_HEIGHT 0 = n :=
        (Option.some.injEq _ _).mp hg
      rw [← hne]
      show (List.replicate MAX_HEIGHT (none : Option Nat)).getD lvl none ≠
        some 0
      rw [getD_replicate_none]
      intro hc
      exact Option.noConfusion hc
    | succ j => exact Option.noConfusion hg
  · intro j hj
    simp only [List.drop_nil] at hj
    exact absurd hj (List.not_mem_nil j)
  · intro j hj
    exact absurd hj (List.not_mem_nil j)
  · exact sortedItems_nil

/-- Strictly ascending items have pairwise-distinct keys. -/
theorem sortedItems_keys_nodup {l : List Item} (hs : sortedItems l) :
    (l.map Item.key).Nodup := by
  have hp := List.chain'_iff_pairwise.mp (sortedItems_iff_keys.mp hs)
  exact hp.imp (fun h => ne_of_lt h)

/-- The `ScanAll` walk delivers a sublist of the items hanging off the
chain suffix it starts from. -/
theorem bowlScanAllLoop_spec :
    ∀ (fuel : Nat) (b : BowlT) (hd : Node) (ctx rest : List Nat) (nid : Nat)
      (res : BowlT × List Item),
    InvAt b hd (ctx ++ nid :: rest) →
    bowlScanAllLoop fuel b nid = some res →
    List.Sublist res.2 (chainItems b.nodes (nid :: rest)) := by
  intro fuel
  induction fuel with
  | zero =>
    intro b hd ctx rest nid res _ hrun
    exact Option.noConfusion hrun
  | succ f ihf =>
    intro b hd ctx rest nid res hinv hrun
    rw [bowlScanAllLoop] at hrun
    obtain ⟨n, hgn⟩ := chainSeg_mem_get hinv.chain nid
      (List.mem_append.mpr (Or.inr (List.mem_cons_self nid rest)))
    have hgn' : b.getN nid = some n := hgn
    rw [hgn'] at hrun
    dsimp only at hrun
    have hht := (hinv.node_ht nid n hgn').1
    rw [getNextNodeAt_zero hht] at hrun
    obtain ⟨m, hcpre, hccur⟩ := chainSeg_append_iff.mp hinv.chain
    obtain ⟨hm_eq, n', hgn'', htl⟩ := chainSeg_cons_inv hccur
    subst hm_eq
    have hn'eq : n' = n := by
      have hx : b.getN nid = some n' := hgn''
      rw [hgn'] at hx
      exact ((Option.some.injEq _ _).mp hx).symm
    rw [hn'eq] at htl
    have hda : dataAt b.nodes nid = n.data := by
      unfold dataAt
      rw [hgn]
    cases hnx : next0 n with
    | none =>
      rw [hnx] at hrun
      cases hrun
      show List.Sublist n.ScanAll _
      rw [Node.ScanAll]
      show List.Sublist n.data (dataAt b.nodes nid ++ chainItems b.nodes rest)
      rw [hda]
      exact List.sublist_append_left _ _
    | some nx =>
      rw [hnx] at hrun
      dsimp only at hrun
      rw [scanNext_eq_chase] at hrun
      cases rest with
      | nil =>
        exfalso
        have hnil := chainSeg_nil_inv htl
        rw [hnx] at hnil
        exact Option.noConfusion hnil
      | cons r rs =>
        obtain ⟨hr_eq, rn, hgrn, htl2⟩ := chainSeg_cons_inv htl
        have hrnx : r = nx := by
          rw [hnx] at hr_eq
          exact ((Option.some.injEq _ _).mp hr_eq).symm
        rw [hrnx] at hgrn
        cases hch : getNextNodeAtHeightNotMarkedRemoval 0 nid f b nx with
        | none =>
          rw [hch] at hrun
          exact Option.noConfusion hrun
        | some cres =>
          rw [hch] at hrun
          obtain ⟨bc, ok, k⟩ := cres
          dsimp only at hrun
          have hctxseg : ChainSeg b.nodes (next0 hd) (ctx ++ [nid])
              (some nx) := by
            refine chainSeg_append_iff.mpr ⟨some nid, hcpre, ?_⟩
            refine ChainSeg.cons hgn ?_
            rw [hnx]
            exact ChainSeg.nil _
          have hsfxseg : ChainSeg b.nodes (some nx) (nx :: rs) none :=
            ChainSeg.cons hgrn htl2
          have hinvA : InvAt b hd ((ctx ++ [nid]) ++ nx :: rs) := by
            rw [append_singleton_assoc, ← hrnx]
            exact hinv
          obtain ⟨hd', sfx', hinvc, hshp, hpres, hlen, hchq, hctx2, hsfx2,
            hsuffix, hoktrue, hokfalse⟩ :=
            chase0_spec (ctx ++ [nid]) nid (Or.inr ⟨ctx, rfl⟩) f b hd
              (nx :: rs) nx (bc, ok, k) hinvA hctxseg hsfxseg hch
          replace hinvc : InvAt bc hd' ((ctx ++ [nid]) ++ sfx') := hinvc
          replace hsuffix : (chainItems bc.nodes sfx').IsSuffix
            (chainItems b.nodes (nx :: rs)) := hsuffix
          replace hoktrue : ok = true → ∃ nn rest2, bc.getN k = some nn ∧
            nn.marked = false ∧ sfx' = k :: rest2 := hoktrue
          by_cases hok : ok = true
          · rw [hok] at hrun
            simp only [Bool.not_true, Bool.false_eq_true, if_false] at hrun
            obtain ⟨nn, rest2, hgk, hnnmk, hsfx'⟩ := hoktrue hok
            rw [hsfx'] at hinvc
            cases hrec : bowlScanAllLoop f bc k with
            | none =>
              rw [hrec] at hrun
              exact Option.noConfusion hrun
            | some pr =>
              rw [hrec] at hrun
              obtain ⟨bf, out⟩ := pr
              dsimp only at hrun
              cases hrun
              have hsub1 : List.Sublist out (chainItems bc.nodes (k :: rest2)) :=
                ihf bc hd' (ctx ++ [nid]) rest2 k (bf, out) hinvc hrec
              have hsub2 : List.Sublist out (chainItems b.nodes (nx :: rs)) := by
                refine List.Sublist.trans ?_ hsuffix.sublist
                rw [hsfx']
                exact hsub1
              show List.Sublist (n.ScanAll ++ out) _
              rw [Node.ScanAll]
              show List.Sublist (n.data ++ out)
                (dataAt b.nodes nid ++ chainItems b.nodes (r :: rs))
              rw [hda, hrnx]
              exact List.Sublist.append (List.Sublist.refl _) hsub2
          · have hokf : ok = false := by
              cases ok with
              | false => rfl
              | true => exact absurd rfl hok
            rw [hokf] at hrun
            simp only [Bool.not_false, if_true] at hrun
            cases hrun
            show List.Sublist n.ScanAll _
            rw [Node.ScanAll]
            show List.Sublist n.data
              (dataAt b.nodes nid ++ chainItems b.nodes (r :: rs))
            rw [hda]
            exact List.sublist_append_left _ _

/-- On any state satisfying the invariant, `ScanAll` emits strictly
ascending items, hence pairwise-distinct keys. -/
theorem bowlScanAll_spec {b : BowlT} {hd : Node} {ids : List Nat} {fuel : Nat}
    {res : BowlT × List Item}
    (hinv : InvAt b hd ids) (hrun : bowlScanAll b fuel = some res) :
    sortedItems res.2 ∧ (res.2.map Item.key).Nodup := by
  rw [bowlScanAll, getValidNodeToStartScan, hinv.hhd] at hrun
  dsimp only at hrun
  have hhd1 : 1 ≤ hd.height := by
    rw [hinv.hd_height]
    decide
  rw [getNextNodeAt_zero hhd1] at hrun
  cases hnx : next0 hd with
  | none =>
    rw [hnx] at hrun
    dsimp only at hrun
    cases hrun
    exact ⟨sortedItems_nil, List.nodup_nil⟩
  | some nid =>
    rw [hnx] at hrun
    dsimp only at hrun
    cases hch : getNextNodeAtHeightNotMarkedRemoval 0 0 fuel b nid with
    | none =>
      rw [hch] at hrun
      exact Option.noConfusion hrun
    | some cres =>
      rw [hch] at hrun
      obtain ⟨bc, ok, k⟩ := cres
      dsimp only at hrun
      have hinv0 : InvAt b hd ([] ++ ids) := by
        rw [List.nil_append]
        exact hinv
      have hctxseg : ChainSeg b.nodes (next0 hd) [] (some nid) := by
        rw [hnx]
        exact ChainSeg.nil _
      have hsfxseg : ChainSeg b.nodes (some nid) ids none := by
        have hcn := hinv.chain
        rw [hnx] at hcn
        exact hcn
      obtain ⟨hd', sfx', hinvc, hshp, hpres, hlen, hchq, hctx2, hsfx2,
        hsuffix, hoktrue, hokfalse⟩ :=
        chase0_spec [] 0 (Or.inl ⟨rfl, rfl⟩) fuel b hd ids nid (bc, ok, k)
          hinv0 hctxseg hsfxseg hch
      replace hinvc : InvAt bc hd' ([] ++ sfx') := hinvc
      replace hoktrue : ok = true → ∃ nn rest2, bc.getN k = some nn ∧
        nn.marked = false ∧ sfx' = k :: rest2 := hoktrue
      by_cases hok : ok = true
      · rw [hok] at hrun
        rw [if_pos (rfl : true = true)] at hrun
        dsimp only at hrun
        obtain ⟨nn, rest2, hgk, hnnmk, hsfx'⟩ := hoktrue hok
        rw [hsfx'] at hinvc
        have hsub : List.Sublist res.2 (chainItems bc.nodes (k :: rest2)) :=
          bowlScanAllLoop_spec fuel bc hd' [] rest2 k res hinvc hrun
        have hs0 := hinvc.items_sorted
        rw [List.nil_append] at hs0
        have hsorted : sortedItems res.2 := sortedItems_sublist hsub hs0
        exact ⟨hsorted, sortedItems_keys_nodup hsorted⟩
      · have hokf : ok = false := by
          cases ok with
          | false => rfl
          | true => exact absurd rfl hok
        rw [hokf] at hrun
        rw [if_neg (fun hc => Bool.noConfusion hc)] at hrun
        dsimp only at hrun
        cases hrun
        exact ⟨sortedItems_nil, List.nodup_nil⟩

/-- C1: for every sequence of batched Insert, Update and Delete operations
with sorted inputs starting from a new list, a subsequent ScanAll visits
items in strictly ascending key order, and consequently no key is visited
twice. -/
theorem claim_C1 (ch : List Nat) (ops : List BatchOp) (fuel fuel2 : Nat)
    (b2 : BowlT) (res : BowlT × List Item)
    (hch : ∀ h ∈ ch, 1 ≤ h ∧ h ≤ MAX_HEIGHT)
    (hsorted : ∀ op ∈ ops, op.sortedInput)
    (hops : runOps fuel (NewBOWL ch) ops = some b2)
    (hscan : bowlScanAll b2 fuel2 = some res) :
    sortedItems res.2 ∧ (res.2.map Item.key).Nodup := by
  obtain ⟨hd2, ids2, hinv2⟩ := runOps_inv fuel ops (NewBOWL ch)
    (NewEmptyNode MAX_HEIGHT 0) [] b2 (invAt_newBOWL ch hch) hsorted hops
  exact bowlScanAll_spec hinv2 hscan

theorem claim_C1_witness :
    ∃ b2 res,
      runOps 40 (NewBOWL [1, 1]) [BatchOp.insert [⟨3, 30⟩, ⟨5, 50⟩],
        BatchOp.delete [3]] = some b2 ∧
      bowlScanAll b2 40 = some res ∧
      sortedItems res.2 ∧ (res.2.map Item.key).Nodup := by
  refine ⟨_, _, rfl, rfl, ?_⟩
  exact claim_C1 [1, 1]
    [BatchOp.insert [⟨3, 30⟩, ⟨5, 50⟩], BatchOp.delete [3]] 40 40 _ _
    (by decide)
    (by
      intro op hop
      rcases List.mem_cons.mp hop with rfl | hop2
      · show ([3, 5] : List Int).Chain' (· ≤ ·)
        exact List.chain'_pair.mpr (by decide)
      · rcases List.mem_cons.mp hop2 with rfl | hop3
        · show ([3] : List Int).Chain' (· ≤ ·)
          exact List.chain'_singleton _
        · exact absurd hop3 (List.not_mem_nil _))
    rfl rfl
